import Mathlib

/-!
# zdlist: generic doubly-linked cyclic list container (CZMQ `src/labs/zdlist.c`)

A shallow embedding of the C code.  Memory is an explicit store of `zdlist_t`
records addressed by machine addresses; every C function becomes a function on
that store.  Dereferencing `NULL` or a block that is not allocated, and a failed
`assert`, end the run with `Err.fault`; a recursion or loop that has not finished
when its step budget is used up ends with `Err.fuel`.
-/

namespace Zdlist

/-! ## Memory model -/

/-- Machine addresses.  `NULL` is address 0. -/
abbrev Ptr := Nat

/-- The null pointer. -/
abbrev NULL : Ptr := 0

/-- The record `struct _zdlist_t` (zdlist.c lines 44-50).  `item`, `destructor` and
`duplicator` are opaque pointer values (`void *` and function pointers); 0 is `NULL`. -/
structure zdlist_t where
  next : Ptr
  prev : Ptr
  item : Ptr
  destructor : Ptr
  duplicator : Ptr
deriving DecidableEq

/-- Calls made to caller-supplied callbacks, in program order.
`duplicate fn item` is the call `(fn) (item)` of a duplicator;
`destruct fn v` is the call `(fn) (&x)` of a destructor on a variable `x` holding `v`. -/
inductive Event where
  | duplicate (fn item : Ptr)
  | destruct (fn v : Ptr)
deriving DecidableEq

/-- Ways a run can end without a result. -/
inductive Err where
  | fault
  | fuel
deriving DecidableEq

/-- Program state: which blocks are allocated (`live`), what each block holds (`cell`;
the contents of a block that is not allocated are never read through a checked access),
and the callbacks invoked so far (`log`). -/
structure State where
  live : Ptr → Bool
  cell : Ptr → zdlist_t
  log : List Event

/-- The state before anything is allocated. -/
def State.empty : State := ⟨fun _ => false, fun _ => ⟨0, 0, 0, 0, 0⟩, []⟩

/-- A pointer that may be dereferenced: not `NULL` and allocated. -/
def State.valid (s : State) (p : Ptr) : Prop := p ≠ NULL ∧ s.live p = true

instance (s : State) (p : Ptr) : Decidable (s.valid p) :=
  inferInstanceAs (Decidable (p ≠ NULL ∧ s.live p = true))

/-- Field read `p->next` without the validity check. -/
def State.nx (s : State) (p : Ptr) : Ptr := (s.cell p).next
/-- Field read `p->prev` without the validity check. -/
def State.pv (s : State) (p : Ptr) : Ptr := (s.cell p).prev
/-- Field read `p->item` without the validity check. -/
def State.it (s : State) (p : Ptr) : Ptr := (s.cell p).item
/-- Field read `p->destructor` without the validity check. -/
def State.de (s : State) (p : Ptr) : Ptr := (s.cell p).destructor
/-- Field read `p->duplicator` without the validity check. -/
def State.du (s : State) (p : Ptr) : Ptr := (s.cell p).duplicator

/-- Field write `p->next = v` without the validity check. -/
def State.withNext (s : State) (p v : Ptr) : State :=
  { s with cell := fun q => if q = p then { s.cell p with next := v } else s.cell q }
/-- Field write `p->prev = v` without the validity check. -/
def State.withPrev (s : State) (p v : Ptr) : State :=
  { s with cell := fun q => if q = p then { s.cell p with prev := v } else s.cell q }
/-- Field write `p->item = v` without the validity check. -/
def State.withItem (s : State) (p v : Ptr) : State :=
  { s with cell := fun q => if q = p then { s.cell p with item := v } else s.cell q }
/-- Field write `p->destructor = v` without the validity check. -/
def State.withDestructor (s : State) (p v : Ptr) : State :=
  { s with cell := fun q => if q = p then { s.cell p with destructor := v } else s.cell q }
/-- Field write `p->duplicator = v` without the validity check. -/
def State.withDuplicator (s : State) (p v : Ptr) : State :=
  { s with cell := fun q => if q = p then { s.cell p with duplicator := v } else s.cell q }
/-- Append a callback invocation to the log. -/
def State.emit (s : State) (e : Event) : State := { s with log := s.log ++ [e] }

/-- Release of block `p`: it is no longer allocated; its contents are left as they were. -/
def State.release (s : State) (p : Ptr) : State :=
  { s with live := fun q => if q = p then false else s.live q }

/-- C `assert (c)`. -/
def c_assert (c : Prop) [Decidable c] : Except Err Unit :=
  if c then .ok () else .error Err.fault

/-- Checked field read `p->next`. -/
def get_next (s : State) (p : Ptr) : Except Err Ptr :=
  if s.valid p then .ok (s.nx p) else .error Err.fault
/-- Checked field read `p->prev`. -/
def get_prev (s : State) (p : Ptr) : Except Err Ptr :=
  if s.valid p then .ok (s.pv p) else .error Err.fault
/-- Checked field read `p->item`. -/
def get_item (s : State) (p : Ptr) : Except Err Ptr :=
  if s.valid p then .ok (s.it p) else .error Err.fault
/-- Checked field read `p->destructor`. -/
def get_destructor (s : State) (p : Ptr) : Except Err Ptr :=
  if s.valid p then .ok (s.de p) else .error Err.fault
/-- Checked field read `p->duplicator`. -/
def get_duplicator (s : State) (p : Ptr) : Except Err Ptr :=
  if s.valid p then .ok (s.du p) else .error Err.fault

/-- Checked field write `p->next = v`. -/
def set_next (s : State) (p v : Ptr) : Except Err State :=
  if s.valid p then .ok (s.withNext p v) else .error Err.fault
/-- Checked field write `p->prev = v`. -/
def set_prev (s : State) (p v : Ptr) : Except Err State :=
  if s.valid p then .ok (s.withPrev p v) else .error Err.fault
/-- Checked field write `p->item = v`. -/
def set_item (s : State) (p v : Ptr) : Except Err State :=
  if s.valid p then .ok (s.withItem p v) else .error Err.fault
/-- Checked field write `p->destructor = v`. -/
def set_destructor (s : State) (p v : Ptr) : Except Err State :=
  if s.valid p then .ok (s.withDestructor p v) else .error Err.fault
/-- Checked field write `p->duplicator = v`. -/
def set_duplicator (s : State) (p v : Ptr) : Except Err State :=
  if s.valid p then .ok (s.withDuplicator p v) else .error Err.fault

/-! ## The functions of zdlist.c -/

/-- Modelled from the spec: `zmalloc` (czmq_prelude.h) is not under src/.  The spec's
`construct` allocates a node and "fails only on allocation failure", and a constructed
node has no destructor and no duplicator, so the block comes back zero-filled.  `blk` is
the allocator's answer: `NULL` when out of memory, otherwise the address of the block. -/
def zmalloc (blk : Ptr) (s : State) : Ptr × State :=
  if blk = NULL then (NULL, s)
  else (blk, { s with live := fun q => if q = blk then true else s.live q,
                      cell := fun q => if q = blk then ⟨0, 0, 0, 0, 0⟩ else s.cell q })

/-- zdlist.c lines 56-66: `zdlist_new (item)`. -/
def zdlist_new (blk : Ptr) (s : State) (item : Ptr) : Except Err (Ptr × State) := do
  let (self, s) := zmalloc blk s
  if self ≠ NULL then
    let s ← set_prev s self self
    let s ← set_next s self self
    let s ← set_item s self item
    return (self, s)
  return (self, s)

/-- zdlist.c lines 190-203: `zdlist_move_after (self, destination)`. -/
def zdlist_move_after (s : State) (self destination : Ptr) : Except Err State := do
  c_assert (self ≠ NULL)
  c_assert (destination ≠ NULL)
  -- remove self from old dlist
  let s ← set_next s (← get_prev s self) (← get_next s self)
  let s ← set_prev s (← get_next s self) (← get_prev s self)
  -- insert into new dlist
  let s ← set_prev s self destination
  let s ← set_next s self (← get_next s destination)
  let s ← set_next s (← get_prev s self) self
  let s ← set_prev s (← get_next s self) self
  return s

/-- zdlist.c lines 209-214: `zdlist_move_before (self, destination)`. -/
def zdlist_move_before (s : State) (self destination : Ptr) : Except Err State := do
  c_assert (destination ≠ NULL)
  zdlist_move_after s self (← get_prev s destination)

/-- zdlist.c lines 88-115: `zdlist_insert_after (self, item)`.  `dup fn item` is what the
duplicator `fn` returns for `item` (`NULL` signals failure); `blk` is the allocator's
answer to the `zmalloc` call inside `zdlist_new`. -/
def zdlist_insert_after (dup : Ptr → Ptr → Ptr) (blk : Ptr) (s : State) (self item : Ptr) :
    Except Err (Ptr × State) := do
  let mut s := s
  let mut item := item
  -- Duplicate item if duplicator is set
  if self ≠ NULL then
    let d ← get_duplicator s self
    if d ≠ NULL ∧ item ≠ NULL then
      s := s.emit (Event.duplicate d item)
      item := dup d item
      if item = NULL then
        return (NULL, s)
  -- Create new dlist element
  let (node, s1) ← zdlist_new blk s item
  s := s1
  if node = NULL then
    -- allocation failure, check if we need to destroy a duplicated item
    let d ← get_duplicator s self
    let f ← get_destructor s self
    if d ≠ NULL ∧ f ≠ NULL then
      s := s.emit (Event.destruct f item)
    return (NULL, s)
  -- copy destructor and duplicator and move node into dlist
  if self ≠ NULL then
    s ← set_destructor s node (← get_destructor s self)
    s ← set_duplicator s node (← get_duplicator s self)
    s ← zdlist_move_after s node self
  return (node, s)

/-- zdlist.c lines 121-127: `zdlist_insert_before (self, item)`. -/
def zdlist_insert_before (dup : Ptr → Ptr → Ptr) (blk : Ptr) (s : State) (self item : Ptr) :
    Except Err (Ptr × State) := do
  let mut self := self
  if self ≠ NULL then
    self ← get_prev s self
  zdlist_insert_after dup blk s self item

/-- zdlist.c lines 133-154: `zdlist_detach (self_p)`.  The in/out parameter `self_p`
always refers to a caller variable (so `assert (self_p)` holds); `cursor` is the value
of `*self_p` on entry, and the result is the returned node, the value of `*self_p` on
exit, and the new state. -/
def zdlist_detach (s : State) (cursor : Ptr) : Except Err (Ptr × Ptr × State) := do
  let node := cursor
  let mut cursor := cursor
  let mut s := s
  if node ≠ NULL then
    -- advance self_p
    if (← get_next s node) = node then
      cursor := NULL
    else
      cursor ← get_next s node
    -- split linkage of dlist
    s ← set_prev s (← get_next s node) (← get_prev s node)
    s ← set_next s (← get_prev s node) (← get_next s node)
    s ← set_next s node node
    s ← set_prev s node node
  return (node, cursor, s)

/-- zdlist.c lines 237-249: `zdlist_next (last, terminator)`.  The C function calls
itself to skip a guard; `fuel` bounds the depth of that recursion. -/
def zdlist_next : Nat → State → Ptr → Ptr → Except Err Ptr
  | 0, _, _, _ => .error Err.fuel
  | fuel + 1, s, last, terminator => do
    c_assert (last ≠ NULL)
    let node ← get_next s last
    if node = terminator then
      return NULL
    if (← get_item s node) ≠ NULL then
      return node
    if terminator ≠ NULL then
      zdlist_next fuel s node terminator
    else
      return NULL

/-- zdlist.c lines 222-230: `zdlist_first (self, terminator)`. -/
def zdlist_first (fuel : Nat) (s : State) (self terminator : Ptr) : Except Err Ptr := do
  if self = NULL then
    return NULL
  if (← get_item s self) ≠ NULL then
    return self
  zdlist_next fuel s self terminator

/-- zdlist.c lines 255-262: `zdlist_item (self)`. -/
def zdlist_item (s : State) (self : Ptr) : Except Err Ptr :=
  if self ≠ NULL then get_item s self else .ok NULL

/-- zdlist.c lines 276-279: the loop of `zdlist_set_destructor`, entered with `node`;
`fuel` bounds the number of iterations. -/
def zdlist_set_destructor_loop (self destructor : Ptr) : Nat → State → Ptr → Except Err State
  | 0, _, _ => Except.error Err.fuel
  | fuel + 1, s, node =>
    if node ≠ self then do
      let s ← set_destructor s node destructor
      let node ← get_next s node
      zdlist_set_destructor_loop self destructor fuel s node
    else
      return s

/-- zdlist.c lines 269-281: `zdlist_set_destructor (self, destructor)`; returns the old
destructor of `self`. -/
def zdlist_set_destructor (fuel : Nat) (s : State) (self destructor : Ptr) :
    Except Err (Ptr × State) := do
  c_assert (self ≠ NULL)
  let old ← get_destructor s self
  let s ← set_destructor s self destructor
  let node ← get_next s self
  let s ← zdlist_set_destructor_loop self destructor fuel s node
  return (old, s)

/-- zdlist.c lines 295-298: the loop of `zdlist_set_duplicator`, entered with `node`;
`fuel` bounds the number of iterations. -/
def zdlist_set_duplicator_loop (self duplicator : Ptr) : Nat → State → Ptr → Except Err State
  | 0, _, _ => Except.error Err.fuel
  | fuel + 1, s, node =>
    if node ≠ self then do
      let s ← set_duplicator s node duplicator
      let node ← get_next s node
      zdlist_set_duplicator_loop self duplicator fuel s node
    else
      return s

/-- zdlist.c lines 288-300: `zdlist_set_duplicator (self, duplicator)`; returns the old
duplicator of `self`. -/
def zdlist_set_duplicator (fuel : Nat) (s : State) (self duplicator : Ptr) :
    Except Err (Ptr × State) := do
  c_assert (self ≠ NULL)
  let old ← get_duplicator s self
  let s ← set_duplicator s self duplicator
  let node ← get_next s self
  let s ← zdlist_set_duplicator_loop self duplicator fuel s node
  return (old, s)

/-- C `free (p)`: nothing happens for `NULL`; otherwise `p` must be an allocated block,
which is released. -/
def c_free (s : State) (p : Ptr) : Except Err State :=
  if p = NULL then .ok s
  else if s.live p = true then .ok (s.release p) else .error Err.fault

/-- Modelled from the spec: destructors are supplied by the caller.  The spec's contract
is "Destructor(itemRef) -> void: releases the item's resources and invalidates the
reference", and the destructors of this repository (`s_value_destroy`, zspeedtest.c lines
98-105) do `free (*self_p); *self_p = NULL`.  This is the call `(fn) (&node)` made by
`zdlist_destroy`, where the variable referred to holds the node pointer `v`: the call is
logged, the block `v` is released, and the variable is left holding `NULL`.  The result
is the new value of the variable and the new state. -/
def destructor_call (s : State) (fn v : Ptr) : Ptr × State :=
  (NULL, (s.release v).emit (Event.destruct fn v))

/-- zdlist.c lines 72-82: `zdlist_destroy (self_p)`.  As for `zdlist_detach`, `cursor` is
the value of `*self_p` on entry and the result holds its value on exit; `fuel` bounds the
number of iterations of the `while` loop. -/
def zdlist_destroy : Nat → State → Ptr → Except Err (Ptr × State)
  | 0, _, _ => .error Err.fuel
  | fuel + 1, s, cursor =>
    if cursor ≠ NULL then do
      let (node, cursor, s) ← zdlist_detach s cursor
      let f ← get_destructor s node
      let (node, s) := if f ≠ NULL then destructor_call s f node else (node, s)
      let s ← c_free s node
      zdlist_destroy fuel s cursor
    else
      return (cursor, s)

/-- zdlist.c lines 160-173: `zdlist_remove (self_p)`; the result is the returned item, the
value of `*self_p` on exit, and the new state. -/
def zdlist_remove (s : State) (cursor : Ptr) : Except Err (Ptr × Ptr × State) := do
  let (node, cursor, s) ← zdlist_detach s cursor
  let mut s := s
  let mut item := NULL
  if node ≠ NULL then
    item ← get_item s node
    s ← c_free s node
  return (item, cursor, s)

/-- zdlist.c lines 179-184: `zdlist_destroy_one (self_p)`; the result is the value of
`*self_p` on exit and the new state.  `fuel` is the budget of the inner
`zdlist_destroy`. -/
def zdlist_destroy_one (fuel : Nat) (s : State) (cursor : Ptr) : Except Err (Ptr × State) := do
  let (self, cursor, s) ← zdlist_detach s cursor
  let (_, s) ← zdlist_destroy fuel s self
  return (cursor, s)

/-- The caller's iteration `for (n = start; n; n = zdlist_next (n, terminator))`, as in
the selftest (zdlist.c lines 336-362): the nodes returned until a call returns `NULL`.
`k` bounds the number of calls. -/
def walk_next (fuel : Nat) (s : State) (terminator : Ptr) : Nat → Ptr → Except Err (List Ptr)
  | 0, _ => .error Err.fuel
  | k + 1, node =>
    if node = NULL then .ok []
    else do
      let nxt ← zdlist_next fuel s node terminator
      let rest ← walk_next fuel s terminator k nxt
      return node :: rest

/-- The whole traversal `zdlist_first (self, terminator)`, `zdlist_next (., terminator)`, ...
up to and including the call that returns `NULL`: the list of nodes returned. -/
def traversal (fuel : Nat) (s : State) (self terminator : Ptr) : Except Err (List Ptr) := do
  let start ← zdlist_first fuel s self terminator
  walk_next fuel s terminator fuel start

/-! ## Well-formedness predicates and closed forms used in the proofs -/

/-- Cyclicity of the whole store: every allocated node has allocated neighbours and
`prev(next(x)) == x` and `next(prev(x)) == x`. -/
def Cyclic (s : State) : Prop :=
  ∀ x, s.valid x → s.valid (s.nx x) ∧ s.valid (s.pv x) ∧ s.pv (s.nx x) = x ∧ s.nx (s.pv x) = x

/-- Node `y` directly follows node `x`: both are allocated, `x->next == y` and `y->prev == x`. -/
def linked (s : State) (x y : Ptr) : Prop :=
  s.valid x ∧ s.valid y ∧ s.nx x = y ∧ s.pv y = x

instance (s : State) : DecidableRel (linked s) := fun x y =>
  inferInstanceAs (Decidable (s.valid x ∧ s.valid y ∧ s.nx x = y ∧ s.pv y = x))

/-- The list `l` is a ring read along `next` from its head: its members are distinct
allocated nodes, each followed by the next member, the last one by the head. -/
def IsRing (s : State) : List Ptr → Prop
  | [] => False
  | a :: rest =>
    (a :: rest).Nodup ∧ List.Chain (linked s) a rest ∧
      linked s ((a :: rest).getLast (List.cons_ne_nil a rest)) a

/-- Deciding a chain of links by walking the list. -/
def decideChain (s : State) : (a : Ptr) → (l : List Ptr) → Decidable (List.Chain (linked s) a l)
  | _, [] => isTrue List.Chain.nil
  | a, b :: l =>
    match (inferInstance : Decidable (linked s a b)), decideChain s b l with
    | isTrue h1, isTrue h2 => isTrue (List.Chain.cons h1 h2)
    | isFalse h1, _ => isFalse (fun h => h1 (List.chain_cons.1 h).1)
    | _, isFalse h2 => isFalse (fun h => h2 (List.chain_cons.1 h).2)

instance (s : State) : (l : List Ptr) → Decidable (IsRing s l)
  | [] => isFalse (fun h => h)
  | a :: rest =>
    @instDecidableAnd _ _ (inferInstanceAs (Decidable (a :: rest).Nodup))
      (@instDecidableAnd _ _ (decideChain s a rest)
        (inferInstanceAs
          (Decidable (linked s ((a :: rest).getLast (List.cons_ne_nil a rest)) a))))

/-- The node holds an item, that is, it is not a guard. -/
def State.holds_item (s : State) (p : Ptr) : Bool := decide (s.it p ≠ NULL)

/-- What an unbounded `zdlist_next` returns when the nodes ahead are `l` and a guard
follows `l`: the first node ahead if it holds an item, else `NULL`. -/
def State.stop_at_guard (s : State) : List Ptr → Ptr
  | [] => NULL
  | v :: _ => if s.holds_item v then v else NULL

/-- Closed form of the two unlinking assignments
`self->prev->next = self->next; self->next->prev = self->prev;`. -/
def State.unlink (s : State) (x : Ptr) : State :=
  (s.withNext (s.pv x) (s.nx x)).withPrev (s.nx x) (s.pv x)

/-- Closed form of the four linking assignments of `zdlist_move_after` when the node `x`
and the destination `y` differ. -/
def State.link (s : State) (x y : Ptr) : State :=
  (((s.withPrev x y).withNext x (s.nx y)).withNext y x).withPrev (s.nx y) x

/-- Closed form of `x->next = x; x->prev = x;`. -/
def State.selfloop (s : State) (x : Ptr) : State :=
  (s.withNext x x).withPrev x x

/-- Every allocated node other than `x` has allocated neighbours other than `x` and
satisfies the two cyclicity equations: the store is cyclic once `x` is set aside. -/
def CyclicOff (s : State) (x : Ptr) : Prop :=
  ∀ z, s.valid z → z ≠ x →
    s.valid (s.nx z) ∧ s.valid (s.pv z) ∧ s.nx z ≠ x ∧ s.pv z ≠ x ∧
      s.pv (s.nx z) = z ∧ s.nx (s.pv z) = z

/-- Closed form of a successful `zdlist_new`: block `blk` becomes an allocated self-loop
holding `item`, with no destructor and no duplicator. -/
def State.create (s : State) (blk item : Ptr) : State :=
  { s with live := fun q => if q = blk then true else s.live q,
           cell := fun q => if q = blk then ⟨blk, blk, item, 0, 0⟩ else s.cell q }

/-- Closed form of a successful `zdlist_insert_after` on a present anchor `self`, once
the item to store is known. -/
def State.inserted (s : State) (blk self item : Ptr) : State :=
  (((((s.create blk item).withDestructor blk (s.de self)).withDuplicator blk
    (s.du self)).unlink blk).link blk self)

/-- Closed form of one iteration of the loop of `zdlist_destroy` on node `x`: the node is
unlinked and released, and its destructor, when set, is called on the node pointer. -/
def State.destroyed (s : State) (x : Ptr) : State :=
  if s.de x ≠ NULL then
    (((s.unlink x).selfloop x).release x).emit (Event.destruct (s.de x) x)
  else ((s.unlink x).selfloop x).release x

/-! ## Sequences of calls -/

/-- The mutating operations of the container, each with the arguments of one call;
`blk` is the allocator's answer during that call. -/
inductive Call where
  | new (blk item : Ptr)
  | insert_after (blk self item : Ptr)
  | insert_before (blk self item : Ptr)
  | detach (cursor : Ptr)
  | move_after (self destination : Ptr)
  | move_before (self destination : Ptr)

/-- Run one call and keep the resulting state. -/
def Call.run (dup : Ptr → Ptr → Ptr) (s : State) : Call → Except Err State
  | Call.new blk item => do
    let r ← zdlist_new blk s item
    return r.2
  | Call.insert_after blk self item => do
    let r ← zdlist_insert_after dup blk s self item
    return r.2
  | Call.insert_before blk self item => do
    let r ← zdlist_insert_before dup blk s self item
    return r.2
  | Call.detach cursor => do
    let r ← zdlist_detach s cursor
    return r.2.2
  | Call.move_after self destination => zdlist_move_after s self destination
  | Call.move_before self destination => zdlist_move_before s self destination

/-- The allocator answers with `NULL` or with a block that is not in use. -/
def fresh (s : State) (blk : Ptr) : Prop := blk = NULL ∨ s.live blk = false

instance (s : State) (blk : Ptr) : Decidable (fresh s blk) :=
  inferInstanceAs (Decidable (blk = NULL ∨ s.live blk = false))

/-- A call applied to present nodes, with a sound allocator answer. -/
def Call.admissible (s : State) : Call → Prop
  | Call.new blk _ => fresh s blk
  | Call.insert_after blk self _ => fresh s blk ∧ s.valid self
  | Call.insert_before blk self _ => fresh s blk ∧ s.valid self
  | Call.detach cursor => s.valid cursor
  | Call.move_after self destination => s.valid self ∧ s.valid destination
  | Call.move_before self destination => s.valid self ∧ s.valid destination

instance (s : State) : (c : Call) → Decidable (c.admissible s)
  | Call.new blk _ => inferInstanceAs (Decidable (fresh s blk))
  | Call.insert_after blk self _ => inferInstanceAs (Decidable (fresh s blk ∧ s.valid self))
  | Call.insert_before blk self _ => inferInstanceAs (Decidable (fresh s blk ∧ s.valid self))
  | Call.detach cursor => inferInstanceAs (Decidable (s.valid cursor))
  | Call.move_after self destination =>
    inferInstanceAs (Decidable (s.valid self ∧ s.valid destination))
  | Call.move_before self destination =>
    inferInstanceAs (Decidable (s.valid self ∧ s.valid destination))

/-- Run a finite sequence of calls, each on the state left by the previous one. -/
def run_calls (dup : Ptr → Ptr → Ptr) : State → List Call → Except Err State
  | s, [] => Except.ok s
  | s, c :: cs => do
    let s1 ← c.run dup s
    run_calls dup s1 cs

/-- Every call of the sequence is admissible in the state it is applied to. -/
def admissible_calls (dup : Ptr → Ptr → Ptr) : State → List Call → Bool
  | _, [] => true
  | s, c :: cs =>
    decide (c.admissible s) &&
      (match c.run dup s with
       | Except.ok s1 => admissible_calls dup s1 cs
       | Except.error _ => true)

/-- Rings built through the public operations: `Built dup f k r s l` says that the store
`s` and the ring `l` (read from the cursor; `[]` once every member has been removed) come
from a head constructed by `zdlist_new` and given destructor `f` by
`zdlist_set_destructor`, followed by `k` successful insertions and `r` removals, in any
order and at any member (`rotate` moves the cursor to the next member), with
`zdlist_set_duplicator` calls in between as the caller likes. -/
inductive Built (dup : Ptr → Ptr → Ptr) (f : Ptr) : Nat → Nat → State → List Ptr → Prop
  | head {s0 s1 s : State} {b item old : Ptr} {fuel : Nat} :
      fresh s0 b → b ≠ NULL → zdlist_new b s0 item = Except.ok (b, s1) →
      zdlist_set_destructor (fuel + 1) s1 b f = Except.ok (old, s) → Built dup f 0 0 s [b]
  | rotate {k r : Nat} {s : State} {x : Ptr} {rest : List Ptr} :
      Built dup f k r s (x :: rest) → Built dup f k r s (rest ++ [x])
  | set_duplicator {k r : Nat} {s s1 : State} {x d old : Ptr} {rest : List Ptr} {fuel : Nat} :
      Built dup f k r s (x :: rest) → rest.length < fuel →
      zdlist_set_duplicator fuel s x d = Except.ok (old, s1) → Built dup f k r s1 (x :: rest)
  | insert_after {k r : Nat} {s s1 : State} {a blk item n : Ptr} {rest : List Ptr} :
      Built dup f k r s (a :: rest) → fresh s blk →
      zdlist_insert_after dup blk s a item = Except.ok (n, s1) → n ≠ NULL →
      Built dup f (k + 1) r s1 (a :: n :: rest)
  | insert_before {k r : Nat} {s s1 : State} {a blk item n : Ptr} {rest : List Ptr} :
      Built dup f k r s (a :: rest) → fresh s blk →
      zdlist_insert_before dup blk s a item = Except.ok (n, s1) → n ≠ NULL →
      Built dup f (k + 1) r s1 (a :: rest ++ [n])
  | remove {k r : Nat} {s s1 : State} {x item c : Ptr} {rest : List Ptr} :
      Built dup f k r s (x :: rest) →
      zdlist_remove s x = Except.ok (item, c, s1) → Built dup f k (r + 1) s1 rest

/-! ## Concrete stores used as examples -/

/-- A three-node ring used in examples: guard 1, then items at 2 and 3; no capabilities. -/
def ring3 : State :=
  ⟨fun p => p == 1 || p == 2 || p == 3,
   fun p => if p = 1 then ⟨2, 3, 0, 0, 0⟩ else if p = 2 then ⟨3, 1, 21, 0, 0⟩
            else ⟨1, 2, 31, 0, 0⟩, []⟩

/-- The ring of `ring3` with destructor 8 and duplicator 9 set on every node. -/
def ring3d : State :=
  ⟨fun p => p == 1 || p == 2 || p == 3,
   fun p => if p = 1 then ⟨2, 3, 0, 8, 9⟩ else if p = 2 then ⟨3, 1, 21, 8, 9⟩
            else ⟨1, 2, 31, 8, 9⟩, []⟩

/-- A duplicator that always succeeds (the copy of item `i` is `i + 100`). -/
def dup_ok : Ptr → Ptr → Ptr := fun _ i => i + 100

/-- A duplicator that always fails. -/
def dup_fail : Ptr → Ptr → Ptr := fun _ _ => NULL

/-- Two separate rings used in examples: 1 -> 2 -> 3 -> 1 (guard 1) and 4 -> 5 -> 4
(guard 4). -/
def rings32 : State :=
  ⟨fun p => p == 1 || p == 2 || p == 3 || p == 4 || p == 5,
   fun p => if p = 1 then ⟨2, 3, 0, 0, 0⟩ else if p = 2 then ⟨3, 1, 21, 0, 0⟩
            else if p = 3 then ⟨1, 2, 31, 0, 0⟩ else if p = 4 then ⟨5, 5, 0, 0, 0⟩
            else ⟨4, 4, 51, 0, 0⟩, []⟩

/-- A ring with two guards: 1 (guard) -> 2 -> 3 -> 4 (guard) -> 5 -> 1. -/
def ring5 : State :=
  ⟨fun p => p == 1 || p == 2 || p == 3 || p == 4 || p == 5,
   fun p => if p = 1 then ⟨2, 5, 0, 0, 0⟩ else if p = 2 then ⟨3, 1, 21, 0, 0⟩
            else if p = 3 then ⟨4, 2, 31, 0, 0⟩ else if p = 4 then ⟨5, 3, 0, 0, 0⟩
            else ⟨1, 4, 51, 0, 0⟩, []⟩

/-- A ring with mixed capabilities built through the public operations: two guard-only
rings are constructed at blocks 1 and 2, the second gets duplicator 9, and its node is
moved after the node of the first. -/
def mixed_ring_run : Except Err State := do
  let r1 ← zdlist_new 1 State.empty NULL
  let r2 ← zdlist_new 2 r1.2 NULL
  let r3 ← zdlist_set_duplicator 1 r2.2 2 9
  zdlist_move_after r3.2 2 1

/-- The item "baguette" of the selftest, as an opaque pointer. -/
def baguette : Ptr := 101
/-- The item "boursin" of the selftest, as an opaque pointer. -/
def boursin : Ptr := 102
/-- The item "bordeaux" of the selftest, as an opaque pointer. -/
def bordeaux : Ptr := 103

/-- The insertion scenario of the spec, run from the empty store with no duplicator set:
the guard-only ring `G` is created at block 1, then `insert_after (G, "baguette")`,
`insert_after (G, "boursin")`, `insert_before (G, NULL)` (the second guard) and
`insert_before (G, "bordeaux")` get the blocks 2, 3, 4 and 5. -/
def scenario_run : Except Err State := do
  let g ← zdlist_insert_after dup_ok 1 State.empty NULL NULL
  let r1 ← zdlist_insert_after dup_ok 2 g.2 g.1 baguette
  let r2 ← zdlist_insert_after dup_ok 3 r1.2 g.1 boursin
  let r3 ← zdlist_insert_before dup_ok 4 r2.2 g.1 NULL
  let r4 ← zdlist_insert_before dup_ok 5 r3.2 g.1 bordeaux
  return r4.2

/-- Calling `zdlist_detach` `k` times on the same cursor variable; for each call, the
item of the returned node and the value of the cursor after the call. -/
def detach_repeat : Nat → State → Ptr → Except Err (List (Ptr × Ptr))
  | 0, _, _ => .ok []
  | k + 1, s, cursor => do
    let (node, cursor, s) ← zdlist_detach s cursor
    let item ← zdlist_item s node
    let rest ← detach_repeat k s cursor
    return (item, cursor) :: rest

/-- A ring built through the public operations from the empty store: a guard head at
block 1 with destructor 8, two insertions after the head (blocks 2 and 3), and one
removal at the head. -/
def built_run : Except Err State := do
  let g ← zdlist_new 1 State.empty NULL
  let r0 ← zdlist_set_destructor 1 g.2 1 8
  let r1 ← zdlist_insert_after dup_ok 2 r0.2 1 baguette
  let r2 ← zdlist_insert_after dup_ok 3 r1.2 1 boursin
  let r3 ← zdlist_remove r2.2 1
  return r3.2.2

/-- Two rings made of guards only: 1 -> 2 -> 1, and the separate node 3 linked to
itself. -/
def guard_rings : State :=
  ⟨fun p => p == 1 || p == 2 || p == 3,
   fun p => if p = 1 then ⟨2, 2, 0, 0, 0⟩ else if p = 2 then ⟨1, 1, 0, 0, 0⟩
            else ⟨3, 3, 0, 0, 0⟩, []⟩

/-- The insertion loop of zspeedtest.c (lines 237-238), for an arbitrary list of items:
`zdlist_insert_before (self, item)` once per item, in order, the results being ignored by
the caller.  Each item comes paired with the allocator's answer during its call; the
outcome is the list of nodes the calls returned and the final state. -/
def insert_before_each (dup : Ptr → Ptr → Ptr) (self : Ptr) :
    State → List (Ptr × Ptr) → Except Err (List Ptr × State)
  | s, [] => Except.ok ([], s)
  | s, (blk, item) :: rest => do
    let (n, s1) ← zdlist_insert_before dup blk s self item
    let (ns, s2) ← insert_before_each dup self s1 rest
    return (n :: ns, s2)

/-! ## Basic facts about the store -/

@[simp] theorem ok_bind {α β : Type} (a : α) (f : α → Except Err β) :
    (Except.ok a >>= f) = f a := rfl

@[simp] theorem error_bind {α β : Type} (e : Err) (f : α → Except Err β) :
    ((Except.error e : Except Err α) >>= f) = Except.error e := rfl

@[simp] theorem pure_eq_ok {α : Type} (a : α) : (pure a : Except Err α) = Except.ok a := rfl

@[simp] theorem live_withNext (s : State) (p v : Ptr) : (s.withNext p v).live = s.live := rfl

@[simp] theorem log_withNext (s : State) (p v : Ptr) : (s.withNext p v).log = s.log := rfl

@[simp] theorem valid_withNext (s : State) (p v q : Ptr) : (s.withNext p v).valid q ↔ s.valid q := Iff.rfl

@[simp] theorem nx_withNext (s : State) (p v q : Ptr) :
    (s.withNext p v).nx q = if q = p then v else s.nx q := by
  unfold State.withNext State.nx; by_cases h : q = p <;> simp [h]

@[simp] theorem pv_withNext (s : State) (p v q : Ptr) : (s.withNext p v).pv q = s.pv q := by
  unfold State.withNext State.pv; by_cases h : q = p <;> simp [h]

@[simp] theorem it_withNext (s : State) (p v q : Ptr) : (s.withNext p v).it q = s.it q := by
  unfold State.withNext State.it; by_cases h : q = p <;> simp [h]

@[simp] theorem de_withNext (s : State) (p v q : Ptr) : (s.withNext p v).de q = s.de q := by
  unfold State.withNext State.de; by_cases h : q = p <;> simp [h]

@[simp] theorem du_withNext (s : State) (p v q : Ptr) : (s.withNext p v).du q = s.du q := by
  unfold State.withNext State.du; by_cases h : q = p <;> simp [h]

@[simp] theorem live_withPrev (s : State) (p v : Ptr) : (s.withPrev p v).live = s.live := rfl

@[simp] theorem log_withPrev (s : State) (p v : Ptr) : (s.withPrev p v).log = s.log := rfl

@[simp] theorem valid_withPrev (s : State) (p v q : Ptr) : (s.withPrev p v).valid q ↔ s.valid q := Iff.rfl

@[simp] theorem nx_withPrev (s : State) (p v q : Ptr) : (s.withPrev p v).nx q = s.nx q := by
  unfold State.withPrev State.nx; by_cases h : q = p <;> simp [h]

@[simp] theorem pv_withPrev (s : State) (p v q : Ptr) :
    (s.withPrev p v).pv q = if q = p then v else s.pv q := by
  unfold State.withPrev State.pv; by_cases h : q = p <;> simp [h]

@[simp] theorem it_withPrev (s : State) (p v q : Ptr) : (s.withPrev p v).it q = s.it q := by
  unfold State.withPrev State.it; by_cases h : q = p <;> simp [h]

@[simp] theorem de_withPrev (s : State) (p v q : Ptr) : (s.withPrev p v).de q = s.de q := by
  unfold State.withPrev State.de; by_cases h : q = p <;> simp [h]

@[simp] theorem du_withPrev (s : State) (p v q : Ptr) : (s.withPrev p v).du q = s.du q := by
  unfold State.withPrev State.du; by_cases h : q = p <;> simp [h]

@[simp] theorem live_withItem (s : State) (p v : Ptr) : (s.withItem p v).live = s.live := rfl

@[simp] theorem log_withItem (s : State) (p v : Ptr) : (s.withItem p v).log = s.log := rfl

@[simp] theorem valid_withItem (s : State) (p v q : Ptr) : (s.withItem p v).valid q ↔ s.valid q := Iff.rfl

@[simp] theorem nx_withItem (s : State) (p v q : Ptr) : (s.withItem p v).nx q = s.nx q := by
  unfold State.withItem State.nx; by_cases h : q = p <;> simp [h]

@[simp] theorem pv_withItem (s : State) (p v q : Ptr) : (s.withItem p v).pv q = s.pv q := by
  unfold State.withItem State.pv; by_cases h : q = p <;> simp [h]

@[simp] theorem it_withItem (s : State) (p v q : Ptr) :
    (s.withItem p v).it q = if q = p then v else s.it q := by
  unfold State.withItem State.it; by_cases h : q = p <;> simp [h]

@[simp] theorem de_withItem (s : State) (p v q : Ptr) : (s.withItem p v).de q = s.de q := by
  unfold State.withItem State.de; by_cases h : q = p <;> simp [h]

@[simp] theorem du_withItem (s : State) (p v q : Ptr) : (s.withItem p v).du q = s.du q := by
  unfold State.withItem State.du; by_cases h : q = p <;> simp [h]

@[simp] theorem live_withDestructor (s : State) (p v : Ptr) : (s.withDestructor p v).live = s.live := rfl

@[simp] theorem log_withDestructor (s : State) (p v : Ptr) : (s.withDestructor p v).log = s.log := rfl

@[simp] theorem valid_withDestructor (s : State) (p v q : Ptr) : (s.withDestructor p v).valid q ↔ s.valid q := Iff.rfl

@[simp] theorem nx_withDestructor (s : State) (p v q : Ptr) : (s.withDestructor p v).nx q = s.nx q := by
  unfold State.withDestructor State.nx; by_cases h : q = p <;> simp [h]

@[simp] theorem pv_withDestructor (s : State) (p v q : Ptr) : (s.withDestructor p v).pv q = s.pv q := by
  unfold State.withDestructor State.pv; by_cases h : q = p <;> simp [h]

@[simp] theorem it_withDestructor (s : State) (p v q : Ptr) : (s.withDestructor p v).it q = s.it q := by
  unfold State.withDestructor State.it; by_cases h : q = p <;> simp [h]

@[simp] theorem de_withDestructor (s : State) (p v q : Ptr) :
    (s.withDestructor p v).de q = if q = p then v else s.de q := by
  unfold State.withDestructor State.de; by_cases h : q = p <;> simp [h]

@[simp] theorem du_withDestructor (s : State) (p v q : Ptr) : (s.withDestructor p v).du q = s.du q := by
  unfold State.withDestructor State.du; by_cases h : q = p <;> simp [h]

@[simp] theorem live_withDuplicator (s : State) (p v : Ptr) : (s.withDuplicator p v).live = s.live := rfl

@[simp] theorem log_withDuplicator (s : State) (p v : Ptr) : (s.withDuplicator p v).log = s.log := rfl

@[simp] theorem valid_withDuplicator (s : State) (p v q : Ptr) : (s.withDuplicator p v).valid q ↔ s.valid q := Iff.rfl

@[simp] theorem nx_withDuplicator (s : State) (p v q : Ptr) : (s.withDuplicator p v).nx q = s.nx q := by
  unfold State.withDuplicator State.nx; by_cases h : q = p <;> simp [h]

@[simp] theorem pv_withDuplicator (s : State) (p v q : Ptr) : (s.withDuplicator p v).pv q = s.pv q := by
  unfold State.withDuplicator State.pv; by_cases h : q = p <;> simp [h]

@[simp] theorem it_withDuplicator (s : State) (p v q : Ptr) : (s.withDuplicator p v).it q = s.it q := by
  unfold State.withDuplicator State.it; by_cases h : q = p <;> simp [h]

@[simp] theorem de_withDuplicator (s : State) (p v q : Ptr) : (s.withDuplicator p v).de q = s.de q := by
  unfold State.withDuplicator State.de; by_cases h : q = p <;> simp [h]

@[simp] theorem du_withDuplicator (s : State) (p v q : Ptr) :
    (s.withDuplicator p v).du q = if q = p then v else s.du q := by
  unfold State.withDuplicator State.du; by_cases h : q = p <;> simp [h]

@[simp] theorem live_emit (s : State) (e : Event) : (s.emit e).live = s.live := rfl

@[simp] theorem cell_emit (s : State) (e : Event) : (s.emit e).cell = s.cell := rfl

@[simp] theorem log_emit (s : State) (e : Event) : (s.emit e).log = s.log ++ [e] := rfl

@[simp] theorem valid_emit (s : State) (e : Event) (q : Ptr) : (s.emit e).valid q ↔ s.valid q := Iff.rfl

@[simp] theorem nx_emit (s : State) (e : Event) (q : Ptr) : (s.emit e).nx q = s.nx q := rfl

@[simp] theorem pv_emit (s : State) (e : Event) (q : Ptr) : (s.emit e).pv q = s.pv q := rfl

@[simp] theorem it_emit (s : State) (e : Event) (q : Ptr) : (s.emit e).it q = s.it q := rfl

@[simp] theorem de_emit (s : State) (e : Event) (q : Ptr) : (s.emit e).de q = s.de q := rfl

@[simp] theorem du_emit (s : State) (e : Event) (q : Ptr) : (s.emit e).du q = s.du q := rfl

theorem get_next_ok {s : State} {p : Ptr} (h : s.valid p) : get_next s p = Except.ok (s.nx p) := by
  simp [get_next, h]

theorem get_prev_ok {s : State} {p : Ptr} (h : s.valid p) : get_prev s p = Except.ok (s.pv p) := by
  simp [get_prev, h]

theorem get_item_ok {s : State} {p : Ptr} (h : s.valid p) : get_item s p = Except.ok (s.it p) := by
  simp [get_item, h]

theorem get_destructor_ok {s : State} {p : Ptr} (h : s.valid p) : get_destructor s p = Except.ok (s.de p) := by
  simp [get_destructor, h]

theorem get_duplicator_ok {s : State} {p : Ptr} (h : s.valid p) : get_duplicator s p = Except.ok (s.du p) := by
  simp [get_duplicator, h]

theorem set_next_ok {s : State} {p : Ptr} (h : s.valid p) (v : Ptr) :
    set_next s p v = Except.ok (s.withNext p v) := by
  simp [set_next, h]

theorem set_prev_ok {s : State} {p : Ptr} (h : s.valid p) (v : Ptr) :
    set_prev s p v = Except.ok (s.withPrev p v) := by
  simp [set_prev, h]

theorem set_item_ok {s : State} {p : Ptr} (h : s.valid p) (v : Ptr) :
    set_item s p v = Except.ok (s.withItem p v) := by
  simp [set_item, h]

theorem set_destructor_ok {s : State} {p : Ptr} (h : s.valid p) (v : Ptr) :
    set_destructor s p v = Except.ok (s.withDestructor p v) := by
  simp [set_destructor, h]

theorem set_duplicator_ok {s : State} {p : Ptr} (h : s.valid p) (v : Ptr) :
    set_duplicator s p v = Except.ok (s.withDuplicator p v) := by
  simp [set_duplicator, h]

theorem State.ext_cell {s t : State} (h1 : s.live = t.live) (h2 : s.cell = t.cell)
    (h3 : s.log = t.log) : s = t := by
  cases s; cases t; simp_all

theorem valid_ne_null {s : State} {p : Ptr} (h : s.valid p) : p ≠ NULL := h.1


/-! ## Unlinking and linking a node -/

theorem State.ext_fields {s t : State} (h1 : s.live = t.live) (h3 : s.log = t.log)
    (h : ∀ q, s.nx q = t.nx q ∧ s.pv q = t.pv q ∧ s.it q = t.it q ∧ s.de q = t.de q ∧
      s.du q = t.du q) : s = t := by
  refine State.ext_cell h1 ?_ h3
  funext q
  obtain ⟨a, b, c, d, e⟩ := h q
  simp only [State.nx, State.pv, State.it, State.de, State.du] at a b c d e
  cases hs : s.cell q
  cases ht : t.cell q
  simp_all

theorem nx_unlink (s : State) (x z : Ptr) :
    (s.unlink x).nx z = if z = s.pv x then s.nx x else s.nx z := by
  simp [State.unlink]

theorem pv_unlink (s : State) (x z : Ptr) :
    (s.unlink x).pv z = if z = s.nx x then s.pv x else s.pv z := by
  simp [State.unlink]

@[simp] theorem valid_unlink (s : State) (x z : Ptr) : (s.unlink x).valid z ↔ s.valid z := Iff.rfl
@[simp] theorem it_unlink (s : State) (x z : Ptr) : (s.unlink x).it z = s.it z := by
  simp [State.unlink]
@[simp] theorem de_unlink (s : State) (x z : Ptr) : (s.unlink x).de z = s.de z := by
  simp [State.unlink]
@[simp] theorem du_unlink (s : State) (x z : Ptr) : (s.unlink x).du z = s.du z := by
  simp [State.unlink]
@[simp] theorem log_unlink (s : State) (x : Ptr) : (s.unlink x).log = s.log := rfl
@[simp] theorem live_unlink (s : State) (x : Ptr) : (s.unlink x).live = s.live := rfl

theorem nx_link (s : State) (x y z : Ptr) :
    (s.link x y).nx z = if z = y then x else if z = x then s.nx y else s.nx z := by
  simp [State.link]

theorem pv_link (s : State) (x y z : Ptr) :
    (s.link x y).pv z = if z = s.nx y then x else if z = x then y else s.pv z := by
  simp [State.link]

@[simp] theorem valid_link (s : State) (x y z : Ptr) : (s.link x y).valid z ↔ s.valid z := Iff.rfl
@[simp] theorem it_link (s : State) (x y z : Ptr) : (s.link x y).it z = s.it z := by
  simp [State.link]
@[simp] theorem de_link (s : State) (x y z : Ptr) : (s.link x y).de z = s.de z := by
  simp [State.link]
@[simp] theorem du_link (s : State) (x y z : Ptr) : (s.link x y).du z = s.du z := by
  simp [State.link]
@[simp] theorem log_link (s : State) (x y : Ptr) : (s.link x y).log = s.log := rfl
@[simp] theorem live_link (s : State) (x y : Ptr) : (s.link x y).live = s.live := rfl

theorem nx_selfloop (s : State) (x z : Ptr) :
    (s.selfloop x).nx z = if z = x then x else s.nx z := by
  simp [State.selfloop]

theorem pv_selfloop (s : State) (x z : Ptr) :
    (s.selfloop x).pv z = if z = x then x else s.pv z := by
  simp [State.selfloop]

@[simp] theorem valid_selfloop (s : State) (x z : Ptr) : (s.selfloop x).valid z ↔ s.valid z := Iff.rfl
@[simp] theorem it_selfloop (s : State) (x z : Ptr) : (s.selfloop x).it z = s.it z := by
  simp [State.selfloop]
@[simp] theorem de_selfloop (s : State) (x z : Ptr) : (s.selfloop x).de z = s.de z := by
  simp [State.selfloop]
@[simp] theorem du_selfloop (s : State) (x z : Ptr) : (s.selfloop x).du z = s.du z := by
  simp [State.selfloop]
@[simp] theorem log_selfloop (s : State) (x : Ptr) : (s.selfloop x).log = s.log := rfl
@[simp] theorem live_selfloop (s : State) (x : Ptr) : (s.selfloop x).live = s.live := rfl

/-- The first two assignments of `zdlist_move_after`, run on allocated neighbours. -/
theorem unlink_run {s : State} {x : Ptr} (hx : s.valid x) (hp : s.valid (s.pv x))
    (hn : s.valid (s.nx x)) :
    (do let s1 ← set_next s (← get_prev s x) (← get_next s x)
        set_prev s1 (← get_next s1 x) (← get_prev s1 x)) = Except.ok (s.unlink x) := by
  simp only [get_prev_ok hx, get_next_ok hx, ok_bind, set_next_ok hp]
  have hx1 : (s.withNext (s.pv x) (s.nx x)).valid x := hx
  have e1 : (s.withNext (s.pv x) (s.nx x)).nx x = s.nx x := by
    simp
  simp only [get_prev_ok hx1, get_next_ok hx1, ok_bind, e1, pv_withNext]
  have hn1 : (s.withNext (s.pv x) (s.nx x)).valid (s.nx x) := hn
  rw [set_prev_ok hn1]
  rfl

/-- The move of a node after a different destination, in closed form. -/
theorem move_after_run {s : State} {x y : Ptr} (hx : s.valid x) (hy : s.valid y)
    (hp : s.valid (s.pv x)) (hn : s.valid (s.nx x)) (hxy : x ≠ y)
    (hyn : s.valid ((s.unlink x).nx y)) :
    zdlist_move_after s x y = Except.ok ((s.unlink x).link x y) := by
  unfold zdlist_move_after
  have hyn1 : s.valid (if y = s.pv x then s.nx x else s.nx y) := by
    simpa [nx_unlink] using hyn
  simp [c_assert, hx.1, hy.1, get_next, get_prev, set_next, set_prev, hx, hy, hp, hn, hxy, hyn1, Ne.symm hxy]
  simp [State.link, State.unlink]


/-- Moving a node after itself, in closed form: the node ends up alone. -/
theorem move_after_self_run {s : State} {x : Ptr} (hx : s.valid x)
    (hp : s.valid (s.pv x)) (hn : s.valid (s.nx x)) :
    zdlist_move_after s x x = Except.ok ((s.unlink x).selfloop x) := by
  unfold zdlist_move_after
  simp [c_assert, hx.1, get_next, get_prev, set_next, set_prev, hx, hp, hn]
  refine State.ext_fields rfl rfl (fun q => ?_)
  by_cases hq : q = x <;> simp [State.selfloop, State.unlink, hq]

/-- Detaching an allocated node with allocated neighbours, in closed form. -/
theorem detach_run {s : State} {x : Ptr} (hx : s.valid x)
    (hp : s.valid (s.pv x)) (hn : s.valid (s.nx x)) :
    zdlist_detach s x =
      Except.ok (x, (if s.nx x = x then NULL else s.nx x), (s.unlink x).selfloop x) := by
  unfold zdlist_detach
  have e : ((s.withPrev (s.nx x) (s.pv x)).withNext (s.pv x) (s.nx x)) = s.unlink x := by
    refine State.ext_fields rfl rfl (fun q => ?_)
    simp [State.unlink]
  by_cases hs : s.nx x = x
  · simp [hx.1, get_next, get_prev, set_next, set_prev, hx, hp, hn, hs, State.selfloop]
    rw [← e, hs]
  · simp [hx.1, get_next, get_prev, set_next, set_prev, hx, hp, hn, hs, State.selfloop]
    rw [← e]

theorem detach_null (s : State) : zdlist_detach s NULL = Except.ok (NULL, NULL, s) := by
  simp [zdlist_detach]

/-! ## Cyclicity is preserved -/

theorem cyclicOff_unlink {s : State} {x : Ptr} (hc : Cyclic s) (hx : s.valid x) :
    CyclicOff (s.unlink x) x := by
  intro z hz hzx
  have hz0 : s.valid z := hz
  obtain ⟨hzn, hzp, hzpn, hznp⟩ := hc z hz0
  obtain ⟨hxn, hxp, hxpn, hxnp⟩ := hc x hx
  simp only [nx_unlink, pv_unlink, valid_unlink]
  have f1 : s.nx x = x → s.pv x = x := fun h => by rw [h] at hxpn; exact hxpn
  have f1b : s.pv x = x → s.nx x = x := fun h => by rw [h] at hxnp; exact hxnp
  have f2 : s.nx z = x → z = s.pv x := fun h => by rw [h] at hzpn; exact hzpn.symm
  have f2b : s.pv z = x → z = s.nx x := fun h => by rw [h] at hznp; exact hznp.symm
  have f3 : s.nx z = s.nx x → z = x := fun h => by rw [h, hxpn] at hzpn; exact hzpn.symm
  have f3b : s.pv z = s.pv x → z = x := fun h => by rw [h, hxnp] at hznp; exact hznp.symm
  refine ⟨?_, ?_, ?_, ?_, ?_, ?_⟩
  · split_ifs <;> assumption
  · split_ifs <;> assumption
  · split_ifs with h
    · intro h2; exact hzx (h.trans (f1 h2))
    · intro h2; exact h (f2 h2)
  · split_ifs with h
    · intro h2; exact hzx (h.trans (f1b h2))
    · intro h2; exact h (f2b h2)
  · by_cases h : z = s.pv x
    · simp [h]
    · have h3 : s.nx z ≠ s.nx x := fun h3 => hzx (f3 h3)
      simp [h, h3, hzpn]
  · by_cases h : z = s.nx x
    · simp [h]
    · have h3 : s.pv z ≠ s.pv x := fun h3 => hzx (f3b h3)
      simp [h, h3, hznp]

theorem cyclic_selfloop {s : State} {x : Ptr} (hc : CyclicOff s x) (hx : s.valid x) :
    Cyclic (s.selfloop x) := by
  intro z hz
  have hz0 : s.valid z := hz
  simp only [nx_selfloop, pv_selfloop, valid_selfloop]
  by_cases hzx : z = x
  · subst hzx; simp [hz0]
  · obtain ⟨h1, h2, h3, h4, h5, h6⟩ := hc z hz0 hzx
    simp [hzx, h1, h2, h3, h4, h5, h6]

theorem cyclic_link {s : State} {x y : Ptr} (hc : CyclicOff s x) (hx : s.valid x)
    (hy : s.valid y) (hxy : x ≠ y) : Cyclic (s.link x y) := by
  intro z hz
  have hz0 : s.valid z := hz
  obtain ⟨hyn, hyp, hynx, hypx, hypn, hynp⟩ := hc y hy (Ne.symm hxy)
  simp only [nx_link, pv_link, valid_link]
  by_cases hzy : z = y
  · subst hzy
    have e1 : ¬ x = s.nx z := fun h => hynx h.symm
    by_cases hs : z = s.nx z
    · simp [hx, hxy, e1, ← hs]
    · have e2 : ¬ s.pv z = z := fun h => hs (by rw [h] at hynp; exact hynp.symm)
      simp [hx, hxy, e1, hs, Ne.symm hxy, hyp, hypx, e2, hynp]
  · by_cases hzx : z = x
    · subst hzx
      have e1 : ¬ z = s.nx y := fun h => hynx h.symm
      simp [hzy, hyn, hy, e1]
    · obtain ⟨h1, h2, h3, h4, h5, h6⟩ := hc z hz0 hzx
      have e1 : ¬ s.nx z = s.nx y := fun h => hzy (by rw [h, hypn] at h5; exact h5.symm)
      have e2 : z = s.nx y → s.pv z = y := fun h => by rw [h]; exact hypn
      by_cases hw : z = s.nx y
      · subst hw
        simp [hzy, hzx, h1, h3, e1, h5, hx, hxy]
      · have e3 : ¬ s.pv z = y := fun h => hw (by rw [h] at h6; exact h6.symm)
        simp [hzy, hzx, h1, h2, h3, h4, e1, h5, h6, hw, e3]


/-! ## Allocation and insertion in closed form -/

@[simp] theorem log_create (s : State) (b i : Ptr) : (s.create b i).log = s.log := rfl

theorem valid_create (s : State) {b : Ptr} (i q : Ptr) (hb : b ≠ NULL) :
    (s.create b i).valid q ↔ (q = b ∨ s.valid q) := by
  unfold State.valid State.create
  by_cases h : q = b
  · subst h; simp [hb]
  · simp [h]

theorem valid_create_self (s : State) {b : Ptr} (i : Ptr) (hb : b ≠ NULL) :
    (s.create b i).valid b := (valid_create s i b hb).2 (Or.inl rfl)

theorem valid_create_of (s : State) (b i : Ptr) {q : Ptr} (hq : s.valid q) :
    (s.create b i).valid q := by
  unfold State.valid State.create
  refine ⟨hq.1, ?_⟩
  by_cases h : q = b
  · simp [h]
  · simpa [h] using hq.2

@[simp] theorem nx_create (s : State) (b i q : Ptr) :
    (s.create b i).nx q = if q = b then b else s.nx q := by
  unfold State.create State.nx; by_cases h : q = b <;> simp [h]

@[simp] theorem pv_create (s : State) (b i q : Ptr) :
    (s.create b i).pv q = if q = b then b else s.pv q := by
  unfold State.create State.pv; by_cases h : q = b <;> simp [h]

@[simp] theorem it_create (s : State) (b i q : Ptr) :
    (s.create b i).it q = if q = b then i else s.it q := by
  unfold State.create State.it; by_cases h : q = b <;> simp [h]

@[simp] theorem de_create (s : State) (b i q : Ptr) :
    (s.create b i).de q = if q = b then NULL else s.de q := by
  unfold State.create State.de; by_cases h : q = b <;> simp [h]

@[simp] theorem du_create (s : State) (b i q : Ptr) :
    (s.create b i).du q = if q = b then NULL else s.du q := by
  unfold State.create State.du; by_cases h : q = b <;> simp [h]

theorem zdlist_new_null (s : State) (item : Ptr) :
    zdlist_new NULL s item = Except.ok (NULL, s) := by
  simp [zdlist_new, zmalloc]

theorem zdlist_new_run (s : State) {b : Ptr} (item : Ptr) (hb : b ≠ NULL) :
    zdlist_new b s item = Except.ok (b, s.create b item) := by
  have hv : ∀ t : State, (t.live b = true) → t.valid b := fun t h => ⟨hb, h⟩
  simp [zdlist_new, zmalloc, hb, set_prev, set_next, set_item, State.valid]
  refine State.ext_fields ?_ rfl (fun q => ?_)
  · funext q; simp [State.create]
  · by_cases h : q = b <;>
      simp [h, State.nx, State.pv, State.it, State.de, State.du, State.withItem,
        State.withNext, State.withPrev, State.create]

theorem ne_of_valid_of_fresh {s : State} {b q : Ptr} (hq : s.valid q)
    (hf : s.live b = false) : q ≠ b := by
  intro h; subst h; have := hq.2; simp_all


/-- Lines 107-114 of `zdlist_insert_after` on a freshly created node, in closed form. -/
theorem insert_link_run (s : State) {b self : Ptr} (item : Ptr) (hself : s.valid self)
    (hb : b ≠ NULL) (hf : s.live b = false) (hn : s.valid (s.nx self)) :
    (do let f ← get_destructor (s.create b item) self
        let s2 ← set_destructor (s.create b item) b f
        let d ← get_duplicator s2 self
        let s3 ← set_duplicator s2 b d
        let s4 ← zdlist_move_after s3 b self
        Except.ok (b, s4) : Except Err (Ptr × State)) =
      Except.ok (b, s.inserted b self item) := by
  have hsb : self ≠ b := ne_of_valid_of_fresh hself hf
  have hnb : s.nx self ≠ b := ne_of_valid_of_fresh hn hf
  have v1 : (s.create b item).valid self := valid_create_of s b item hself
  have v2 : (s.create b item).valid b := valid_create_self s item hb
  have v3 : (s.create b item).valid (s.nx self) := valid_create_of s b item hn
  rw [get_destructor_ok v1]
  simp only [ok_bind]
  rw [set_destructor_ok v2]
  simp only [ok_bind]
  rw [get_duplicator_ok (by simpa using v1)]
  simp only [ok_bind]
  rw [set_duplicator_ok (by simpa using v2)]
  simp only [ok_bind]
  rw [move_after_run (x := b) (y := self)]
  · simp [State.inserted, hsb]
  · simpa using v2
  · simpa using v1
  · simpa using v2
  · simpa using v2
  · exact Ne.symm hsb
  · simpa [nx_unlink, hsb] using v3


/-- Insertion after a present anchor when no duplication takes place. -/
theorem insert_after_run_plain (dup : Ptr → Ptr → Ptr) (s : State) {b self item : Ptr}
    (hself : s.valid self) (hb : b ≠ NULL) (hf : s.live b = false) (hn : s.valid (s.nx self))
    (hnd : s.du self = NULL ∨ item = NULL) :
    zdlist_insert_after dup b s self item = Except.ok (b, s.inserted b self item) := by
  have hc : ¬ (¬ s.du self = NULL ∧ ¬ item = NULL) := by tauto
  unfold zdlist_insert_after
  simp [hself.1, get_duplicator_ok hself, hc, zdlist_new_run s item hb, hb,
    insert_link_run s item hself hb hf hn]

/-- Insertion after a present anchor when the duplicator is called and succeeds. -/
theorem insert_after_run_dup (dup : Ptr → Ptr → Ptr) (s : State) {b self item : Ptr}
    (hself : s.valid self) (hb : b ≠ NULL) (hf : s.live b = false) (hn : s.valid (s.nx self))
    (hd : s.du self ≠ NULL) (hi : item ≠ NULL) (hok : dup (s.du self) item ≠ NULL) :
    zdlist_insert_after dup b s self item =
      Except.ok (b, (s.emit (Event.duplicate (s.du self) item)).inserted b self
        (dup (s.du self) item)) := by
  unfold zdlist_insert_after
  have h1 : (s.emit (Event.duplicate (s.du self) item)).valid self := hself
  have h2 : (s.emit (Event.duplicate (s.du self) item)).valid
      ((s.emit (Event.duplicate (s.du self) item)).nx self) := hn
  simp [hself.1, get_duplicator_ok hself, hd, hi, hok,
    zdlist_new_run (s.emit (Event.duplicate (s.du self) item)) (dup (s.du self) item) hb, hb,
    insert_link_run (s.emit (Event.duplicate (s.du self) item)) (dup (s.du self) item) h1 hb hf h2]

/-- Insertion after a present anchor when the duplicator is called and fails. -/
theorem insert_after_run_dup_fail (dup : Ptr → Ptr → Ptr) (b : Ptr) (s : State)
    {self item : Ptr} (hself : s.valid self)
    (hd : s.du self ≠ NULL) (hi : item ≠ NULL) (hfail : dup (s.du self) item = NULL) :
    zdlist_insert_after dup b s self item =
      Except.ok (NULL, s.emit (Event.duplicate (s.du self) item)) := by
  unfold zdlist_insert_after
  simp [hself.1, get_duplicator_ok hself, hd, hi, hfail]

/-- Insertion after a present anchor when the allocator is out of memory. -/
theorem insert_after_run_nomem (dup : Ptr → Ptr → Ptr) (s : State)
    {self : Ptr} (item : Ptr) (hself : s.valid self) :
    ∃ s1, zdlist_insert_after dup NULL s self item = Except.ok (NULL, s1) ∧
      s1.live = s.live ∧ s1.cell = s.cell := by
  unfold zdlist_insert_after
  by_cases hc : ¬ s.du self = NULL ∧ ¬ item = NULL
  · by_cases hfail : dup (s.du self) item = NULL
    · simp [hself.1, get_duplicator_ok hself, hc, hfail]
    · have h1 : (s.emit (Event.duplicate (s.du self) item)).valid self := hself
      simp [hself.1, get_duplicator_ok hself, hc, hfail, zdlist_new_null,
        get_duplicator_ok h1, get_destructor_ok h1]
      split_ifs <;> simp
  · simp [hself.1, get_duplicator_ok hself, hc, zdlist_new_null, get_destructor_ok hself]
    split_ifs <;> simp


theorem cyclic_congr {s t : State} (hv : ∀ q, t.valid q ↔ s.valid q)
    (hn : ∀ q, t.nx q = s.nx q) (hp : ∀ q, t.pv q = s.pv q) (hc : Cyclic s) : Cyclic t := by
  intro x hx
  obtain ⟨h1, h2, h3, h4⟩ := hc x ((hv x).1 hx)
  simp only [hn, hp, hv]
  exact ⟨h1, h2, h3, h4⟩

theorem cyclic_emit {s : State} (e : Event) (hc : Cyclic s) : Cyclic (s.emit e) :=
  cyclic_congr (fun _ => Iff.rfl) (fun _ => rfl) (fun _ => rfl) hc

theorem cyclic_create {s : State} {b : Ptr} (i : Ptr) (hc : Cyclic s) (hb : b ≠ NULL)
    (hf : s.live b = false) : Cyclic (s.create b i) := by
  intro x hx
  rcases (valid_create s i x hb).1 hx with h | h
  · subst h
    simp [valid_create_self s i hb]
  · obtain ⟨h1, h2, h3, h4⟩ := hc x h
    have e0 : x ≠ b := ne_of_valid_of_fresh h hf
    have e1 : s.nx x ≠ b := ne_of_valid_of_fresh h1 hf
    have e2 : s.pv x ≠ b := ne_of_valid_of_fresh h2 hf
    simp [e0, e1, e2, h3, h4, valid_create_of s b i h1, valid_create_of s b i h2]

theorem cyclic_inserted {s : State} {b self : Ptr} (item : Ptr) (hc : Cyclic s)
    (hself : s.valid self) (hb : b ≠ NULL) (hf : s.live b = false) :
    Cyclic (s.inserted b self item) := by
  unfold State.inserted
  have h1 : Cyclic (((s.create b item).withDestructor b (s.de self)).withDuplicator b
      (s.du self)) := by
    refine cyclic_congr (fun _ => ?_) (fun _ => ?_) (fun _ => ?_) (cyclic_create item hc hb hf)
    · exact Iff.rfl
    · simp
    · simp
  have vb : (((s.create b item).withDestructor b (s.de self)).withDuplicator b
      (s.du self)).valid b := valid_create_self s item hb
  have vs : (((s.create b item).withDestructor b (s.de self)).withDuplicator b
      (s.du self)).valid self := valid_create_of s b item hself
  exact cyclic_link (cyclicOff_unlink h1 vb) vb vs (Ne.symm (ne_of_valid_of_fresh hself hf))

theorem cyclic_move_after {s : State} {x y : Ptr} (hc : Cyclic s) (hx : s.valid x)
    (hy : s.valid y) : ∃ s1, zdlist_move_after s x y = Except.ok s1 ∧ Cyclic s1 := by
  obtain ⟨hxn, hxp, _, _⟩ := hc x hx
  by_cases hxy : x = y
  · subst hxy
    exact ⟨_, move_after_self_run hx hxp hxn, cyclic_selfloop (cyclicOff_unlink hc hx) hx⟩
  · have ho := cyclicOff_unlink hc hx
    have hyn : s.valid ((s.unlink x).nx y) := (ho y hy (Ne.symm hxy)).1
    exact ⟨_, move_after_run hx hy hxp hxn hxy hyn, cyclic_link ho hx hy hxy⟩

theorem cyclic_move_before {s : State} {x y : Ptr} (hc : Cyclic s) (hx : s.valid x)
    (hy : s.valid y) : ∃ s1, zdlist_move_before s x y = Except.ok s1 ∧ Cyclic s1 := by
  obtain ⟨_, hyp, _, _⟩ := hc y hy
  unfold zdlist_move_before
  simp only [c_assert, hy.1, ne_eq, not_false_eq_true, if_true, ok_bind, get_prev_ok hy]
  exact cyclic_move_after hc hx hyp

theorem cyclic_detach {s : State} {x : Ptr} (hc : Cyclic s) (hx : s.valid x) :
    ∃ r, zdlist_detach s x = Except.ok r ∧ Cyclic r.2.2 := by
  obtain ⟨hxn, hxp, _, _⟩ := hc x hx
  exact ⟨_, detach_run hx hxp hxn, cyclic_selfloop (cyclicOff_unlink hc hx) hx⟩

theorem cyclic_insert_after (dup : Ptr → Ptr → Ptr) {s : State} {b self : Ptr} (item : Ptr)
    (hc : Cyclic s) (hself : s.valid self) (hb : fresh s b) :
    ∃ r, zdlist_insert_after dup b s self item = Except.ok r ∧ Cyclic r.2 := by
  obtain ⟨hn, _, _, _⟩ := hc self hself
  by_cases hb0 : b = NULL
  · subst hb0
    obtain ⟨s1, h1, h2, h3⟩ := insert_after_run_nomem dup s item hself
    refine ⟨_, h1, ?_⟩
    exact cyclic_congr (fun q => by simp [State.valid, h2])
      (fun q => by simp [State.nx, h3]) (fun q => by simp [State.pv, h3]) hc
  · have hf : s.live b = false := by
      rcases hb with h | h
      · exact absurd h hb0
      · exact h
    by_cases hd : s.du self = NULL ∨ item = NULL
    · exact ⟨_, insert_after_run_plain dup s hself hb0 hf hn hd,
        cyclic_inserted item hc hself hb0 hf⟩
    · have hd1 : s.du self ≠ NULL := fun h => hd (Or.inl h)
      have hi : item ≠ NULL := fun h => hd (Or.inr h)
      by_cases hok : dup (s.du self) item = NULL
      · exact ⟨_, insert_after_run_dup_fail dup b s hself hd1 hi hok, cyclic_emit _ hc⟩
      · exact ⟨_, insert_after_run_dup dup s hself hb0 hf hn hd1 hi hok,
          cyclic_inserted _ (cyclic_emit _ hc) hself hb0 hf⟩

theorem cyclic_insert_before (dup : Ptr → Ptr → Ptr) {s : State} {b self : Ptr} (item : Ptr)
    (hc : Cyclic s) (hself : s.valid self) (hb : fresh s b) :
    ∃ r, zdlist_insert_before dup b s self item = Except.ok r ∧ Cyclic r.2 := by
  obtain ⟨_, hp, _, _⟩ := hc self hself
  unfold zdlist_insert_before
  simp only [hself.1, ne_eq, not_false_eq_true, if_true, get_prev_ok hself, ok_bind]
  exact cyclic_insert_after dup item hc hp hb

theorem cyclic_new {s : State} {b : Ptr} (item : Ptr) (hc : Cyclic s) (hb : fresh s b) :
    ∃ r, zdlist_new b s item = Except.ok r ∧ Cyclic r.2 := by
  by_cases hb0 : b = NULL
  · subst hb0
    exact ⟨_, zdlist_new_null s item, hc⟩
  · have hf : s.live b = false := by
      rcases hb with h | h
      · exact absurd h hb0
      · exact h
    exact ⟨_, zdlist_new_run s item hb0, cyclic_create item hc hb0 hf⟩

theorem cyclic_call (dup : Ptr → Ptr → Ptr) {s : State} (c : Call) (hc : Cyclic s)
    (ha : c.admissible s) : ∃ s1, c.run dup s = Except.ok s1 ∧ Cyclic s1 := by
  cases c with
  | new b item =>
    obtain ⟨r, h1, h2⟩ := cyclic_new item hc ha
    exact ⟨r.2, by simp [Call.run, h1], h2⟩
  | insert_after b self item =>
    obtain ⟨r, h1, h2⟩ := cyclic_insert_after dup item hc ha.2 ha.1
    exact ⟨r.2, by simp [Call.run, h1], h2⟩
  | insert_before b self item =>
    obtain ⟨r, h1, h2⟩ := cyclic_insert_before dup item hc ha.2 ha.1
    exact ⟨r.2, by simp [Call.run, h1], h2⟩
  | detach cursor =>
    obtain ⟨r, h1, h2⟩ := cyclic_detach hc ha
    exact ⟨r.2.2, by simp [Call.run, h1], h2⟩
  | move_after x y =>
    obtain ⟨r, h1, h2⟩ := cyclic_move_after hc ha.1 ha.2
    exact ⟨r, by simp [Call.run, h1], h2⟩
  | move_before x y =>
    obtain ⟨r, h1, h2⟩ := cyclic_move_before hc ha.1 ha.2
    exact ⟨r, by simp [Call.run, h1], h2⟩

theorem cyclic_empty : Cyclic State.empty := by
  intro x hx
  exact absurd hx.2 (by simp [State.empty])

/-- C1: cyclicity is an invariant of every mutating operation.  From a store in which
every allocated node has allocated neighbours with `prev(next(x)) == x` and
`next(prev(x)) == x`, any finite sequence of `zdlist_new`, `zdlist_insert_after`,
`zdlist_insert_before`, `zdlist_detach`, `zdlist_move_after` and `zdlist_move_before`
calls on present nodes runs to completion and leaves a store with the same property for
every node, newly created ones included.  A single call is the sequence of length one;
the empty store, from which `zdlist_new` constructs, is such a store. -/
theorem cyclicity_invariant (dup : Ptr → Ptr → Ptr) (s : State) (cs : List Call)
    (hc : Cyclic s) (ha : admissible_calls dup s cs = true) :
    ∃ s1, run_calls dup s cs = Except.ok s1 ∧ Cyclic s1 := by
  induction cs generalizing s with
  | nil => exact ⟨s, rfl, hc⟩
  | cons c cs ih =>
    simp only [admissible_calls, Bool.and_eq_true, decide_eq_true_eq] at ha
    obtain ⟨s1, h1, h2⟩ := cyclic_call dup c hc ha.1
    have ha2 := ha.2
    rw [h1] at ha2
    obtain ⟨s2, h3, h4⟩ := ih s1 h2 ha2
    exact ⟨s2, by simp [run_calls, h1, h3], h4⟩

theorem cyclicity_invariant_witness :
    Cyclic State.empty ∧
    admissible_calls (fun _ _ => 0) State.empty
        [Call.new 1 0, Call.insert_after 2 1 7, Call.insert_before 3 1 8,
         Call.move_after 3 2, Call.move_before 2 3, Call.move_after 1 1, Call.detach 3,
         Call.insert_after 0 2 9] = true ∧
    ∃ s1, run_calls (fun _ _ => 0) State.empty
        [Call.new 1 0, Call.insert_after 2 1 7, Call.insert_before 3 1 8,
         Call.move_after 3 2, Call.move_before 2 3, Call.move_after 1 1, Call.detach 3,
         Call.insert_after 0 2 9] = Except.ok s1 ∧ Cyclic s1 :=
  ⟨cyclic_empty, by decide,
    cyclicity_invariant (fun _ _ => 0) State.empty _ cyclic_empty (by decide)⟩


/-! ## Fields of the store after an insertion -/

theorem valid_inserted (s : State) {b : Ptr} (a i q : Ptr) (hb : b ≠ NULL) :
    (s.inserted b a i).valid q ↔ (q = b ∨ s.valid q) := by
  unfold State.inserted
  simp only [valid_link, valid_unlink, valid_withDuplicator, valid_withDestructor]
  exact valid_create s i q hb

theorem nx_inserted (s : State) {a b : Ptr} (i q : Ptr) (hab : a ≠ b) :
    (s.inserted b a i).nx q = if q = a then b else if q = b then s.nx a else s.nx q := by
  unfold State.inserted
  simp only [nx_link, nx_unlink, nx_withDuplicator, nx_withDestructor, nx_create,
    pv_withDuplicator, pv_withDestructor, pv_create, if_true]
  by_cases h1 : q = a
  · simp [h1]
  · by_cases h2 : q = b
    · simp [h2, hab, Ne.symm hab]
    · simp [h1, h2]

theorem pv_inserted (s : State) {a b : Ptr} (i q : Ptr) (hab : a ≠ b) :
    (s.inserted b a i).pv q =
      if q = s.nx a then b else if q = b then a else s.pv q := by
  unfold State.inserted
  simp only [pv_link, pv_unlink, nx_unlink, nx_withDuplicator, nx_withDestructor, nx_create,
    pv_withDuplicator, pv_withDestructor, pv_create, if_true]
  by_cases h1 : q = s.nx a
  · simp [h1, hab]
  · by_cases h2 : q = b
    · simp [h1, h2, hab]
    · simp [h1, h2, hab]

theorem it_inserted (s : State) (a b i q : Ptr) :
    (s.inserted b a i).it q = if q = b then i else s.it q := by
  simp [State.inserted]

theorem de_inserted (s : State) (a b i q : Ptr) :
    (s.inserted b a i).de q = if q = b then s.de a else s.de q := by
  by_cases h : q = b <;> simp [State.inserted, h]

theorem du_inserted (s : State) (a b i q : Ptr) :
    (s.inserted b a i).du q = if q = b then s.du a else s.du q := by
  by_cases h : q = b <;> simp [State.inserted, h]

@[simp] theorem log_inserted (s : State) (a b i : Ptr) : (s.inserted b a i).log = s.log := rfl

/-! ## Rings as lists -/

theorem chain_mono_mem {R S : Ptr → Ptr → Prop} {a : Ptr} {l : List Ptr}
    (h : List.Chain R a l) (hm : ∀ u v, u ∈ a :: l → v ∈ l → R u v → S u v) :
    List.Chain S a l := by
  rw [List.Chain.iff_mem] at h
  exact h.imp (fun u v huv => hm u v huv.1 huv.2.1 huv.2.2)

theorem chain_valid {s : State} {a : Ptr} {l : List Ptr} (h : List.Chain (linked s) a l) :
    ∀ v ∈ l, s.valid v := by
  induction l generalizing a with
  | nil => intro v hv; simp at hv
  | cons b l ih =>
    rw [List.chain_cons] at h
    intro v hv
    rcases List.mem_cons.1 hv with h1 | h1
    · subst h1; exact h.1.2.1
    · exact ih h.2 v h1

theorem ring_valid {s : State} {l : List Ptr} (h : IsRing s l) : ∀ v ∈ l, s.valid v := by
  cases l with
  | nil => exact absurd h (by simp [IsRing])
  | cons a rest =>
    obtain ⟨_, hc, hl⟩ := h
    intro v hv
    rcases List.mem_cons.1 hv with h1 | h1
    · subst h1; exact hl.2.1
    · exact chain_valid hc v h1

theorem ring_pv_head {s : State} {a : Ptr} {rest : List Ptr} (h : IsRing s (a :: rest)) :
    s.pv a = (a :: rest).getLast (List.cons_ne_nil a rest) ∧
      s.nx (s.pv a) = a ∧ s.valid (s.pv a) := by
  obtain ⟨_, _, hl⟩ := h
  obtain ⟨h1, _, h3, h4⟩ := hl
  rw [h4]
  exact ⟨rfl, h3, h1⟩

theorem ring_nx_head {s : State} {a : Ptr} {rest : List Ptr} (h : IsRing s (a :: rest)) :
    s.nx a = (rest ++ [a]).head (by simp) ∧ s.pv (s.nx a) = a ∧ s.valid (s.nx a) := by
  obtain ⟨_, hc, hl⟩ := h
  cases rest with
  | nil =>
    obtain ⟨h1, _, h3, h4⟩ := hl
    simp only [List.getLast_singleton] at h1 h3 h4
    simp [h3, h4, h1]
  | cons r t =>
    rw [List.chain_cons] at hc
    obtain ⟨_, h2, h3, h4⟩ := hc.1
    simp [h3, h4, h2]

theorem ring_singleton_iff (s : State) (a : Ptr) :
    IsRing s [a] ↔ s.valid a ∧ s.nx a = a ∧ s.pv a = a := by
  simp [IsRing, linked]


theorem isRing_congr {s t : State} {l : List Ptr} (hv : ∀ q, t.valid q ↔ s.valid q)
    (hn : ∀ q, t.nx q = s.nx q) (hp : ∀ q, t.pv q = s.pv q) (h : IsRing s l) : IsRing t l := by
  have e : ∀ u v, linked s u v → linked t u v := by
    intro u v huv
    unfold linked at huv ⊢
    simpa [hv, hn, hp] using huv
  cases l with
  | nil => exact absurd h (by simp [IsRing])
  | cons a rest =>
    obtain ⟨h1, h2, h3⟩ := h
    exact ⟨h1, h2.imp (fun u v => e u v), e _ _ h3⟩

theorem ring_inserted {s : State} {a b : Ptr} {rest : List Ptr} (i : Ptr)
    (h : IsRing s (a :: rest)) (hb : b ≠ NULL) (hf : s.live b = false) :
    IsRing (s.inserted b a i) (a :: b :: rest) := by
  have hval := ring_valid h
  have hva : s.valid a := hval a (List.mem_cons_self _ _)
  have hab : a ≠ b := ne_of_valid_of_fresh hva hf
  have hnb : ∀ v ∈ a :: rest, v ≠ b := fun v hv => ne_of_valid_of_fresh (hval v hv) hf
  have hbr : b ∉ a :: rest := fun hm => hnb b hm rfl
  obtain ⟨hnx, _, hnv⟩ := ring_nx_head h
  have hnxb : s.nx a ≠ b := ne_of_valid_of_fresh hnv hf
  obtain ⟨hnd, hc, hl⟩ := h
  have hnd2 := List.nodup_cons.1 hnd
  have vi : ∀ q, s.valid q → (s.inserted b a i).valid q :=
    fun q hq => (valid_inserted s a i q hb).2 (Or.inr hq)
  have vb : (s.inserted b a i).valid b := (valid_inserted s a i b hb).2 (Or.inl rfl)
  have lab : linked (s.inserted b a i) a b := by
    refine ⟨vi a hva, vb, ?_, ?_⟩
    · simp [nx_inserted s i _ hab]
    · simp [pv_inserted s i _ hab, Ne.symm hnxb]
  refine ⟨?_, ?_, ?_⟩
  · rw [List.nodup_cons]
    refine ⟨?_, List.nodup_cons.2 ⟨fun hm => hbr (List.mem_cons_of_mem _ hm), hnd2.2⟩⟩
    intro hm
    rcases List.mem_cons.1 hm with h1 | h1
    · exact hab h1
    · exact hnd2.1 h1
  · rw [List.chain_cons]
    refine ⟨lab, ?_⟩
    cases rest with
    | nil => exact List.Chain.nil
    | cons r t =>
      simp only [List.cons_append, List.head_cons] at hnx
      rw [List.chain_cons] at hc ⊢
      have hnd3 := List.nodup_cons.1 hnd2.2
      have hra : r ≠ a := fun e => hnd2.1 (e ▸ List.mem_cons_self _ _)
      have hrb : r ≠ b := hnb r (by simp)
      refine ⟨⟨vb, vi r hc.1.2.1, ?_, ?_⟩, ?_⟩
      · simp [nx_inserted s i _ hab, Ne.symm hab, hnx]
      · simp [pv_inserted s i _ hab, hnx]
      · refine chain_mono_mem hc.2 ?_
        intro u v hu hv huv
        have hua : u ≠ a := fun e => hnd2.1 (e ▸ hu)
        have hub : u ≠ b := hnb u (List.mem_cons_of_mem _ hu)
        have hvr : v ≠ r := fun e => hnd3.1 (e ▸ hv)
        have hvb : v ≠ b := hnb v (List.mem_cons_of_mem _ (List.mem_cons_of_mem _ hv))
        obtain ⟨h1, h2, h3, h4⟩ := huv
        refine ⟨vi u h1, vi v h2, ?_, ?_⟩
        · simp [nx_inserted s i _ hab, hua, hub, h3]
        · simp [pv_inserted s i _ hab, hnx, hvr, hvb, h4]
  · cases rest with
    | nil =>
      simp only [List.nil_append, List.head_cons] at hnx
      simp only [List.getLast_cons_cons, List.getLast_singleton]
      refine ⟨vb, vi a hva, ?_, ?_⟩
      · simp [nx_inserted s i _ hab, Ne.symm hab, hnx]
      · simp [pv_inserted s i _ hab, hnx]
    | cons r t =>
      simp only [List.cons_append, List.head_cons] at hnx
      simp only [List.getLast_cons_cons] at hl ⊢
      have hm : (r :: t).getLast (List.cons_ne_nil r t) ∈ r :: t := List.getLast_mem _
      have hla : (r :: t).getLast (List.cons_ne_nil r t) ≠ a := fun e => hnd2.1 (e ▸ hm)
      have hlb : (r :: t).getLast (List.cons_ne_nil r t) ≠ b :=
        hnb _ (List.mem_cons_of_mem _ hm)
      have hra : a ≠ r := fun e => hnd2.1 (e ▸ List.mem_cons_self _ _)
      obtain ⟨h1, h2, h3, h4⟩ := hl
      refine ⟨vi _ h1, vi a hva, ?_, ?_⟩
      · simp [nx_inserted s i _ hab, hla, hlb, h3]
      · simp [pv_inserted s i _ hab, hnx, hra, hab, h4]


/-- The two ways `zdlist_insert_after` on a present anchor can end: `NULL` with the nodes
untouched, or the block `b` spliced in after the anchor. -/
theorem insert_after_outcome (dup : Ptr → Ptr → Ptr) (s : State) {a b : Ptr} (item : Ptr)
    (ha : s.valid a) (hn : s.valid (s.nx a)) (hb : fresh s b) :
    (∃ s1, zdlist_insert_after dup b s a item = Except.ok (NULL, s1) ∧
        s1.live = s.live ∧ s1.cell = s.cell ∧
        (b = NULL ∨ (s.du a ≠ NULL ∧ item ≠ NULL ∧ dup (s.du a) item = NULL))) ∨
    (b ≠ NULL ∧ s.live b = false ∧
      ((s.du a = NULL ∨ item = NULL) ∧
          zdlist_insert_after dup b s a item = Except.ok (b, s.inserted b a item) ∨
       (s.du a ≠ NULL ∧ item ≠ NULL ∧ dup (s.du a) item ≠ NULL) ∧
          zdlist_insert_after dup b s a item =
            Except.ok (b, (s.emit (Event.duplicate (s.du a) item)).inserted b a
              (dup (s.du a) item)))) := by
  by_cases hb0 : b = NULL
  · subst hb0
    obtain ⟨s1, h1, h2, h3⟩ := insert_after_run_nomem dup s item ha
    exact Or.inl ⟨s1, h1, h2, h3, Or.inl rfl⟩
  · have hf : s.live b = false := by
      rcases hb with h | h
      · exact absurd h hb0
      · exact h
    by_cases hd : s.du a = NULL ∨ item = NULL
    · exact Or.inr ⟨hb0, hf, Or.inl ⟨hd, insert_after_run_plain dup s ha hb0 hf hn hd⟩⟩
    · have hd1 : s.du a ≠ NULL := fun h => hd (Or.inl h)
      have hi : item ≠ NULL := fun h => hd (Or.inr h)
      by_cases hok : dup (s.du a) item = NULL
      · exact Or.inl ⟨_, insert_after_run_dup_fail dup b s ha hd1 hi hok, rfl, rfl,
          Or.inr ⟨hd1, hi, hok⟩⟩
      · exact Or.inr ⟨hb0, hf, Or.inr ⟨⟨hd1, hi, hok⟩,
          insert_after_run_dup dup s ha hb0 hf hn hd1 hi hok⟩⟩

theorem isRing_emit {s : State} {l : List Ptr} (e : Event) (h : IsRing s l) :
    IsRing (s.emit e) l :=
  isRing_congr (fun _ => Iff.rfl) (fun _ => rfl) (fun _ => rfl) h

/-- What a spliced-in block looks like from the anchor's ring. -/
theorem inserted_spec {s : State} {a b : Ptr} {rest : List Ptr} (i : Ptr)
    (h : IsRing s (a :: rest)) (hb : b ≠ NULL) (hf : s.live b = false) :
    ¬ s.valid b ∧ (s.inserted b a i).valid b ∧ (s.inserted b a i).nx a = b ∧
      (s.inserted b a i).pv b = a ∧ (s.inserted b a i).nx b = s.nx a ∧
      IsRing (s.inserted b a i) (a :: b :: rest) := by
  have hva : s.valid a := ring_valid h a (List.mem_cons_self _ _)
  have hab : a ≠ b := ne_of_valid_of_fresh hva hf
  have hnxb : s.nx a ≠ b := ne_of_valid_of_fresh (ring_nx_head h).2.2 hf
  refine ⟨fun hv => ?_, (valid_inserted s a i b hb).2 (Or.inl rfl), ?_, ?_, ?_,
    ring_inserted i h hb hf⟩
  · have := hv.2; simp_all
  · simp [nx_inserted s i _ hab]
  · simp [pv_inserted s i _ hab, Ne.symm hnxb]
  · simp [nx_inserted s i _ hab, Ne.symm hab]

/-- C2: on a well-formed ring read from the anchor `a`, `zdlist_insert_after (a, item)`
always returns; it succeeds whenever the allocator hands out a block and no duplication
fails; and whenever it returns a node `n` (not `NULL`), `n` is a newly allocated node
with `next(a) == n`, `prev(n) == a`, `next(n)` equal to the old `next(a)`, and the ring
read from `a` along `next` is the old sequence with `n` inserted directly after `a`. -/
theorem insert_after_splices (dup : Ptr → Ptr → Ptr) (s : State) (a : Ptr) (rest : List Ptr)
    (b item : Ptr) (hr : IsRing s (a :: rest)) (hb : fresh s b) :
    (∃ r, zdlist_insert_after dup b s a item = Except.ok r) ∧
    (b ≠ NULL → (s.du a = NULL ∨ item = NULL ∨ dup (s.du a) item ≠ NULL) →
      ∃ s1, zdlist_insert_after dup b s a item = Except.ok (b, s1)) ∧
    ∀ n s1, zdlist_insert_after dup b s a item = Except.ok (n, s1) → n ≠ NULL →
      ¬ s.valid n ∧ s1.valid n ∧ s1.nx a = n ∧ s1.pv n = a ∧ s1.nx n = s.nx a ∧
        IsRing s1 (a :: n :: rest) := by
  have hva : s.valid a := ring_valid hr a (List.mem_cons_self _ _)
  have hn : s.valid (s.nx a) := (ring_nx_head hr).2.2
  rcases insert_after_outcome dup s item hva hn hb with
    ⟨s1, h1, _, _, h4⟩ | ⟨hb0, hf, ⟨hd, h1⟩ | ⟨hd, h1⟩⟩
  · refine ⟨⟨_, h1⟩, ?_, ?_⟩
    · intro hb0 hd
      rcases h4 with h4 | ⟨h5, h6, h7⟩
      · exact absurd h4 hb0
      · rcases hd with hd | hd | hd
        · exact absurd hd h5
        · exact absurd hd h6
        · exact absurd h7 hd
    · intro n s2 h2 hn0
      rw [h1] at h2
      simp only [Except.ok.injEq, Prod.mk.injEq] at h2
      exact absurd h2.1.symm hn0
  · refine ⟨⟨_, h1⟩, fun _ _ => ⟨_, h1⟩, ?_⟩
    intro n s2 h2 _
    rw [h1] at h2
    simp only [Except.ok.injEq, Prod.mk.injEq] at h2
    obtain ⟨e1, e2⟩ := h2
    subst e1 e2
    exact inserted_spec item hr hb0 hf
  · refine ⟨⟨_, h1⟩, fun _ _ => ⟨_, h1⟩, ?_⟩
    intro n s2 h2 _
    rw [h1] at h2
    simp only [Except.ok.injEq, Prod.mk.injEq] at h2
    obtain ⟨e1, e2⟩ := h2
    subst e1 e2
    obtain ⟨q1, q2, q3, q4, q5, q6⟩ := inserted_spec (dup (s.du a) item)
      (isRing_emit (Event.duplicate (s.du a) item) hr) hb0 hf
    exact ⟨q1, q2, q3, q4, q5, q6⟩

theorem insert_after_splices_witness :
    IsRing ring3 (1 :: [2, 3]) ∧ fresh ring3 4 ∧
    ((∃ r, zdlist_insert_after (fun _ _ => 0) 4 ring3 1 7 = Except.ok r) ∧
    (4 ≠ NULL → (ring3.du 1 = NULL ∨ 7 = NULL ∨ (fun _ _ => 0) (ring3.du 1) 7 ≠ NULL) →
      ∃ s1, zdlist_insert_after (fun _ _ => 0) 4 ring3 1 7 = Except.ok (4, s1)) ∧
    ∀ n s1, zdlist_insert_after (fun _ _ => 0) 4 ring3 1 7 = Except.ok (n, s1) → n ≠ NULL →
      ¬ ring3.valid n ∧ s1.valid n ∧ s1.nx 1 = n ∧ s1.pv n = 1 ∧ s1.nx n = ring3.nx 1 ∧
        IsRing s1 (1 :: n :: [2, 3])) :=
  ⟨by decide, by decide,
    insert_after_splices (fun _ _ => 0) ring3 1 [2, 3] 4 7 (by decide) (by decide)⟩


/-! ## Items, duplication failure, insertion before an anchor -/

theorem insert_before_eq_after (dup : Ptr → Ptr → Ptr) (b : Ptr) {s : State} {a : Ptr}
    (item : Ptr) (ha : s.valid a) :
    zdlist_insert_before dup b s a item = zdlist_insert_after dup b s (s.pv a) item := by
  unfold zdlist_insert_before
  simp [ha.1, get_prev_ok ha]

theorem insert_before_null (dup : Ptr → Ptr → Ptr) (b : Ptr) (s : State) (item : Ptr) :
    zdlist_insert_before dup b s NULL item = zdlist_insert_after dup b s NULL item := by
  unfold zdlist_insert_before
  simp

theorem zdlist_item_inserted (s : State) {b : Ptr} (a i : Ptr) (hb : b ≠ NULL) :
    zdlist_item (s.inserted b a i) b = Except.ok i := by
  have hv : (s.inserted b a i).valid b := (valid_inserted s a i b hb).2 (Or.inl rfl)
  simp [zdlist_item, hb, get_item_ok hv, it_inserted]

/-- C3: the item held by the node returned from `zdlist_insert_after (a, x)` on a present
anchor `a`, when the allocator hands out block `b`: without a duplicator on `a` it is `x`
itself and no callback runs; with a duplicator on `a`, a present `x` and a successful
duplication it is the duplicator's result for `x`; for an absent `x` the duplicator is
not invoked and the new node is a guard. -/
theorem insert_after_item (dup : Ptr → Ptr → Ptr) (s : State) (a b x : Ptr)
    (ha : s.valid a) (hn : s.valid (s.nx a)) (hb : b ≠ NULL) (hf : s.live b = false) :
    (s.du a = NULL →
      ∃ s1, zdlist_insert_after dup b s a x = Except.ok (b, s1) ∧
        zdlist_item s1 b = Except.ok x ∧ s1.log = s.log) ∧
    (s.du a ≠ NULL → x ≠ NULL → dup (s.du a) x ≠ NULL →
      ∃ s1, zdlist_insert_after dup b s a x = Except.ok (b, s1) ∧
        zdlist_item s1 b = Except.ok (dup (s.du a) x) ∧
        s1.log = s.log ++ [Event.duplicate (s.du a) x]) ∧
    (x = NULL →
      ∃ s1, zdlist_insert_after dup b s a x = Except.ok (b, s1) ∧
        zdlist_item s1 b = Except.ok NULL ∧ s1.it b = NULL ∧ s1.log = s.log) := by
  refine ⟨fun hd => ?_, fun hd hx hok => ?_, fun hx => ?_⟩
  · exact ⟨_, insert_after_run_plain dup s ha hb hf hn (Or.inl hd),
      zdlist_item_inserted s a x hb, rfl⟩
  · exact ⟨_, insert_after_run_dup dup s ha hb hf hn hd hx hok,
      zdlist_item_inserted _ a _ hb, rfl⟩
  · subst hx
    exact ⟨_, insert_after_run_plain dup s ha hb hf hn (Or.inr rfl),
      zdlist_item_inserted s a NULL hb, by simp [it_inserted], rfl⟩

theorem insert_after_item_witness :
    ring3d.valid 1 ∧ ring3d.valid (ring3d.nx 1) ∧ (4 : Ptr) ≠ NULL ∧ ring3d.live 4 = false ∧
    ((ring3d.du 1 = NULL →
      ∃ s1, zdlist_insert_after dup_ok 4 ring3d 1 7 = Except.ok (4, s1) ∧
        zdlist_item s1 4 = Except.ok 7 ∧ s1.log = ring3d.log) ∧
    (ring3d.du 1 ≠ NULL → (7 : Ptr) ≠ NULL → dup_ok (ring3d.du 1) 7 ≠ NULL →
      ∃ s1, zdlist_insert_after dup_ok 4 ring3d 1 7 = Except.ok (4, s1) ∧
        zdlist_item s1 4 = Except.ok (dup_ok (ring3d.du 1) 7) ∧
        s1.log = ring3d.log ++ [Event.duplicate (ring3d.du 1) 7]) ∧
    ((7 : Ptr) = NULL →
      ∃ s1, zdlist_insert_after dup_ok 4 ring3d 1 7 = Except.ok (4, s1) ∧
        zdlist_item s1 4 = Except.ok NULL ∧ s1.it 4 = NULL ∧ s1.log = ring3d.log)) :=
  ⟨by decide, by decide, by decide, by decide,
    insert_after_item dup_ok ring3d 1 4 7 (by decide) (by decide) (by decide) (by decide)⟩

theorem mixed_ring_facts :
    ∃ s, mixed_ring_run = Except.ok s ∧ IsRing s [1, 2] ∧ s.valid 2 ∧ s.valid 1 ∧
      s.pv 2 = 1 ∧ s.nx 1 = 2 ∧ s.du 1 = NULL ∧ s.du 2 = 9 ∧ s.live 3 = false :=
  ⟨_, rfl, by decide, by decide, by decide, by decide, by decide, by decide, by decide,
    by decide⟩

/-- C4 (as stated, refuted): in the two-node ring left by `mixed_ring_run` (built with
the public operations only) node 2 is present with duplicator 9 set, and the duplicator
fails on the present item 5, yet `zdlist_insert_before (2, 5)` succeeds: it consults the
duplicator of `prev(2)`, which has none, and links a new node holding 5 itself. -/
theorem insert_before_dup_failure_counterexample :
    ∃ s, mixed_ring_run = Except.ok s ∧ IsRing s [1, 2] ∧ s.valid 2 ∧ s.du 2 ≠ NULL ∧
      (5 : Ptr) ≠ NULL ∧ dup_fail (s.du 2) 5 = NULL ∧ s.live 3 = false ∧
      ∃ s1, zdlist_insert_before dup_fail 3 s 2 5 = Except.ok (3, s1) ∧
        s1.valid 3 ∧ s1.it 3 = 5 := by
  obtain ⟨s, h0, h1, h2, h3, h4, h5, h6, h7, h8⟩ := mixed_ring_facts
  have h9 : s.valid (s.nx 1) := by rw [h5]; exact h2
  refine ⟨s, h0, h1, h2, by rw [h7]; decide, by decide, rfl, h8, s.inserted 3 1 5, ?_, ?_, ?_⟩
  · rw [insert_before_eq_after dup_fail 3 5 h2, h4]
    exact insert_after_run_plain dup_fail s h3 (by decide) h8 h9 (Or.inl h6)
  · exact (valid_inserted s 1 5 3 (by decide)).2 (Or.inl rfl)
  · simp [it_inserted]

/-- C4 (amended): duplication failure is atomic.  For a present anchor `a` whose
duplicator is set and fails on the present `item`, `zdlist_insert_after (a, item)` returns
`NULL`, allocates nothing, changes no field of any node and calls no destructor (the only
callback is the failed duplicator call).  `zdlist_insert_before (a, item)` does the same
when the duplicator of `prev(a)`, the node it inserts after, is set and fails on `item`;
that is `a`'s own duplicator whenever `prev(a)` and `a` carry the same one. -/
theorem dup_failure_atomic (dup : Ptr → Ptr → Ptr) (b : Ptr) (s : State) (a item : Ptr)
    (ha : s.valid a) (hi : item ≠ NULL) :
    (s.du a ≠ NULL → dup (s.du a) item = NULL →
      ∃ s1, zdlist_insert_after dup b s a item = Except.ok (NULL, s1) ∧
        s1.live = s.live ∧ s1.cell = s.cell ∧
        s1.log = s.log ++ [Event.duplicate (s.du a) item]) ∧
    (s.valid (s.pv a) → s.du (s.pv a) ≠ NULL → dup (s.du (s.pv a)) item = NULL →
      ∃ s1, zdlist_insert_before dup b s a item = Except.ok (NULL, s1) ∧
        s1.live = s.live ∧ s1.cell = s.cell ∧
        s1.log = s.log ++ [Event.duplicate (s.du (s.pv a)) item]) ∧
    (s.valid (s.pv a) → s.du (s.pv a) = s.du a → s.du a ≠ NULL → dup (s.du a) item = NULL →
      ∃ s1, zdlist_insert_before dup b s a item = Except.ok (NULL, s1) ∧
        s1.live = s.live ∧ s1.cell = s.cell ∧
        s1.log = s.log ++ [Event.duplicate (s.du a) item]) := by
  refine ⟨fun hd hfail => ?_, fun hp hd hfail => ?_, fun hp he hd hfail => ?_⟩
  · exact ⟨_, insert_after_run_dup_fail dup b s ha hd hi hfail, rfl, rfl, rfl⟩
  · rw [insert_before_eq_after dup b item ha]
    exact ⟨_, insert_after_run_dup_fail dup b s hp hd hi hfail, rfl, rfl, rfl⟩
  · rw [insert_before_eq_after dup b item ha]
    rw [← he] at hd hfail ⊢
    exact ⟨_, insert_after_run_dup_fail dup b s hp hd hi hfail, rfl, rfl, rfl⟩

theorem dup_failure_atomic_witness :
    ring3d.valid 2 ∧ (7 : Ptr) ≠ NULL ∧
    ((ring3d.du 2 ≠ NULL → dup_fail (ring3d.du 2) 7 = NULL →
      ∃ s1, zdlist_insert_after dup_fail 4 ring3d 2 7 = Except.ok (NULL, s1) ∧
        s1.live = ring3d.live ∧ s1.cell = ring3d.cell ∧
        s1.log = ring3d.log ++ [Event.duplicate (ring3d.du 2) 7]) ∧
    (ring3d.valid (ring3d.pv 2) → ring3d.du (ring3d.pv 2) ≠ NULL →
      dup_fail (ring3d.du (ring3d.pv 2)) 7 = NULL →
      ∃ s1, zdlist_insert_before dup_fail 4 ring3d 2 7 = Except.ok (NULL, s1) ∧
        s1.live = ring3d.live ∧ s1.cell = ring3d.cell ∧
        s1.log = ring3d.log ++ [Event.duplicate (ring3d.du (ring3d.pv 2)) 7]) ∧
    (ring3d.valid (ring3d.pv 2) → ring3d.du (ring3d.pv 2) = ring3d.du 2 →
      ring3d.du 2 ≠ NULL → dup_fail (ring3d.du 2) 7 = NULL →
      ∃ s1, zdlist_insert_before dup_fail 4 ring3d 2 7 = Except.ok (NULL, s1) ∧
        s1.live = ring3d.live ∧ s1.cell = ring3d.cell ∧
        s1.log = ring3d.log ++ [Event.duplicate (ring3d.du 2) 7])) :=
  ⟨by decide, by decide, dup_failure_atomic dup_fail 4 ring3d 2 7 (by decide) (by decide)⟩


/-- C5: on a well-formed ring with present anchor `a`, `zdlist_insert_before (a, item)` is
`zdlist_insert_after (prev(a), item)`: same result, same final store.  It always
returns, and when it returns a node `n` (not `NULL`), `next(n) == a` and `prev(n)` is the
old `prev(a)`, with `prev(a) == n` and `n` following the old `prev(a)`: `n` sits
immediately before `a`.  For an absent anchor it is `zdlist_insert_after (NULL, item)`. -/
theorem insert_before_spec (dup : Ptr → Ptr → Ptr) (s : State) (a : Ptr) (rest : List Ptr)
    (b item : Ptr) (hr : IsRing s (a :: rest)) (hb : fresh s b) :
    zdlist_insert_before dup b s a item = zdlist_insert_after dup b s (s.pv a) item ∧
    zdlist_insert_before dup b s NULL item = zdlist_insert_after dup b s NULL item ∧
    (∃ r, zdlist_insert_before dup b s a item = Except.ok r) ∧
    (b ≠ NULL → (s.du (s.pv a) = NULL ∨ item = NULL ∨ dup (s.du (s.pv a)) item ≠ NULL) →
      ∃ s1, zdlist_insert_before dup b s a item = Except.ok (b, s1)) ∧
    ∀ n s1, zdlist_insert_before dup b s a item = Except.ok (n, s1) → n ≠ NULL →
      ¬ s.valid n ∧ s1.valid n ∧ s1.nx n = a ∧ s1.pv n = s.pv a ∧ s1.pv a = n ∧
        s1.nx (s.pv a) = n := by
  have hva : s.valid a := ring_valid hr a (List.mem_cons_self _ _)
  obtain ⟨_, hnp, hvp⟩ := ring_pv_head hr
  have hvn : s.valid (s.nx (s.pv a)) := by rw [hnp]; exact hva
  have key : ∀ (t : State) (i : Ptr), (∀ q, t.valid q ↔ s.valid q) → (∀ q, t.nx q = s.nx q) →
      (∀ q, t.pv q = s.pv q) → b ≠ NULL → s.live b = false →
      ¬ s.valid b ∧ (t.inserted b (s.pv a) i).valid b ∧ (t.inserted b (s.pv a) i).nx b = a ∧
        (t.inserted b (s.pv a) i).pv b = s.pv a ∧ (t.inserted b (s.pv a) i).pv a = b ∧
        (t.inserted b (s.pv a) i).nx (s.pv a) = b := by
    intro t i h1 h2 h3 hb0 hf
    have hpb : s.pv a ≠ b := ne_of_valid_of_fresh hvp hf
    have hab : a ≠ b := ne_of_valid_of_fresh hva hf
    refine ⟨fun hv => ?_, (valid_inserted t _ i b hb0).2 (Or.inl rfl), ?_, ?_, ?_, ?_⟩
    · have := hv.2; simp_all
    · simp [nx_inserted t i _ hpb, h2, hnp, Ne.symm hpb]
    · simp [pv_inserted t i _ hpb, h2, hnp, Ne.symm hab]
    · simp [pv_inserted t i _ hpb, h2, hnp]
    · simp [nx_inserted t i _ hpb]
  rw [insert_before_eq_after dup b item hva]
  refine ⟨rfl, insert_before_null dup b s item, ?_⟩
  rcases insert_after_outcome dup s item hvp hvn hb with
    ⟨s1, h1, _, _, h4⟩ | ⟨hb0, hf, ⟨hd, h1⟩ | ⟨hd, h1⟩⟩
  · refine ⟨⟨_, h1⟩, ?_, ?_⟩
    · intro hb0 hd
      rcases h4 with h4 | ⟨h5, h6, h7⟩
      · exact absurd h4 hb0
      · rcases hd with hd | hd | hd
        · exact absurd hd h5
        · exact absurd hd h6
        · exact absurd h7 hd
    · intro n s2 h2 hn0
      rw [h1] at h2
      simp only [Except.ok.injEq, Prod.mk.injEq] at h2
      exact absurd h2.1.symm hn0
  · refine ⟨⟨_, h1⟩, fun _ _ => ⟨_, h1⟩, ?_⟩
    intro n s2 h2 _
    rw [h1] at h2
    simp only [Except.ok.injEq, Prod.mk.injEq] at h2
    obtain ⟨e1, e2⟩ := h2
    subst e1 e2
    exact key s item (fun _ => Iff.rfl) (fun _ => rfl) (fun _ => rfl) hb0 hf
  · refine ⟨⟨_, h1⟩, fun _ _ => ⟨_, h1⟩, ?_⟩
    intro n s2 h2 _
    rw [h1] at h2
    simp only [Except.ok.injEq, Prod.mk.injEq] at h2
    obtain ⟨e1, e2⟩ := h2
    subst e1 e2
    exact key _ _ (fun _ => Iff.rfl) (fun _ => rfl) (fun _ => rfl) hb0 hf

theorem insert_before_spec_witness :
    IsRing ring3 (1 :: [2, 3]) ∧ fresh ring3 4 ∧
    (zdlist_insert_before dup_ok 4 ring3 1 7 = zdlist_insert_after dup_ok 4 ring3 (ring3.pv 1) 7 ∧
    zdlist_insert_before dup_ok 4 ring3 NULL 7 = zdlist_insert_after dup_ok 4 ring3 NULL 7 ∧
    (∃ r, zdlist_insert_before dup_ok 4 ring3 1 7 = Except.ok r) ∧
    (4 ≠ NULL →
      (ring3.du (ring3.pv 1) = NULL ∨ 7 = NULL ∨ dup_ok (ring3.du (ring3.pv 1)) 7 ≠ NULL) →
      ∃ s1, zdlist_insert_before dup_ok 4 ring3 1 7 = Except.ok (4, s1)) ∧
    ∀ n s1, zdlist_insert_before dup_ok 4 ring3 1 7 = Except.ok (n, s1) → n ≠ NULL →
      ¬ ring3.valid n ∧ s1.valid n ∧ s1.nx n = 1 ∧ s1.pv n = ring3.pv 1 ∧ s1.pv 1 = n ∧
        s1.nx (ring3.pv 1) = n) :=
  ⟨by decide, by decide,
    insert_before_spec dup_ok ring3 1 [2, 3] 4 7 (by decide) (by decide)⟩


/-! ## Taking a node out of its ring -/

theorem isRing_congr_on {s t : State} {l : List Ptr}
    (hm : ∀ q ∈ l, (s.valid q → t.valid q) ∧ t.nx q = s.nx q ∧ t.pv q = s.pv q)
    (h : IsRing s l) : IsRing t l := by
  cases l with
  | nil => exact absurd h (by simp [IsRing])
  | cons a rest =>
    obtain ⟨h1, h2, h3⟩ := h
    have e : ∀ u v, u ∈ a :: rest → v ∈ a :: rest → linked s u v → linked t u v := by
      intro u v hu hv huv
      obtain ⟨q1, q2, q3, q4⟩ := huv
      exact ⟨(hm u hu).1 q1, (hm v hv).1 q2, by rw [(hm u hu).2.1]; exact q3,
        by rw [(hm v hv).2.2]; exact q4⟩
    refine ⟨h1, chain_mono_mem h2 (fun u v hu hv huv => e u v ?_ (List.mem_cons_of_mem _ hv) huv),
      e _ _ (List.getLast_mem _) (List.mem_cons_self _ _) h3⟩
    rcases List.mem_cons.1 hu with h | h
    · rw [h]; exact List.mem_cons_self _ _
    · exact List.mem_cons_of_mem _ h

theorem ring_unlink {s : State} {x r : Ptr} {t : List Ptr} (h : IsRing s (x :: r :: t)) :
    IsRing (s.unlink x) (r :: t) := by
  obtain ⟨hpl, hnp, hvp⟩ := ring_pv_head h
  obtain ⟨hnh, hpn, hvn⟩ := ring_nx_head h
  simp only [List.cons_append, List.head_cons] at hnh
  simp only [List.getLast_cons_cons] at hpl
  obtain ⟨hnd, hc, hl⟩ := h
  have hnd2 := List.nodup_cons.1 hnd
  have hnd3 := List.nodup_cons.1 hnd2.2
  rw [List.chain_cons] at hc
  refine ⟨hnd2.2, ?_, ?_⟩
  · refine chain_mono_mem hc.2 ?_
    intro u v hu hv huv
    obtain ⟨q1, q2, q3, q4⟩ := huv
    have hvx : v ≠ x := fun e => hnd2.1 (e ▸ List.mem_cons_of_mem _ hv)
    have hvr : v ≠ r := fun e => hnd3.1 (e ▸ hv)
    have hup : u ≠ s.pv x := by
      intro e
      rw [e, hnp] at q3
      exact hvx q3.symm
    refine ⟨q1, q2, ?_, ?_⟩
    · simp [nx_unlink, hup, q3]
    · simp [pv_unlink, hnh, hvr, q4]
  · rw [← hpl]
    refine ⟨hvp, hc.1.2.1, ?_, ?_⟩
    · simp [nx_unlink, hnh]
    · simp [pv_unlink, hnh]

/-- C6: `zdlist_detach` with the cursor at the head `x` of a well-formed ring returns `x`;
afterwards `x` is a self-loop, nothing is allocated or freed, no callback runs, and no
node's item, destructor or duplicator changes.  With other members present the cursor
becomes the old `next(x)`, the remaining ring read from it is the old sequence with `x`
removed, and the old `prev(x)` and old `next(x)` are adjacent.  When `x` was the only
member the store is unchanged and the cursor becomes `NULL`. -/
theorem detach_spec (s : State) (x : Ptr) (rest : List Ptr) (hr : IsRing s (x :: rest)) :
    ∃ c s1, zdlist_detach s x = Except.ok (x, c, s1) ∧
      IsRing s1 [x] ∧ s1.live = s.live ∧ s1.log = s.log ∧
      (∀ q, s1.it q = s.it q ∧ s1.de q = s.de q ∧ s1.du q = s.du q) ∧
      (rest ≠ [] → c = s.nx x ∧ rest.head? = some c ∧ IsRing s1 rest ∧
        linked s1 (s.pv x) (s.nx x)) ∧
      (rest = [] → c = NULL ∧ s1 = s) := by
  have hvx : s.valid x := ring_valid hr x (List.mem_cons_self _ _)
  obtain ⟨hpl, hnp, hvp⟩ := ring_pv_head hr
  obtain ⟨hnh, hpn, hvn⟩ := ring_nx_head hr
  refine ⟨_, _, detach_run hvx hvp hvn, ?_, rfl, rfl, fun q => by simp, ?_, ?_⟩
  · rw [ring_singleton_iff]
    exact ⟨hvx, by simp [nx_selfloop], by simp [pv_selfloop]⟩
  · intro hne
    cases rest with
    | nil => exact absurd rfl hne
    | cons r t =>
      simp only [List.cons_append, List.head_cons] at hnh
      have hnd := List.nodup_cons.1 hr.1
      have hrx : r ≠ x := fun e => hnd.1 (e ▸ List.mem_cons_self _ _)
      have hring : IsRing ((s.unlink x).selfloop x) (r :: t) := by
        refine isRing_congr_on ?_ (ring_unlink hr)
        intro q hq
        have hqx : q ≠ x := fun e => hnd.1 (e ▸ hq)
        exact ⟨fun h => h, by simp [nx_selfloop, hqx], by simp [pv_selfloop, hqx]⟩
      refine ⟨by rw [hnh, if_neg hrx], by rw [hnh, if_neg hrx]; rfl, hring, ?_⟩
      have hl := hring.2.2
      simp only [List.getLast_cons_cons] at hpl
      rw [← hpl, ← hnh] at hl
      exact hl
  · intro hnil
    subst hnil
    simp only [List.nil_append, List.head_cons] at hnh
    simp only [List.getLast_singleton] at hpl
    refine ⟨by rw [hnh, if_pos rfl], ?_⟩
    refine State.ext_fields rfl rfl (fun q => ?_)
    by_cases hq : q = x
    · simp [nx_selfloop, pv_selfloop, hq, hnh, hpl]
    · simp [nx_selfloop, pv_selfloop, nx_unlink, pv_unlink, hq, hnh, hpl]

theorem detach_spec_witness :
    IsRing ring3 (1 :: [2, 3]) ∧
    ∃ c s1, zdlist_detach ring3 1 = Except.ok (1, c, s1) ∧
      IsRing s1 [1] ∧ s1.live = ring3.live ∧ s1.log = ring3.log ∧
      (∀ q, s1.it q = ring3.it q ∧ s1.de q = ring3.de q ∧ s1.du q = ring3.du q) ∧
      (([2, 3] : List Ptr) ≠ [] → c = ring3.nx 1 ∧ ([2, 3] : List Ptr).head? = some c ∧
        IsRing s1 [2, 3] ∧ linked s1 (ring3.pv 1) (ring3.nx 1)) ∧
      (([2, 3] : List Ptr) = [] → c = NULL ∧ s1 = ring3) :=
  ⟨by decide, detach_spec ring3 1 [2, 3] (by decide)⟩


/-! ## Moving a node -/

theorem chain_nx_mem {s : State} {a : Ptr} {l : List Ptr} (h : List.Chain (linked s) a l) :
    ∀ m ∈ a :: l, s.nx m ∈ l ∨ m = (a :: l).getLast (List.cons_ne_nil a l) := by
  induction l generalizing a with
  | nil => intro m hm; right; simpa using hm
  | cons b l ih =>
    rw [List.chain_cons] at h
    intro m hm
    rcases List.mem_cons.1 hm with h1 | h1
    · left; rw [h1, h.1.2.2.1]; exact List.mem_cons_self _ _
    · rcases ih h.2 m h1 with h2 | h2
      · left; exact List.mem_cons_of_mem _ h2
      · right; rw [List.getLast_cons_cons]; exact h2

theorem chain_pv_mem {s : State} {a : Ptr} {l : List Ptr} (h : List.Chain (linked s) a l) :
    ∀ m ∈ l, s.pv m ∈ a :: l := by
  induction l generalizing a with
  | nil => intro m hm; simp at hm
  | cons b l ih =>
    rw [List.chain_cons] at h
    intro m hm
    rcases List.mem_cons.1 hm with h1 | h1
    · rw [h1, h.1.2.2.2]; exact List.mem_cons_self _ _
    · exact List.mem_cons_of_mem _ (ih h.2 m h1)

theorem ring_nx_mem {s : State} {l : List Ptr} (h : IsRing s l) :
    ∀ m ∈ l, s.nx m ∈ l := by
  cases l with
  | nil => exact absurd h (by simp [IsRing])
  | cons a rest =>
    obtain ⟨_, hc, hl⟩ := h
    intro m hm
    rcases chain_nx_mem hc m hm with h1 | h1
    · exact List.mem_cons_of_mem _ h1
    · rw [h1, hl.2.2.1]; exact List.mem_cons_self _ _

theorem ring_pv_mem {s : State} {l : List Ptr} (h : IsRing s l) :
    ∀ m ∈ l, s.pv m ∈ l := by
  cases l with
  | nil => exact absurd h (by simp [IsRing])
  | cons a rest =>
    obtain ⟨_, hc, hl⟩ := h
    intro m hm
    rcases List.mem_cons.1 hm with h1 | h1
    · rw [h1, hl.2.2.2]; exact List.getLast_mem _
    · exact chain_pv_mem hc m h1

theorem ring_iterate_mem {s : State} {l : List Ptr} (h : IsRing s l) (m : Ptr) (hm : m ∈ l)
    (k : Nat) : (s.nx)^[k] m ∈ l := by
  induction k generalizing m with
  | zero => simpa using hm
  | succ k ih =>
    rw [Function.iterate_succ_apply]
    exact ih _ (ring_nx_mem h m hm)

theorem cyclic_ring3 : Cyclic ring3 := by
  intro x hx
  have h : x = 1 ∨ x = 2 ∨ x = 3 := by
    have := hx.2
    simpa [ring3, or_assoc] using this
  rcases h with h | h | h <;> subst h <;> decide

theorem cyclic_rings32 : Cyclic rings32 := by
  intro x hx
  have h : x = 1 ∨ x = 2 ∨ x = 3 ∨ x = 4 ∨ x = 5 := by
    have := hx.2
    simpa [rings32, or_assoc] using this
  rcases h with h | h | h | h | h <;> subst h <;> decide

/-- C7 (as stated, refuted): in the well-formed ring 1 -> 2 -> 3 -> 1, with `x = 2` and
`y = 1` distinct and present, `zdlist_move_after (x, y)` leaves the old `prev(x)` and old
`next(x)` unlinked: `y` is the old `prev(x)`, so `x` is put back where it was. -/
theorem move_after_counterexample :
    Cyclic ring3 ∧ IsRing ring3 [1, 2, 3] ∧ ring3.valid 2 ∧ ring3.valid 1 ∧ (2 : Ptr) ≠ 1 ∧
    ∃ s1, zdlist_move_after ring3 2 1 = Except.ok s1 ∧
      ¬ (s1.nx (ring3.pv 2) = ring3.nx 2 ∧ s1.pv (ring3.nx 2) = ring3.pv 2) :=
  ⟨cyclic_ring3, by decide, by decide, by decide, by decide, (ring3.unlink 2).link 2 1,
    move_after_run (by decide) (by decide) (by decide) (by decide) (by decide) (by decide),
    by decide⟩

/-- C7 (amended): after `zdlist_move_after (x, y)` on distinct present nodes of a
well-formed store, `x` immediately follows `y`: `next(y) == x`, `prev(x) == y`, and
`next(x)` is what followed `y` once `x` was taken out (with `prev` of that node now `x`).
When `x` was not alone in its ring and `y` is not the old `prev(x)`, the old `prev(x)` and
old `next(x)` are linked to each other.  When `y` is outside the ring `x :: rest` of `x`,
the remaining members `rest` form a ring on their own and `x` is not reachable along
`next` from any of them. -/
theorem move_after_spec (s : State) (x y : Ptr) (hc : Cyclic s) (hx : s.valid x)
    (hy : s.valid y) (hxy : x ≠ y) :
    ∃ s1, zdlist_move_after s x y = Except.ok s1 ∧
      s1.nx y = x ∧ s1.pv x = y ∧
      s1.nx x = (if s.nx y = x then s.nx x else s.nx y) ∧ s1.pv (s1.nx x) = x ∧
      (s.pv x ≠ x → y ≠ s.pv x → s1.nx (s.pv x) = s.nx x ∧ s1.pv (s.nx x) = s.pv x) ∧
      (∀ rest, IsRing s (x :: rest) → y ∉ x :: rest → rest ≠ [] →
        IsRing s1 rest ∧ ∀ m ∈ rest, ∀ k, (s1.nx)^[k] m ≠ x) := by
  obtain ⟨hxn, hxp, hxpn, hxnp⟩ := hc x hx
  obtain ⟨hyn, hyp, hypn, hynp⟩ := hc y hy
  have ho := cyclicOff_unlink hc hx
  obtain ⟨o1, _, o3, _, _, _⟩ := ho y hy (Ne.symm hxy)
  have o1s : s.valid ((s.unlink x).nx y) := o1
  have hiff : y = s.pv x ↔ s.nx y = x := by
    constructor
    · intro h; rw [h]; exact hxnp
    · intro h; rw [h] at hypn; exact hypn.symm
  have e1 : (s.unlink x).nx y = if s.nx y = x then s.nx x else s.nx y := by
    rw [nx_unlink]
    by_cases h : y = s.pv x
    · rw [if_pos h, if_pos (hiff.1 h)]
    · rw [if_neg h, if_neg (fun h2 => h (hiff.2 h2))]
  refine ⟨_, move_after_run hx hy hxp hxn hxy o1s, ?_, ?_, ?_, ?_, ?_, ?_⟩
  · simp [nx_link]
  · simp [pv_link, Ne.symm o3]
  · rw [nx_link, if_neg hxy, if_pos rfl, e1]
  · simp [nx_link, pv_link, hxy]
  · intro hsx hysp
    have hnx : s.nx x ≠ x := fun h => hsx (by rw [h] at hxpn; exact hxpn)
    have e3 : (s.unlink x).nx y = s.nx y := by rw [nx_unlink, if_neg hysp]
    have e4 : s.nx x ≠ s.nx y := by
      intro h
      have : s.pv (s.nx x) = s.pv (s.nx y) := by rw [h]
      rw [hxpn, hypn] at this
      exact hxy this
    constructor
    · rw [nx_link, if_neg (Ne.symm hysp), if_neg hsx, nx_unlink, if_pos rfl]
    · rw [pv_link, e3, if_neg e4, if_neg hnx, pv_unlink, if_pos rfl]
  · intro rest hr hyr hne
    cases rest with
    | nil => exact absurd rfl hne
    | cons r t =>
      have hnd := List.nodup_cons.1 hr.1
      have hpm : s.pv x ∈ x :: r :: t := ring_pv_mem hr x (List.mem_cons_self _ _)
      have hysp : y ≠ s.pv x := fun h => hyr (h ▸ hpm)
      have e3 : (s.unlink x).nx y = s.nx y := by rw [nx_unlink, if_neg hysp]
      have hring : IsRing ((s.unlink x).link x y) (r :: t) := by
        refine isRing_congr_on ?_ (ring_unlink hr)
        intro q hq
        have hqx : q ≠ x := fun e => hnd.1 (e ▸ hq)
        have hqy : q ≠ y := fun e => hyr (e ▸ List.mem_cons_of_mem _ hq)
        have hqn : q ≠ s.nx y := by
          intro e
          have := ring_pv_mem hr q (List.mem_cons_of_mem _ hq)
          rw [e, hypn] at this
          exact hyr this
        refine ⟨fun h => h, ?_, ?_⟩
        · rw [nx_link, if_neg hqy, if_neg hqx]
        · rw [pv_link, e3, if_neg hqn, if_neg hqx]
      refine ⟨hring, fun m hm k h => ?_⟩
      have := ring_iterate_mem hring m hm k
      rw [h] at this
      exact hnd.1 this

theorem move_after_spec_witness :
    Cyclic rings32 ∧ rings32.valid 2 ∧ rings32.valid 4 ∧ (2 : Ptr) ≠ 4 ∧
    ∃ s1, zdlist_move_after rings32 2 4 = Except.ok s1 ∧
      s1.nx 4 = 2 ∧ s1.pv 2 = 4 ∧
      s1.nx 2 = (if rings32.nx 4 = 2 then rings32.nx 2 else rings32.nx 4) ∧
      s1.pv (s1.nx 2) = 2 ∧
      (rings32.pv 2 ≠ 2 → 4 ≠ rings32.pv 2 →
        s1.nx (rings32.pv 2) = rings32.nx 2 ∧ s1.pv (rings32.nx 2) = rings32.pv 2) ∧
      (∀ rest, IsRing rings32 (2 :: rest) → 4 ∉ 2 :: rest → rest ≠ [] →
        IsRing s1 rest ∧ ∀ m ∈ rest, ∀ k, (s1.nx)^[k] m ≠ 2) :=
  ⟨cyclic_rings32, by decide, by decide, by decide,
    move_after_spec rings32 2 4 cyclic_rings32 (by decide) (by decide) (by decide)⟩


/-- Away from the adjacent case `prev(y) == x`, `zdlist_move_before (x, y)` puts `x`
immediately before `y`. -/
theorem move_before_of_not_adjacent (s : State) (x y : Ptr) (hc : Cyclic s)
    (hx : s.valid x) (hy : s.valid y) (hxy : x ≠ y) (hadj : s.pv y ≠ x) :
    ∃ s1, zdlist_move_before s x y = Except.ok s1 ∧ s1.nx x = y ∧ s1.pv y = x := by
  obtain ⟨hxn, hxp, hxpn, hxnp⟩ := hc x hx
  obtain ⟨hyn, hyp, hypn, hynp⟩ := hc y hy
  have ho := cyclicOff_unlink hc hx
  obtain ⟨o1, _, o3, _, _, _⟩ := ho (s.pv y) hyp hadj
  have o1s : s.valid ((s.unlink x).nx (s.pv y)) := o1
  have e0 : s.pv y ≠ s.pv x := by
    intro h
    have : s.nx (s.pv y) = s.nx (s.pv x) := by rw [h]
    rw [hynp, hxnp] at this
    exact hxy this.symm
  have e1 : (s.unlink x).nx (s.pv y) = y := by
    rw [nx_unlink, if_neg e0, hynp]
  unfold zdlist_move_before
  simp only [c_assert, hy.1, ne_eq, not_false_eq_true, if_true, ok_bind, get_prev_ok hy]
  refine ⟨_, move_after_run hx hyp hxp hxn (Ne.symm hadj) o1s, ?_, ?_⟩
  · rw [nx_link, if_neg (Ne.symm hadj), if_pos rfl, e1]
  · rw [pv_link, e1, if_pos rfl]

/-- C8 (failing input): in the ring 1 -> 2 -> 3 -> 1, `zdlist_move_before (1, 2)` with
node 1 already directly before node 2 does not leave 1 before 2: it calls
`zdlist_move_after (1, 1)`, which takes node 1 out into a ring of its own and closes the
ring 2 -> 3 -> 2 without it. -/
theorem move_before_adjacent_detaches :
    Cyclic ring3 ∧ IsRing ring3 [1, 2, 3] ∧ ring3.valid 1 ∧ ring3.valid 2 ∧ (1 : Ptr) ≠ 2 ∧
    ring3.pv 2 = 1 ∧
    ∃ s1, zdlist_move_before ring3 1 2 = Except.ok s1 ∧
      s1.nx 1 ≠ 2 ∧ s1.pv 2 ≠ 1 ∧ IsRing s1 [1] ∧ IsRing s1 [2, 3] := by
  refine ⟨cyclic_ring3, by decide, by decide, by decide, by decide, by decide,
    (ring3.unlink 1).selfloop 1, ?_, by decide, by decide, by decide, by decide⟩
  unfold zdlist_move_before
  have h2 : ring3.valid 2 := by decide
  simp only [c_assert, h2.1, ne_eq, not_false_eq_true, if_true, ok_bind, get_prev_ok h2]
  exact move_after_self_run (by decide) (by decide) (by decide)


/-! ## Traversal -/

theorem zdlist_next_step (fuel : Nat) {s : State} {x v : Ptr} (t : Ptr)
    (hl : linked s x v) :
    zdlist_next (fuel + 1) s x t =
      if v = t then Except.ok NULL
      else if s.it v ≠ NULL then Except.ok v
      else if t ≠ NULL then zdlist_next fuel s v t
      else Except.ok NULL := by
  obtain ⟨h1, h2, h3, _⟩ := hl
  rw [zdlist_next]
  simp only [c_assert, h1.1, ne_eq, not_false_eq_true, if_true, ok_bind, get_next_ok h1, h3,
    get_item_ok h2, pure_eq_ok]

/-- A bounded `zdlist_next` from `x`, with the nodes `suf` ahead and then the terminator
`h`: the first item-holding node of `suf`, or `NULL` when there is none. -/
theorem next_bounded {s : State} {h : Ptr} (hh : s.valid h) :
    ∀ (suf : List Ptr) (x : Ptr) (fuel : Nat), List.Chain (linked s) x suf →
      linked s ((x :: suf).getLast (List.cons_ne_nil x suf)) h →
      (∀ v ∈ suf, v ≠ h) → suf.length < fuel →
      zdlist_next fuel s x h = Except.ok ((suf.find? s.holds_item).getD NULL) := by
  intro suf
  induction suf with
  | nil =>
    intro x fuel _ hl _ hf
    obtain ⟨k, rfl⟩ : ∃ k, fuel = k + 1 := ⟨fuel - 1, by simp at hf; omega⟩
    simp only [List.getLast_singleton] at hl
    rw [zdlist_next_step k h hl]
    simp
  | cons v t ih =>
    intro x fuel hc hl hne hf
    obtain ⟨k, rfl⟩ : ∃ k, fuel = k + 1 := ⟨fuel - 1, by simp at hf; omega⟩
    rw [List.chain_cons] at hc
    rw [List.getLast_cons_cons] at hl
    have hvh : v ≠ h := hne v (List.mem_cons_self _ _)
    rw [zdlist_next_step k h hc.1, if_neg hvh]
    by_cases hi : s.it v = NULL
    · have hb : s.holds_item v = false := by simp [State.holds_item, hi]
      rw [if_neg (by simpa using hi), if_pos hh.1, List.find?_cons_of_neg _ (by simp [hb])]
      exact ih v k hc.2 hl (fun w hw => hne w (List.mem_cons_of_mem _ hw))
        (by simp at hf; omega)
    · have hb : s.holds_item v = true := by simp [State.holds_item, hi]
      rw [if_pos hi, List.find?_cons_of_pos _ hb]
      rfl

/-- The caller's loop after a bounded `zdlist_next`: it returns the item-holding nodes
ahead, in order. -/
theorem walk_bounded {s : State} {h : Ptr} (hh : s.valid h) (fuel : Nat) :
    ∀ (suf : List Ptr) (x : Ptr) (k : Nat), List.Chain (linked s) x suf →
      linked s ((x :: suf).getLast (List.cons_ne_nil x suf)) h →
      (∀ v ∈ suf, v ≠ h) → suf.length < fuel → suf.length < k →
      walk_next fuel s h k ((suf.find? s.holds_item).getD NULL) =
        Except.ok (suf.filter s.holds_item) := by
  intro suf
  induction suf with
  | nil =>
    intro x k _ _ _ _ hk
    obtain ⟨j, rfl⟩ : ∃ j, k = j + 1 := ⟨k - 1, by simp at hk; omega⟩
    simp [walk_next]
  | cons v t ih =>
    intro x k hc hl hne hf hk
    obtain ⟨j, rfl⟩ : ∃ j, k = j + 1 := ⟨k - 1, by simp at hk; omega⟩
    rw [List.chain_cons] at hc
    rw [List.getLast_cons_cons] at hl
    have hne2 : ∀ w ∈ t, w ≠ h := fun w hw => hne w (List.mem_cons_of_mem _ hw)
    have hft : t.length < fuel := by simp at hf; omega
    by_cases hb : s.holds_item v = true
    · rw [List.find?_cons_of_pos _ hb, List.filter_cons_of_pos hb]
      simp only [Option.getD_some]
      rw [walk_next, if_neg hc.1.2.1.1, next_bounded hh t v fuel hc.2 hl hne2 hft]
      simp only [ok_bind]
      rw [ih v j hc.2 hl hne2 hft (by simp at hk; omega)]
      rfl
    · rw [List.find?_cons_of_neg _ hb, List.filter_cons_of_neg hb]
      exact ih v (j + 1) hc.2 hl hne2 hft (by simp at hk; omega)

/-- Whatever the loop returns: it is empty exactly when the start is `NULL`, it begins
with the start, each node is followed by what `zdlist_next` returned on it, and the call
made on its last node returned `NULL`. -/
theorem walk_calls (fuel : Nat) (s : State) (t : Ptr) :
    ∀ (k : Nat) (start : Ptr) (l : List Ptr), walk_next fuel s t k start = Except.ok l →
      (l = [] ↔ start = NULL) ∧ (∀ z ∈ l.head?, z = start) ∧
      (∀ z zs, l = z :: zs →
        List.Chain (fun u v => zdlist_next fuel s u t = Except.ok v) z zs) ∧
      ∀ z ∈ l.getLast?, zdlist_next fuel s z t = Except.ok NULL := by
  intro k
  induction k with
  | zero => intro start l h; simp [walk_next] at h
  | succ k ih =>
    intro start l h
    rw [walk_next] at h
    by_cases h0 : start = NULL
    · rw [if_pos h0] at h
      simp only [Except.ok.injEq] at h
      subst h
      simp [h0]
    · rw [if_neg h0] at h
      cases hn : zdlist_next fuel s start t with
      | error e => rw [hn] at h; simp at h
      | ok nxt =>
        rw [hn] at h
        simp only [ok_bind] at h
        cases hw : walk_next fuel s t k nxt with
        | error e => rw [hw] at h; simp at h
        | ok rest =>
          rw [hw] at h
          simp only [ok_bind, pure_eq_ok, Except.ok.injEq] at h
          subst h
          obtain ⟨i1, i2, i3, i4⟩ := ih nxt rest hw
          refine ⟨by simp [h0], by simp, ?_, ?_⟩
          · intro z zs hz
            simp only [List.cons.injEq] at hz
            obtain ⟨e1, e2⟩ := hz
            subst e1 e2
            cases rest with
            | nil => exact List.Chain.nil
            | cons r rs =>
              have hr : r = nxt := i2 r (by simp)
              subst hr
              exact List.Chain.cons hn (i3 r rs rfl)
          · intro z hz
            cases rest with
            | nil =>
              simp at hz
              subst hz
              rw [hn, i1.1 rfl]
            | cons r rs =>
              rw [List.getLast?_cons_cons] at hz
              exact i4 z hz

/-- The calls behind a traversal: `zdlist_first` returned the head of the result (`NULL`
for an empty result), every returned node is followed by what `zdlist_next` returned on
it, and `zdlist_next` on the last returned node returned `NULL`. -/
theorem traverse_calls {fuel : Nat} {s : State} {x t : Ptr} {l : List Ptr}
    (h : traversal fuel s x t = Except.ok l) :
    zdlist_first fuel s x t = Except.ok (l.head?.getD NULL) ∧
    (∀ z zs, l = z :: zs →
      List.Chain (fun u v => zdlist_next fuel s u t = Except.ok v) z zs) ∧
    ∀ z ∈ l.getLast?, zdlist_next fuel s z t = Except.ok NULL := by
  unfold traversal at h
  cases hf : zdlist_first fuel s x t with
  | error e => rw [hf] at h; simp at h
  | ok start =>
    rw [hf] at h
    simp only [ok_bind] at h
    obtain ⟨i1, i2, i3, i4⟩ := walk_calls fuel s t fuel start l h
    refine ⟨?_, i3, i4⟩
    cases l with
    | nil => simp [i1.1 rfl]
    | cons z zs => simp [i2 z (by simp)]

/-- C9: bounded traversal makes exactly one full circuit.  On a well-formed ring read
from `h`, with `h` both start and terminator and enough fuel for the guard-skipping
recursion, the calls `zdlist_first (h, h)`, `zdlist_next (., h)`, ... return exactly the
item-holding members of the ring, each once, in ring order starting at `h`; guards are
skipped, and the call on the last returned node returns `NULL`. -/
theorem bounded_traversal (s : State) (h : Ptr) (rest : List Ptr) (fuel : Nat)
    (hr : IsRing s (h :: rest)) (hf : rest.length + 2 ≤ fuel) :
    traversal fuel s h h = Except.ok ((h :: rest).filter s.holds_item) ∧
    ((h :: rest).filter s.holds_item).Nodup ∧
    (∀ z ∈ (h :: rest).filter s.holds_item, s.it z ≠ NULL) ∧
    (∀ z ∈ h :: rest, s.it z ≠ NULL → z ∈ (h :: rest).filter s.holds_item) ∧
    zdlist_first fuel s h h =
      Except.ok (((h :: rest).filter s.holds_item).head?.getD NULL) ∧
    (∀ z zs, (h :: rest).filter s.holds_item = z :: zs →
      List.Chain (fun u v => zdlist_next fuel s u h = Except.ok v) z zs) ∧
    ∀ z ∈ ((h :: rest).filter s.holds_item).getLast?,
      zdlist_next fuel s z h = Except.ok NULL := by
  have hh : s.valid h := ring_valid hr h (List.mem_cons_self _ _)
  obtain ⟨hnd, hc, hl⟩ := hr
  have hne : ∀ v ∈ rest, v ≠ h := fun v hv e => (List.nodup_cons.1 hnd).1 (e ▸ hv)
  have hnext := next_bounded hh rest h fuel hc hl hne (by omega)
  have main : traversal fuel s h h = Except.ok ((h :: rest).filter s.holds_item) := by
    unfold traversal zdlist_first
    simp only [hh.1, if_false, pure_eq_ok, ok_bind, get_item_ok hh]
    by_cases hb : s.holds_item h = true
    · have hi : s.it h ≠ NULL := by simpa [State.holds_item] using hb
      rw [if_pos hi]
      simp only [ok_bind]
      obtain ⟨j, rfl⟩ : ∃ j, fuel = j + 1 := ⟨fuel - 1, by omega⟩
      rw [walk_next, if_neg hh.1, hnext]
      simp only [ok_bind]
      rw [walk_bounded hh (j + 1) rest h j hc hl hne (by omega) (by omega),
        List.filter_cons_of_pos hb]
      rfl
    · have hi : ¬ s.it h ≠ NULL := by simpa [State.holds_item] using hb
      rw [if_neg hi, hnext]
      simp only [ok_bind]
      rw [walk_bounded hh fuel rest h fuel hc hl hne (by omega) (by omega),
        List.filter_cons_of_neg hb]
  obtain ⟨c1, c2, c3⟩ := traverse_calls main
  refine ⟨main, hnd.filter _, ?_, ?_, c1, c2, c3⟩
  · intro z hz
    have := (List.mem_filter.1 hz).2
    simpa [State.holds_item] using this
  · intro z hz hi
    exact List.mem_filter.2 ⟨hz, by simpa [State.holds_item] using hi⟩

theorem bounded_traversal_witness :
    IsRing ring5 (1 :: [2, 3, 4, 5]) ∧ ([2, 3, 4, 5] : List Ptr).length + 2 ≤ 6 ∧
    (traversal 6 ring5 1 1 = Except.ok ((1 :: [2, 3, 4, 5]).filter ring5.holds_item) ∧
    ((1 :: [2, 3, 4, 5]).filter ring5.holds_item).Nodup ∧
    (∀ z ∈ (1 :: [2, 3, 4, 5]).filter ring5.holds_item, ring5.it z ≠ NULL) ∧
    (∀ z ∈ 1 :: [2, 3, 4, 5], ring5.it z ≠ NULL →
      z ∈ (1 :: [2, 3, 4, 5]).filter ring5.holds_item) ∧
    zdlist_first 6 ring5 1 1 =
      Except.ok (((1 :: [2, 3, 4, 5]).filter ring5.holds_item).head?.getD NULL) ∧
    (∀ z zs, (1 :: [2, 3, 4, 5]).filter ring5.holds_item = z :: zs →
      List.Chain (fun u v => zdlist_next 6 ring5 u 1 = Except.ok v) z zs) ∧
    ∀ z ∈ ((1 :: [2, 3, 4, 5]).filter ring5.holds_item).getLast?,
      zdlist_next 6 ring5 z 1 = Except.ok NULL) :=
  ⟨by decide, by decide, bounded_traversal ring5 1 [2, 3, 4, 5] 6 (by decide) (by decide)⟩


/-- An unbounded `zdlist_next` looks one node ahead and no further. -/
theorem next_unbounded (fuel : Nat) {s : State} {x v : Ptr} (hl : linked s x v) :
    zdlist_next (fuel + 1) s x NULL = Except.ok (if s.holds_item v then v else NULL) := by
  rw [zdlist_next_step fuel NULL hl, if_neg hl.2.1.1]
  by_cases hi : s.it v = NULL
  · have hb : s.holds_item v = false := by simp [State.holds_item, hi]
    simp [hi, hb]
  · have hb : s.holds_item v = true := by simp [State.holds_item, hi]
    simp [hi, hb]

/-- An unbounded `zdlist_next` from `x`, with the nodes `suf` ahead and the guard `g`
after them. -/
theorem next_stop_at_guard (fuel : Nat) {s : State} {g x : Ptr} {suf : List Ptr}
    (hg : s.it g = NULL) (hc : List.Chain (linked s) x suf)
    (hl : linked s ((x :: suf).getLast (List.cons_ne_nil x suf)) g) :
    zdlist_next (fuel + 1) s x NULL = Except.ok (s.stop_at_guard suf) := by
  cases suf with
  | nil =>
    simp only [List.getLast_singleton] at hl
    rw [next_unbounded fuel hl]
    simp [State.stop_at_guard, State.holds_item, hg]
  | cons v t =>
    rw [List.chain_cons] at hc
    rw [next_unbounded fuel hc.1]
    rfl

/-- The caller's loop after an unbounded `zdlist_next`: it returns the item-holding nodes
ahead up to the first guard. -/
theorem walk_unbounded {s : State} {g : Ptr} (hg : s.it g = NULL) (fuel : Nat) :
    ∀ (suf : List Ptr) (x : Ptr) (k : Nat), List.Chain (linked s) x suf →
      linked s ((x :: suf).getLast (List.cons_ne_nil x suf)) g → suf.length < k →
      walk_next (fuel + 1) s NULL k (s.stop_at_guard suf) =
        Except.ok (suf.takeWhile s.holds_item) := by
  intro suf
  induction suf with
  | nil =>
    intro x k _ _ hk
    obtain ⟨j, rfl⟩ : ∃ j, k = j + 1 := ⟨k - 1, by simp at hk; omega⟩
    simp [walk_next, State.stop_at_guard]
  | cons v t ih =>
    intro x k hc hl hk
    obtain ⟨j, rfl⟩ : ∃ j, k = j + 1 := ⟨k - 1, by simp at hk; omega⟩
    rw [List.chain_cons] at hc
    rw [List.getLast_cons_cons] at hl
    by_cases hb : s.holds_item v = true
    · rw [List.takeWhile_cons_of_pos hb]
      simp only [State.stop_at_guard, hb, if_true]
      rw [walk_next, if_neg hc.1.2.1.1, next_stop_at_guard fuel hg hc.2 hl]
      simp only [ok_bind]
      rw [ih v j hc.2 hl (by simp at hk; omega)]
      rfl
    · rw [List.takeWhile_cons_of_neg hb]
      simp [State.stop_at_guard, hb, walk_next]

/-- C10: unbounded traversal stops at the first guard.  On a well-formed ring read from a
guard `g`, the calls `zdlist_first (g, NULL)`, `zdlist_next (., NULL)`, ... return
exactly the maximal run of item-holding nodes directly after `g`, in order, and the call
on the last of them returns `NULL`, whatever lies beyond the guard that ends the run. -/
theorem unbounded_traversal (s : State) (g : Ptr) (rest : List Ptr) (fuel : Nat)
    (hr : IsRing s (g :: rest)) (hg : s.it g = NULL) (hf : rest.length + 2 ≤ fuel) :
    traversal fuel s g NULL = Except.ok (rest.takeWhile s.holds_item) ∧
    zdlist_first fuel s g NULL =
      Except.ok ((rest.takeWhile s.holds_item).head?.getD NULL) ∧
    (∀ z zs, rest.takeWhile s.holds_item = z :: zs →
      List.Chain (fun u v => zdlist_next fuel s u NULL = Except.ok v) z zs) ∧
    (∀ z ∈ (rest.takeWhile s.holds_item).getLast?,
      zdlist_next fuel s z NULL = Except.ok NULL) ∧
    ∀ pre v post, rest = pre ++ v :: post → (∀ z ∈ pre, s.it z ≠ NULL) → s.it v = NULL →
      rest.takeWhile s.holds_item = pre := by
  have hh : s.valid g := ring_valid hr g (List.mem_cons_self _ _)
  obtain ⟨hnd, hc, hl⟩ := hr
  obtain ⟨j, rfl⟩ : ∃ j, fuel = j + 1 := ⟨fuel - 1, by omega⟩
  have main : traversal (j + 1) s g NULL =
      Except.ok (rest.takeWhile s.holds_item) := by
    unfold traversal zdlist_first
    simp only [hh.1, if_false, pure_eq_ok, ok_bind, get_item_ok hh, hg, ne_eq,
      not_true_eq_false]
    rw [next_stop_at_guard j hg hc hl]
    simp only [ok_bind]
    exact walk_unbounded hg j rest g (j + 1) hc hl (by omega)
  obtain ⟨c1, c2, c3⟩ := traverse_calls main
  refine ⟨main, c1, c2, c3, ?_⟩
  intro pre v post he hpre hv
  subst he
  have hb : s.holds_item v = false := by simp [State.holds_item, hv]
  rw [List.takeWhile_append_of_pos (fun z hz => by simpa [State.holds_item] using hpre z hz),
    List.takeWhile_cons_of_neg (by simp [hb])]
  simp

theorem unbounded_traversal_witness :
    IsRing ring5 (1 :: [2, 3, 4, 5]) ∧ ring5.it 1 = NULL ∧
    ([2, 3, 4, 5] : List Ptr).length + 2 ≤ 6 ∧
    (traversal 6 ring5 1 NULL =
      Except.ok (([2, 3, 4, 5] : List Ptr).takeWhile ring5.holds_item) ∧
    zdlist_first 6 ring5 1 NULL =
      Except.ok ((([2, 3, 4, 5] : List Ptr).takeWhile ring5.holds_item).head?.getD NULL) ∧
    (∀ z zs, ([2, 3, 4, 5] : List Ptr).takeWhile ring5.holds_item = z :: zs →
      List.Chain (fun u v => zdlist_next 6 ring5 u NULL = Except.ok v) z zs) ∧
    (∀ z ∈ (([2, 3, 4, 5] : List Ptr).takeWhile ring5.holds_item).getLast?,
      zdlist_next 6 ring5 z NULL = Except.ok NULL) ∧
    ∀ pre v post, ([2, 3, 4, 5] : List Ptr) = pre ++ v :: post →
      (∀ z ∈ pre, ring5.it z ≠ NULL) → ring5.it v = NULL →
      ([2, 3, 4, 5] : List Ptr).takeWhile ring5.holds_item = pre) :=
  ⟨by decide, by decide, by decide,
    unbounded_traversal ring5 1 [2, 3, 4, 5] 6 (by decide) (by decide) (by decide)⟩


/-! ## Releasing nodes -/

@[simp] theorem log_release (s : State) (p : Ptr) : (s.release p).log = s.log := rfl
@[simp] theorem cell_release (s : State) (p : Ptr) : (s.release p).cell = s.cell := rfl
@[simp] theorem nx_release (s : State) (p q : Ptr) : (s.release p).nx q = s.nx q := rfl
@[simp] theorem pv_release (s : State) (p q : Ptr) : (s.release p).pv q = s.pv q := rfl
@[simp] theorem it_release (s : State) (p q : Ptr) : (s.release p).it q = s.it q := rfl
@[simp] theorem de_release (s : State) (p q : Ptr) : (s.release p).de q = s.de q := rfl
@[simp] theorem du_release (s : State) (p q : Ptr) : (s.release p).du q = s.du q := rfl

theorem live_release (s : State) (p q : Ptr) :
    (s.release p).live q = if q = p then false else s.live q := rfl

theorem valid_release (s : State) (p q : Ptr) :
    (s.release p).valid q ↔ (q ≠ p ∧ s.valid q) := by
  unfold State.valid
  rw [live_release]
  by_cases h : q = p
  · simp [h]
  · simp [h]

theorem c_free_null (s : State) : c_free s NULL = Except.ok s := by
  simp [c_free]

theorem c_free_ok {s : State} {p : Ptr} (h : s.valid p) :
    c_free s p = Except.ok (s.release p) := by
  simp [c_free, h.1, h.2]

theorem live_destroyed (s : State) (x q : Ptr) :
    (s.destroyed x).live q = if q = x then false else s.live q := by
  unfold State.destroyed
  by_cases hd : s.de x = NULL
  · rw [if_neg (by simpa using hd)]; rfl
  · rw [if_pos hd]; rfl

theorem valid_destroyed (s : State) (x q : Ptr) :
    (s.destroyed x).valid q ↔ (q ≠ x ∧ s.valid q) := by
  unfold State.valid
  rw [live_destroyed]
  by_cases h : q = x
  · simp [h]
  · simp [h]

theorem nx_destroyed (s : State) (x q : Ptr) :
    (s.destroyed x).nx q = ((s.unlink x).selfloop x).nx q := by
  unfold State.destroyed
  split_ifs <;> simp

theorem pv_destroyed (s : State) (x q : Ptr) :
    (s.destroyed x).pv q = ((s.unlink x).selfloop x).pv q := by
  unfold State.destroyed
  split_ifs <;> simp

@[simp] theorem it_destroyed (s : State) (x q : Ptr) : (s.destroyed x).it q = s.it q := by
  unfold State.destroyed
  split_ifs <;> simp

@[simp] theorem de_destroyed (s : State) (x q : Ptr) : (s.destroyed x).de q = s.de q := by
  unfold State.destroyed
  split_ifs <;> simp

@[simp] theorem du_destroyed (s : State) (x q : Ptr) : (s.destroyed x).du q = s.du q := by
  unfold State.destroyed
  split_ifs <;> simp

theorem log_destroyed (s : State) (x : Ptr) :
    (s.destroyed x).log =
      s.log ++ (if s.de x ≠ NULL then [Event.destruct (s.de x) x] else []) := by
  unfold State.destroyed
  split_ifs <;> simp

/-- Closed form of `zdlist_remove` on an allocated node with allocated neighbours. -/
theorem remove_run {s : State} {x : Ptr} (hx : s.valid x) (hp : s.valid (s.pv x))
    (hn : s.valid (s.nx x)) :
    zdlist_remove s x =
      Except.ok (s.it x, (if s.nx x = x then NULL else s.nx x),
        ((s.unlink x).selfloop x).release x) := by
  unfold zdlist_remove
  have hv : ((s.unlink x).selfloop x).valid x := hx
  simp [detach_run hx hp hn, hx.1, get_item_ok hv, c_free_ok hv]

theorem remove_null (s : State) : zdlist_remove s NULL = Except.ok (NULL, NULL, s) := by
  unfold zdlist_remove
  simp [detach_null]

/-- One iteration of the loop of `zdlist_destroy`. -/
theorem destroy_step (fuel : Nat) {s : State} {x : Ptr} (hx : s.valid x)
    (hp : s.valid (s.pv x)) (hn : s.valid (s.nx x)) :
    zdlist_destroy (fuel + 1) s x =
      zdlist_destroy fuel (s.destroyed x) (if s.nx x = x then NULL else s.nx x) := by
  rw [zdlist_destroy]
  have hv : ((s.unlink x).selfloop x).valid x := hx
  by_cases hd : s.de x = NULL
  · simp [hx.1, detach_run hx hp hn, get_destructor_ok hv, hd, c_free_ok hv, State.destroyed]
  · simp [hx.1, detach_run hx hp hn, get_destructor_ok hv, hd, destructor_call, c_free_null,
      State.destroyed]

theorem destroy_null (fuel : Nat) (s : State) :
    zdlist_destroy (fuel + 1) s NULL = Except.ok (NULL, s) := by
  rw [zdlist_destroy]
  simp

/-- The rest of a ring is a ring again once the loop of `zdlist_destroy` has dealt with
its head. -/
theorem ring_destroyed {s : State} {x r : Ptr} {t : List Ptr} (h : IsRing s (x :: r :: t)) :
    IsRing (s.destroyed x) (r :: t) := by
  have hnd := List.nodup_cons.1 h.1
  refine isRing_congr_on ?_ (ring_unlink h)
  intro q hq
  have hqx : q ≠ x := fun e => hnd.1 (e ▸ hq)
  refine ⟨fun hv => (valid_destroyed s x q).2 ⟨hqx, hv⟩, ?_, ?_⟩
  · rw [nx_destroyed, nx_selfloop, if_neg hqx]
  · rw [pv_destroyed, pv_selfloop, if_neg hqx]


/-- Running `zdlist_destroy` on a ring read from the cursor: with enough fuel it returns with the
cursor `NULL`; exactly the members of the ring are released; each member whose destructor
is set contributes one destructor call, in ring order, made on the node pointer. -/
theorem destroy_ring :
    ∀ (rest : List Ptr) (s : State) (x : Ptr) (fuel : Nat), IsRing s (x :: rest) →
      rest.length + 1 < fuel →
      ∃ s1, zdlist_destroy fuel s x = Except.ok (NULL, s1) ∧
        (∀ q, s1.live q = if q ∈ x :: rest then false else s.live q) ∧
        s1.log = s.log ++ ((x :: rest).filter (fun p => decide (s.de p ≠ NULL))).map
          (fun p => Event.destruct (s.de p) p) ∧
        ∀ q, s1.it q = s.it q ∧ s1.de q = s.de q ∧ s1.du q = s.du q := by
  intro rest
  induction rest with
  | nil =>
    intro s x fuel hr hf
    obtain ⟨k, rfl⟩ : ∃ k, fuel = k + 2 := ⟨fuel - 2, by simp at hf; omega⟩
    have hx := (ring_singleton_iff s x).1 hr
    have hvn : s.valid (s.nx x) := by rw [hx.2.1]; exact hx.1
    have hvp : s.valid (s.pv x) := by rw [hx.2.2]; exact hx.1
    rw [destroy_step (k + 1) hx.1 hvp hvn, if_pos hx.2.1, destroy_null]
    refine ⟨_, rfl, fun q => ?_, ?_, fun q => by simp⟩
    · rw [live_destroyed]; simp
    · rw [log_destroyed]
      by_cases hd : s.de x = NULL <;> simp [hd]
  | cons r t ih =>
    intro s x fuel hr hf
    obtain ⟨k, rfl⟩ : ∃ k, fuel = k + 1 := ⟨fuel - 1, by simp at hf; omega⟩
    have hx : s.valid x := ring_valid hr x (List.mem_cons_self _ _)
    obtain ⟨_, _, hvp⟩ := ring_pv_head hr
    obtain ⟨hnh, _, hvn⟩ := ring_nx_head hr
    simp only [List.cons_append, List.head_cons] at hnh
    have hnd := List.nodup_cons.1 hr.1
    have hrx : r ≠ x := fun e => hnd.1 (e ▸ List.mem_cons_self _ _)
    rw [destroy_step k hx hvp hvn, hnh, if_neg hrx]
    obtain ⟨s1, h1, h2, h3, h4⟩ := ih (s.destroyed x) r k (ring_destroyed hr)
      (by simp at hf ⊢; omega)
    refine ⟨s1, h1, fun q => ?_, ?_, fun q => ?_⟩
    · rw [h2, live_destroyed]
      by_cases hq : q = x
      · simp [hq]
      · by_cases hq2 : q ∈ r :: t
        · simp [hq2]
        · simp [hq, hq2]
    · rw [h3, log_destroyed]
      simp only [de_destroyed]
      by_cases hd : s.de x = NULL
      · simp [hd]
      · have e : (x :: r :: t).filter (fun p => decide (s.de p ≠ NULL)) =
            x :: (r :: t).filter (fun p => decide (s.de p ≠ NULL)) :=
          List.filter_cons_of_pos (by simpa using hd)
        rw [e]
        simp [hd]
    · have := h4 q
      simpa using this

/-- Closed form of `zdlist_destroy_one` on an allocated node with allocated neighbours:
the destructor, when set, is called on the node pointer. -/
theorem destroy_one_run (fuel : Nat) {s : State} {x : Ptr} (hx : s.valid x)
    (hp : s.valid (s.pv x)) (hn : s.valid (s.nx x)) :
    zdlist_destroy_one (fuel + 2) s x =
      Except.ok ((if s.nx x = x then NULL else s.nx x), s.destroyed x) := by
  unfold zdlist_destroy_one
  have hv : ((s.unlink x).selfloop x).valid x := hx
  have e1 : ((s.unlink x).selfloop x).nx x = x := by simp [nx_selfloop]
  have e2 : ((s.unlink x).selfloop x).pv x = x := by simp [pv_selfloop]
  have hvn : ((s.unlink x).selfloop x).valid (((s.unlink x).selfloop x).nx x) := by
    rw [e1]; exact hv
  have hvp : ((s.unlink x).selfloop x).valid (((s.unlink x).selfloop x).pv x) := by
    rw [e2]; exact hv
  simp only [detach_run hx hp hn, ok_bind]
  rw [destroy_step (fuel + 1) hv hvp hvn, if_pos e1, destroy_null]
  simp only [ok_bind, pure_eq_ok]
  congr 2
  refine State.ext_fields ?_ ?_ (fun q => ?_)
  · funext q; rw [live_destroyed, live_destroyed]; rfl
  · rw [log_destroyed, log_destroyed]; simp
  · refine ⟨?_, ?_, by simp, by simp, by simp⟩
    · rw [nx_destroyed, nx_destroyed]
      by_cases hq : q = x <;> simp [nx_selfloop, nx_unlink, pv_selfloop, pv_unlink, hq]
    · rw [pv_destroyed, pv_destroyed]
      by_cases hq : q = x <;> simp [nx_selfloop, nx_unlink, pv_selfloop, pv_unlink, hq]

/-- C13 (failing input): in the ring 1 -> 2 -> 3 -> 1 with destructor 8 on every node,
`zdlist_destroy_one` with the cursor at node 2, whose item is 21, makes one destructor
call, and the reference passed holds the node pointer 2, not the item 21. -/
theorem destroy_one_passes_node :
    IsRing ring3d [2, 3, 1] ∧ ring3d.de 2 = 8 ∧ ring3d.it 2 = 21 ∧
    ∃ c s1, zdlist_destroy_one 2 ring3d 2 = Except.ok (c, s1) ∧ c = 3 ∧
      s1.log = [Event.destruct 8 2] ∧ s1.log ≠ [Event.destruct 8 21] ∧
      s1.live 2 = false :=
  ⟨by decide, by decide, by decide, _, _,
    destroy_one_run 0 (by decide) (by decide) (by decide), by decide, by decide, by decide,
    by decide⟩


/-- The rest of a ring is a ring again once its head has been detached and released. -/
theorem ring_removed {s : State} {x r : Ptr} {t : List Ptr} (h : IsRing s (x :: r :: t)) :
    IsRing (((s.unlink x).selfloop x).release x) (r :: t) := by
  have hnd := List.nodup_cons.1 h.1
  refine isRing_congr_on ?_ (ring_unlink h)
  intro q hq
  have hqx : q ≠ x := fun e => hnd.1 (e ▸ hq)
  refine ⟨fun hv => (valid_release _ x q).2 ⟨hqx, hv⟩, ?_, ?_⟩
  · rw [nx_release, nx_selfloop, if_neg hqx]
  · rw [pv_release, pv_selfloop, if_neg hqx]

/-- C15: `zdlist_remove` with the cursor at the head `x` of a well-formed ring returns
exactly `item(x)` (`NULL` for a guard), calls no destructor or duplicator, releases the
node `x` and nothing else, and leaves the cursor and every node's fields exactly as
`zdlist_detach` does: the cursor is the old `next(x)` and the other members form a ring,
or the cursor is `NULL` when `x` was the only member. -/
theorem remove_spec (s : State) (x : Ptr) (rest : List Ptr) (hr : IsRing s (x :: rest)) :
    ∃ c sd s1, zdlist_detach s x = Except.ok (x, c, sd) ∧
      zdlist_remove s x = Except.ok (s.it x, c, s1) ∧
      s1.cell = sd.cell ∧ s1.log = s.log ∧ s1.live x = false ∧
      (∀ q, q ≠ x → s1.live q = s.live q) ∧
      (∀ q, s1.it q = s.it q ∧ s1.de q = s.de q ∧ s1.du q = s.du q) ∧
      (rest ≠ [] → c = s.nx x ∧ rest.head? = some c ∧ IsRing s1 rest) ∧
      (rest = [] → c = NULL) := by
  have hvx : s.valid x := ring_valid hr x (List.mem_cons_self _ _)
  obtain ⟨_, _, hvp⟩ := ring_pv_head hr
  obtain ⟨hnh, _, hvn⟩ := ring_nx_head hr
  refine ⟨_, _, _, detach_run hvx hvp hvn, remove_run hvx hvp hvn, rfl, rfl, ?_, ?_,
    fun q => by simp, ?_, ?_⟩
  · simp [live_release]
  · intro q hq
    simp [live_release, hq]
  · intro hne
    cases rest with
    | nil => exact absurd rfl hne
    | cons r t =>
      simp only [List.cons_append, List.head_cons] at hnh
      have hnd := List.nodup_cons.1 hr.1
      have hrx : r ≠ x := fun e => hnd.1 (e ▸ List.mem_cons_self _ _)
      exact ⟨by rw [hnh, if_neg hrx], by rw [hnh, if_neg hrx]; rfl, ring_removed hr⟩
  · intro hnil
    subst hnil
    simp only [List.nil_append, List.head_cons] at hnh
    rw [hnh, if_pos rfl]

theorem remove_spec_witness :
    IsRing ring3d (2 :: [3, 1]) ∧
    ∃ c sd s1, zdlist_detach ring3d 2 = Except.ok (2, c, sd) ∧
      zdlist_remove ring3d 2 = Except.ok (ring3d.it 2, c, s1) ∧
      s1.cell = sd.cell ∧ s1.log = ring3d.log ∧ s1.live 2 = false ∧
      (∀ q, q ≠ 2 → s1.live q = ring3d.live q) ∧
      (∀ q, s1.it q = ring3d.it q ∧ s1.de q = ring3d.de q ∧ s1.du q = ring3d.du q) ∧
      (([3, 1] : List Ptr) ≠ [] → c = ring3d.nx 2 ∧ ([3, 1] : List Ptr).head? = some c ∧
        IsRing s1 [3, 1]) ∧
      (([3, 1] : List Ptr) = [] → c = NULL) :=
  ⟨by decide, remove_spec ring3d 2 [3, 1] (by decide)⟩


/-! ## Setting a capability on a whole ring -/

theorem linked_withDestructor (s : State) (p v a b : Ptr) :
    linked (s.withDestructor p v) a b ↔ linked s a b := by
  simp [linked]

theorem linked_withDuplicator (s : State) (p v a b : Ptr) :
    linked (s.withDuplicator p v) a b ↔ linked s a b := by
  simp [linked]

/-- The loop of `zdlist_set_destructor`, entered at the node after `p`, with the nodes
`suf` ahead and then `x`, the node the call was made on. -/
theorem set_destructor_loop_run (x f : Ptr) :
    ∀ (suf : List Ptr) (s : State) (p : Ptr) (fuel : Nat), List.Chain (linked s) p suf →
      linked s ((p :: suf).getLast (List.cons_ne_nil p suf)) x →
      (∀ v ∈ suf, v ≠ x) → suf.length < fuel →
      ∃ s1, zdlist_set_destructor_loop x f fuel s (s.nx p) = Except.ok s1 ∧
        s1.live = s.live ∧ s1.log = s.log ∧
        ∀ q, s1.nx q = s.nx q ∧ s1.pv q = s.pv q ∧ s1.it q = s.it q ∧ s1.du q = s.du q ∧
          s1.de q = if q ∈ suf then f else s.de q := by
  intro suf
  induction suf with
  | nil =>
    intro s p fuel _ hl _ hf
    obtain ⟨k, rfl⟩ : ∃ k, fuel = k + 1 := ⟨fuel - 1, by simp at hf; omega⟩
    simp only [List.getLast_singleton] at hl
    rw [hl.2.2.1, zdlist_set_destructor_loop]
    simp
  | cons v t ih =>
    intro s p fuel hc hl hne hf
    obtain ⟨k, rfl⟩ : ∃ k, fuel = k + 1 := ⟨fuel - 1, by simp at hf; omega⟩
    rw [List.chain_cons] at hc
    rw [List.getLast_cons_cons] at hl
    have hvx : v ≠ x := hne v (List.mem_cons_self _ _)
    have hv : s.valid v := hc.1.2.1
    have hv2 : (s.withDestructor v f).valid v := hv
    rw [hc.1.2.2.1, zdlist_set_destructor_loop, if_pos hvx]
    simp only [set_destructor_ok hv, ok_bind, get_next_ok hv2]
    obtain ⟨s1, h1, h2, h3, h4⟩ := ih (s.withDestructor v f) v k
      (hc.2.imp (fun a b hab => (linked_withDestructor s v f a b).2 hab))
      ((linked_withDestructor s v f _ _).2 hl)
      (fun w hw => hne w (List.mem_cons_of_mem _ hw)) (by simp at hf; omega)
    refine ⟨s1, h1, h2, h3, fun q => ?_⟩
    obtain ⟨q1, q2, q3, q4, q5⟩ := h4 q
    refine ⟨by simpa using q1, by simpa using q2, by simpa using q3, by simpa using q4, ?_⟩
    rw [q5, de_withDestructor]
    by_cases hq : q = v
    · simp [hq]
    · simp [hq]

/-- The loop of `zdlist_set_duplicator`, entered at the node after `p`, with the nodes
`suf` ahead and then `x`, the node the call was made on. -/
theorem set_duplicator_loop_run (x f : Ptr) :
    ∀ (suf : List Ptr) (s : State) (p : Ptr) (fuel : Nat), List.Chain (linked s) p suf →
      linked s ((p :: suf).getLast (List.cons_ne_nil p suf)) x →
      (∀ v ∈ suf, v ≠ x) → suf.length < fuel →
      ∃ s1, zdlist_set_duplicator_loop x f fuel s (s.nx p) = Except.ok s1 ∧
        s1.live = s.live ∧ s1.log = s.log ∧
        ∀ q, s1.nx q = s.nx q ∧ s1.pv q = s.pv q ∧ s1.it q = s.it q ∧ s1.de q = s.de q ∧
          s1.du q = if q ∈ suf then f else s.du q := by
  intro suf
  induction suf with
  | nil =>
    intro s p fuel _ hl _ hf
    obtain ⟨k, rfl⟩ : ∃ k, fuel = k + 1 := ⟨fuel - 1, by simp at hf; omega⟩
    simp only [List.getLast_singleton] at hl
    rw [hl.2.2.1, zdlist_set_duplicator_loop]
    simp
  | cons v t ih =>
    intro s p fuel hc hl hne hf
    obtain ⟨k, rfl⟩ : ∃ k, fuel = k + 1 := ⟨fuel - 1, by simp at hf; omega⟩
    rw [List.chain_cons] at hc
    rw [List.getLast_cons_cons] at hl
    have hvx : v ≠ x := hne v (List.mem_cons_self _ _)
    have hv : s.valid v := hc.1.2.1
    have hv2 : (s.withDuplicator v f).valid v := hv
    rw [hc.1.2.2.1, zdlist_set_duplicator_loop, if_pos hvx]
    simp only [set_duplicator_ok hv, ok_bind, get_next_ok hv2]
    obtain ⟨s1, h1, h2, h3, h4⟩ := ih (s.withDuplicator v f) v k
      (hc.2.imp (fun a b hab => (linked_withDuplicator s v f a b).2 hab))
      ((linked_withDuplicator s v f _ _).2 hl)
      (fun w hw => hne w (List.mem_cons_of_mem _ hw)) (by simp at hf; omega)
    refine ⟨s1, h1, h2, h3, fun q => ?_⟩
    obtain ⟨q1, q2, q3, q4, q5⟩ := h4 q
    refine ⟨by simpa using q1, by simpa using q2, by simpa using q3, by simpa using q4, ?_⟩
    rw [q5, du_withDuplicator]
    by_cases hq : q = v
    · simp [hq]
    · simp [hq]

/-- Running `zdlist_set_destructor` on the head of a ring. -/
theorem set_destructor_run {s : State} {x : Ptr} {rest : List Ptr} (f : Ptr) {fuel : Nat}
    (hr : IsRing s (x :: rest)) (hf : rest.length < fuel) :
    ∃ s1, zdlist_set_destructor fuel s x f = Except.ok (s.de x, s1) ∧
      s1.live = s.live ∧ s1.log = s.log ∧
      ∀ q, s1.nx q = s.nx q ∧ s1.pv q = s.pv q ∧ s1.it q = s.it q ∧ s1.du q = s.du q ∧
        s1.de q = if q ∈ x :: rest then f else s.de q := by
  have hx : s.valid x := ring_valid hr x (List.mem_cons_self _ _)
  have hx2 : (s.withDestructor x f).valid x := hx
  obtain ⟨hnd, hc, hl⟩ := hr
  have hne : ∀ v ∈ rest, v ≠ x := fun v hv e => (List.nodup_cons.1 hnd).1 (e ▸ hv)
  obtain ⟨s1, h1, h2, h3, h4⟩ := set_destructor_loop_run x f rest (s.withDestructor x f) x fuel
    (hc.imp (fun a b hab => (linked_withDestructor s x f a b).2 hab))
    ((linked_withDestructor s x f _ _).2 hl) hne hf
  unfold zdlist_set_destructor
  simp only [c_assert, hx.1, ne_eq, not_false_eq_true, if_true, ok_bind, get_destructor_ok hx,
    set_destructor_ok hx, get_next_ok hx2, h1, pure_eq_ok]
  refine ⟨s1, rfl, h2, h3, fun q => ?_⟩
  obtain ⟨q1, q2, q3, q4, q5⟩ := h4 q
  refine ⟨by simpa using q1, by simpa using q2, by simpa using q3, by simpa using q4, ?_⟩
  rw [q5, de_withDestructor]
  by_cases hq : q = x
  · simp [hq]
  · simp [hq]

/-- Running `zdlist_set_duplicator` on the head of a ring. -/
theorem set_duplicator_run {s : State} {x : Ptr} {rest : List Ptr} (f : Ptr) {fuel : Nat}
    (hr : IsRing s (x :: rest)) (hf : rest.length < fuel) :
    ∃ s1, zdlist_set_duplicator fuel s x f = Except.ok (s.du x, s1) ∧
      s1.live = s.live ∧ s1.log = s.log ∧
      ∀ q, s1.nx q = s.nx q ∧ s1.pv q = s.pv q ∧ s1.it q = s.it q ∧ s1.de q = s.de q ∧
        s1.du q = if q ∈ x :: rest then f else s.du q := by
  have hx : s.valid x := ring_valid hr x (List.mem_cons_self _ _)
  have hx2 : (s.withDuplicator x f).valid x := hx
  obtain ⟨hnd, hc, hl⟩ := hr
  have hne : ∀ v ∈ rest, v ≠ x := fun v hv e => (List.nodup_cons.1 hnd).1 (e ▸ hv)
  obtain ⟨s1, h1, h2, h3, h4⟩ := set_duplicator_loop_run x f rest (s.withDuplicator x f) x fuel
    (hc.imp (fun a b hab => (linked_withDuplicator s x f a b).2 hab))
    ((linked_withDuplicator s x f _ _).2 hl) hne hf
  unfold zdlist_set_duplicator
  simp only [c_assert, hx.1, ne_eq, not_false_eq_true, if_true, ok_bind, get_duplicator_ok hx,
    set_duplicator_ok hx, get_next_ok hx2, h1, pure_eq_ok]
  refine ⟨s1, rfl, h2, h3, fun q => ?_⟩
  obtain ⟨q1, q2, q3, q4, q5⟩ := h4 q
  refine ⟨by simpa using q1, by simpa using q2, by simpa using q3, by simpa using q4, ?_⟩
  rw [q5, du_withDuplicator]
  by_cases hq : q = x
  · simp [hq]
  · simp [hq]

/-- C16: `zdlist_set_destructor (self, f)` on a well-formed ring read from `self`, with
fuel for one loop iteration per other member, returns the destructor `self` held before,
and afterwards every member of the ring has destructor `f`; no node's `next`, `prev`,
`item` or `duplicator` changes, no node outside the ring changes, nothing is allocated or
released and no callback runs.  The same holds for `zdlist_set_duplicator` with the roles
of destructor and duplicator exchanged. -/
theorem set_capability_spec (s : State) (x : Ptr) (rest : List Ptr) (f : Ptr) (fuel : Nat)
    (hr : IsRing s (x :: rest)) (hf : rest.length < fuel) :
    (∃ s1, zdlist_set_destructor fuel s x f = Except.ok (s.de x, s1) ∧
      (∀ m ∈ x :: rest, s1.de m = f) ∧ (∀ q, q ∉ x :: rest → s1.de q = s.de q) ∧
      (∀ q, s1.nx q = s.nx q ∧ s1.pv q = s.pv q ∧ s1.it q = s.it q ∧ s1.du q = s.du q) ∧
      s1.live = s.live ∧ s1.log = s.log) ∧
    (∃ s1, zdlist_set_duplicator fuel s x f = Except.ok (s.du x, s1) ∧
      (∀ m ∈ x :: rest, s1.du m = f) ∧ (∀ q, q ∉ x :: rest → s1.du q = s.du q) ∧
      (∀ q, s1.nx q = s.nx q ∧ s1.pv q = s.pv q ∧ s1.it q = s.it q ∧ s1.de q = s.de q) ∧
      s1.live = s.live ∧ s1.log = s.log) := by
  constructor
  · obtain ⟨s1, h1, h2, h3, h4⟩ := set_destructor_run f hr hf
    refine ⟨s1, h1, fun m hm => ?_, fun q hq => ?_, fun q => ?_, h2, h3⟩
    · rw [(h4 m).2.2.2.2, if_pos hm]
    · rw [(h4 q).2.2.2.2, if_neg hq]
    · exact ⟨(h4 q).1, (h4 q).2.1, (h4 q).2.2.1, (h4 q).2.2.2.1⟩
  · obtain ⟨s1, h1, h2, h3, h4⟩ := set_duplicator_run f hr hf
    refine ⟨s1, h1, fun m hm => ?_, fun q hq => ?_, fun q => ?_, h2, h3⟩
    · rw [(h4 m).2.2.2.2, if_pos hm]
    · rw [(h4 q).2.2.2.2, if_neg hq]
    · exact ⟨(h4 q).1, (h4 q).2.1, (h4 q).2.2.1, (h4 q).2.2.2.1⟩

theorem set_capability_spec_witness :
    IsRing ring3 (2 :: [3, 1]) ∧ ([3, 1] : List Ptr).length < 3 ∧
    ((∃ s1, zdlist_set_destructor 3 ring3 2 8 = Except.ok (ring3.de 2, s1) ∧
      (∀ m ∈ 2 :: [3, 1], s1.de m = 8) ∧ (∀ q, q ∉ 2 :: [3, 1] → s1.de q = ring3.de q) ∧
      (∀ q, s1.nx q = ring3.nx q ∧ s1.pv q = ring3.pv q ∧ s1.it q = ring3.it q ∧
        s1.du q = ring3.du q) ∧
      s1.live = ring3.live ∧ s1.log = ring3.log) ∧
    (∃ s1, zdlist_set_duplicator 3 ring3 2 8 = Except.ok (ring3.du 2, s1) ∧
      (∀ m ∈ 2 :: [3, 1], s1.du m = 8) ∧ (∀ q, q ∉ 2 :: [3, 1] → s1.du q = ring3.du q) ∧
      (∀ q, s1.nx q = ring3.nx q ∧ s1.pv q = ring3.pv q ∧ s1.it q = ring3.it q ∧
        s1.de q = ring3.de q) ∧
      s1.live = ring3.live ∧ s1.log = ring3.log)) :=
  ⟨by decide, by decide, set_capability_spec ring3 2 [3, 1] 8 3 (by decide) (by decide)⟩


/-! ## Rotating the list that describes a ring -/

theorem chain_snoc {R : Ptr → Ptr → Prop} {b : Ptr} :
    ∀ (l : List Ptr) (a : Ptr),
      List.Chain R a (l ++ [b]) ↔
        List.Chain R a l ∧ R ((a :: l).getLast (List.cons_ne_nil a l)) b := by
  intro l
  induction l with
  | nil => intro a; simp
  | cons c l ih =>
    intro a
    rw [List.cons_append, List.chain_cons, List.chain_cons, ih c, List.getLast_cons_cons]
    tauto

theorem ring_rotate_iff (s : State) (x : Ptr) (rest : List Ptr) :
    IsRing s (rest ++ [x]) ↔ IsRing s (x :: rest) := by
  cases rest with
  | nil => rfl
  | cons r t =>
    have hn : (r :: (t ++ [x])).Nodup ↔ (x :: r :: t).Nodup :=
      List.Perm.nodup_iff (List.perm_append_singleton x (r :: t))
    have hlast : (r :: (t ++ [x])).getLast (List.cons_ne_nil r (t ++ [x])) = x := by
      simp
    show ((r :: (t ++ [x])).Nodup ∧ List.Chain (linked s) r (t ++ [x]) ∧
        linked s ((r :: (t ++ [x])).getLast (List.cons_ne_nil r (t ++ [x]))) r) ↔
      ((x :: r :: t).Nodup ∧ List.Chain (linked s) x (r :: t) ∧
        linked s ((x :: r :: t).getLast (List.cons_ne_nil x (r :: t))) x)
    rw [hn, chain_snoc t r, hlast, List.chain_cons, List.getLast_cons_cons]
    tauto

theorem ring_inserted_before {s : State} {a b : Ptr} {rest : List Ptr} (i : Ptr)
    (h : IsRing s (a :: rest)) (hb : b ≠ NULL) (hf : s.live b = false) :
    IsRing (s.inserted b (s.pv a) i) (a :: rest ++ [b]) := by
  rcases List.eq_nil_or_concat rest with hnil | ⟨init, p, hcat⟩
  · subst hnil
    have hp : s.pv a = a := ((ring_singleton_iff s a).1 h).2.2
    rw [hp]
    exact ring_inserted i h hb hf
  · subst hcat
    have h1 : IsRing s (p :: a :: init) :=
      (ring_rotate_iff s p (a :: init)).1 (by simpa using h)
    have hp : s.pv a = p := by
      have := h1.2.1
      rw [List.chain_cons] at this
      exact this.1.2.2.2
    rw [hp]
    have h2 := ring_inserted i h1 hb hf
    have h3 : IsRing (s.inserted b p i) (b :: a :: init ++ [p]) :=
      (ring_rotate_iff _ p (b :: a :: init)).2 h2
    have h4 : IsRing (s.inserted b p i) ((a :: init ++ [p]) ++ [b]) :=
      (ring_rotate_iff _ b (a :: init ++ [p])).2 (by simpa using h3)
    simpa using h4


/-! ## Uniform capabilities -/

/-- A successful `zdlist_insert_after` on a present anchor returns the block handed out
by the allocator, spliced into the store as it was or as it was with one more duplicator
call logged. -/
theorem insert_after_success_form (dup : Ptr → Ptr → Ptr) (s : State) {a b : Ptr}
    (item : Ptr) (ha : s.valid a) (hn : s.valid (s.nx a)) (hb : fresh s b) {n : Ptr}
    {s1 : State} (h : zdlist_insert_after dup b s a item = Except.ok (n, s1))
    (hn0 : n ≠ NULL) :
    n = b ∧ b ≠ NULL ∧ s.live b = false ∧
      ∃ t i, s1 = t.inserted b a i ∧ (t = s ∨ ∃ e, t = s.emit e) := by
  rcases insert_after_outcome dup s item ha hn hb with
    ⟨s2, h1, _, _, _⟩ | ⟨hb0, hf, ⟨_, h1⟩ | ⟨_, h1⟩⟩
  · rw [h1] at h
    simp only [Except.ok.injEq, Prod.mk.injEq] at h
    exact absurd h.1.symm hn0
  · rw [h1] at h
    simp only [Except.ok.injEq, Prod.mk.injEq] at h
    exact ⟨h.1.symm, hb0, hf, s, item, h.2.symm, Or.inl rfl⟩
  · rw [h1] at h
    simp only [Except.ok.injEq, Prod.mk.injEq] at h
    exact ⟨h.1.symm, hb0, hf, _, _, h.2.symm, Or.inr ⟨_, rfl⟩⟩

theorem insert_after_total (dup : Ptr → Ptr → Ptr) (s : State) {a b : Ptr}
    (item : Ptr) (ha : s.valid a) (hn : s.valid (s.nx a)) (hb : fresh s b) :
    ∃ r, zdlist_insert_after dup b s a item = Except.ok r := by
  rcases insert_after_outcome dup s item ha hn hb with
    ⟨s2, h1, _, _, _⟩ | ⟨_, _, ⟨_, h1⟩ | ⟨_, h1⟩⟩
  · exact ⟨_, h1⟩
  · exact ⟨_, h1⟩
  · exact ⟨_, h1⟩

/-- C17: uniform capabilities are preserved by insertion and detachment.  When all nodes
of a well-formed ring share destructor `f` and duplicator `d`, a successful
`zdlist_insert_after (a, item)` or `zdlist_insert_before (a, item)` on its head `a` gives
the new node the same `f` and `d`, so the enlarged ring is uniform; after
`zdlist_detach` both the detached singleton and the remaining ring are uniform.  None of
the three calls faults. -/
theorem uniform_capabilities_preserved (dup : Ptr → Ptr → Ptr) (s : State) (a : Ptr)
    (rest : List Ptr) (b item f d : Ptr) (hr : IsRing s (a :: rest))
    (hu : ∀ m ∈ a :: rest, s.de m = f ∧ s.du m = d) (hb : fresh s b) :
    (∃ r, zdlist_insert_after dup b s a item = Except.ok r) ∧
    (∃ r, zdlist_insert_before dup b s a item = Except.ok r) ∧
    (∀ n s1, zdlist_insert_after dup b s a item = Except.ok (n, s1) → n ≠ NULL →
      s1.de n = f ∧ s1.du n = d ∧ IsRing s1 (a :: n :: rest) ∧
        ∀ m ∈ a :: n :: rest, s1.de m = f ∧ s1.du m = d) ∧
    (∀ n s1, zdlist_insert_before dup b s a item = Except.ok (n, s1) → n ≠ NULL →
      s1.de n = f ∧ s1.du n = d ∧ IsRing s1 (a :: rest ++ [n]) ∧
        ∀ m ∈ a :: rest ++ [n], s1.de m = f ∧ s1.du m = d) ∧
    ∃ c s1, zdlist_detach s a = Except.ok (a, c, s1) ∧
      IsRing s1 [a] ∧ s1.de a = f ∧ s1.du a = d ∧
      (rest ≠ [] → IsRing s1 rest ∧ ∀ m ∈ rest, s1.de m = f ∧ s1.du m = d) := by
  have hva : s.valid a := ring_valid hr a (List.mem_cons_self _ _)
  obtain ⟨_, hnp, hvp⟩ := ring_pv_head hr
  obtain ⟨_, _, hvn⟩ := ring_nx_head hr
  have hvpn : s.valid (s.nx (s.pv a)) := by rw [hnp]; exact hva
  have hpm : s.pv a ∈ a :: rest := ring_pv_mem hr a (List.mem_cons_self _ _)
  have key : ∀ (p : Ptr) (t : State) (i : Ptr) (l : List Ptr), p ∈ a :: rest →
      (t = s ∨ ∃ e, t = s.emit e) → (∀ m ∈ l, m = b ∨ m ∈ a :: rest) →
      (t.inserted b p i).de b = f ∧ (t.inserted b p i).du b = d ∧
        ∀ m ∈ l, (t.inserted b p i).de m = f ∧ (t.inserted b p i).du m = d := by
    intro p t i l hp ht hl
    have e1 : ∀ q, t.de q = s.de q ∧ t.du q = s.du q := by
      intro q
      rcases ht with h | ⟨e, h⟩ <;> subst h <;> exact ⟨rfl, rfl⟩
    have e2 : (t.inserted b p i).de b = f ∧ (t.inserted b p i).du b = d := by
      rw [de_inserted, du_inserted, if_pos rfl, if_pos rfl, (e1 p).1, (e1 p).2]
      exact hu p hp
    refine ⟨e2.1, e2.2, fun m hm => ?_⟩
    rcases hl m hm with h | h
    · rw [h]; exact e2
    · rw [de_inserted, du_inserted]
      by_cases hmb : m = b
      · rw [if_pos hmb, if_pos hmb, (e1 p).1, (e1 p).2]
        exact hu p hp
      · rw [if_neg hmb, if_neg hmb, (e1 m).1, (e1 m).2]
        exact hu m h
  refine ⟨insert_after_total dup s item hva hvn hb, ?_, ?_, ?_, ?_⟩
  · rw [insert_before_eq_after dup b item hva]
    exact insert_after_total dup s item hvp hvpn hb
  · intro n s1 h hn0
    obtain ⟨e1, hb0, hf, t, i, e2, ht⟩ := insert_after_success_form dup s item hva hvn hb h hn0
    subst e1 e2
    have hrt : IsRing t (a :: rest) := by
      rcases ht with h | ⟨e, h⟩ <;> subst h
      · exact hr
      · exact isRing_emit e hr
    have hft : t.live n = false := by
      rcases ht with h | ⟨e, h⟩ <;> subst h <;> exact hf
    obtain ⟨k1, k2, k3⟩ := key a t i (a :: n :: rest) (List.mem_cons_self _ _) ht
      (fun m hm => by
        rcases List.mem_cons.1 hm with h | h
        · exact Or.inr (h ▸ List.mem_cons_self _ _)
        · rcases List.mem_cons.1 h with h2 | h2
          · exact Or.inl h2
          · exact Or.inr (List.mem_cons_of_mem _ h2))
    exact ⟨k1, k2, ring_inserted i hrt hb0 hft, k3⟩
  · intro n s1 h hn0
    rw [insert_before_eq_after dup b item hva] at h
    obtain ⟨e1, hb0, hf, t, i, e2, ht⟩ :=
      insert_after_success_form dup s item hvp hvpn hb h hn0
    subst e1 e2
    have hrt : IsRing t (a :: rest) := by
      rcases ht with h | ⟨e, h⟩ <;> subst h
      · exact hr
      · exact isRing_emit e hr
    have hft : t.live n = false := by
      rcases ht with h | ⟨e, h⟩ <;> subst h <;> exact hf
    have hpt : t.pv a = s.pv a := by
      rcases ht with h | ⟨e, h⟩ <;> subst h <;> rfl
    obtain ⟨k1, k2, k3⟩ := key (s.pv a) t i (a :: rest ++ [n]) hpm ht
      (fun m hm => by
        rcases List.mem_append.1 hm with h | h
        · exact Or.inr h
        · exact Or.inl (by simpa using h))
    have hring := ring_inserted_before i hrt hb0 hft
    rw [hpt] at hring
    exact ⟨k1, k2, hring, k3⟩
  · refine ⟨_, _, detach_run hva hvp hvn, ?_, ?_, ?_, ?_⟩
    · rw [ring_singleton_iff]
      exact ⟨hva, by simp [nx_selfloop], by simp [pv_selfloop]⟩
    · simpa using (hu a (List.mem_cons_self _ _)).1
    · simpa using (hu a (List.mem_cons_self _ _)).2
    · intro hne
      cases rest with
      | nil => exact absurd rfl hne
      | cons r t =>
        have hnd := List.nodup_cons.1 hr.1
        refine ⟨?_, fun m hm => by simpa using hu m (List.mem_cons_of_mem _ hm)⟩
        refine isRing_congr_on ?_ (ring_unlink hr)
        intro q hq
        have hqx : q ≠ a := fun e => hnd.1 (e ▸ hq)
        exact ⟨fun h => h, by simp [nx_selfloop, hqx], by simp [pv_selfloop, hqx]⟩

theorem uniform_capabilities_preserved_witness :
    IsRing ring3d (1 :: [2, 3]) ∧ (∀ m ∈ 1 :: [2, 3], ring3d.de m = 8 ∧ ring3d.du m = 9) ∧
    fresh ring3d 4 ∧
    ((∃ r, zdlist_insert_after dup_ok 4 ring3d 1 7 = Except.ok r) ∧
    (∃ r, zdlist_insert_before dup_ok 4 ring3d 1 7 = Except.ok r) ∧
    (∀ n s1, zdlist_insert_after dup_ok 4 ring3d 1 7 = Except.ok (n, s1) → n ≠ NULL →
      s1.de n = 8 ∧ s1.du n = 9 ∧ IsRing s1 (1 :: n :: [2, 3]) ∧
        ∀ m ∈ 1 :: n :: [2, 3], s1.de m = 8 ∧ s1.du m = 9) ∧
    (∀ n s1, zdlist_insert_before dup_ok 4 ring3d 1 7 = Except.ok (n, s1) → n ≠ NULL →
      s1.de n = 8 ∧ s1.du n = 9 ∧ IsRing s1 (1 :: [2, 3] ++ [n]) ∧
        ∀ m ∈ 1 :: [2, 3] ++ [n], s1.de m = 8 ∧ s1.du m = 9) ∧
    ∃ c s1, zdlist_detach ring3d 1 = Except.ok (1, c, s1) ∧
      IsRing s1 [1] ∧ s1.de 1 = 8 ∧ s1.du 1 = 9 ∧
      (([2, 3] : List Ptr) ≠ [] → IsRing s1 [2, 3] ∧ ∀ m ∈ [2, 3], s1.de m = 8 ∧ s1.du m = 9)) :=
  ⟨by decide, by decide, by decide,
    uniform_capabilities_preserved dup_ok ring3d 1 [2, 3] 4 7 8 9 (by decide) (by decide)
      (by decide)⟩


/-! ## Relocation, allocation failure, absent anchor -/

theorem move_after_pure {s : State} {x y : Ptr} (hc : Cyclic s) (hx : s.valid x)
    (hy : s.valid y) :
    ∃ s1, zdlist_move_after s x y = Except.ok s1 ∧ s1.live = s.live ∧ s1.log = s.log ∧
      ∀ q, s1.it q = s.it q ∧ s1.de q = s.de q ∧ s1.du q = s.du q := by
  obtain ⟨hxn, hxp, _, _⟩ := hc x hx
  by_cases hxy : x = y
  · subst hxy
    exact ⟨_, move_after_self_run hx hxp hxn, rfl, rfl, fun q => by simp⟩
  · have ho := cyclicOff_unlink hc hx
    have hyn : s.valid ((s.unlink x).nx y) := (ho y hy (Ne.symm hxy)).1
    exact ⟨_, move_after_run hx hy hxp hxn hxy hyn, rfl, rfl, fun q => by simp⟩

/-- C18: `zdlist_move_after` and `zdlist_move_before` are pure identity relocations.  For
present node and destination in a well-formed store the call returns, the set of
allocated nodes is unchanged, no duplicator or destructor is called, and the item,
destructor and duplicator of every node, the moved one included, are unchanged; so a
node moved next to nodes with other capabilities keeps its own. -/
theorem move_is_pure_relocation (s : State) (x y : Ptr) (hc : Cyclic s) (hx : s.valid x)
    (hy : s.valid y) :
    (∃ s1, zdlist_move_after s x y = Except.ok s1 ∧ s1.live = s.live ∧ s1.log = s.log ∧
      ∀ q, s1.it q = s.it q ∧ s1.de q = s.de q ∧ s1.du q = s.du q) ∧
    (∃ s1, zdlist_move_before s x y = Except.ok s1 ∧ s1.live = s.live ∧ s1.log = s.log ∧
      ∀ q, s1.it q = s.it q ∧ s1.de q = s.de q ∧ s1.du q = s.du q) := by
  refine ⟨move_after_pure hc hx hy, ?_⟩
  obtain ⟨_, hyp, _, _⟩ := hc y hy
  unfold zdlist_move_before
  simp only [c_assert, hy.1, ne_eq, not_false_eq_true, if_true, ok_bind, get_prev_ok hy]
  exact move_after_pure hc hx hyp

theorem move_is_pure_relocation_witness :
    Cyclic rings32 ∧ rings32.valid 2 ∧ rings32.valid 4 ∧
    ((∃ s1, zdlist_move_after rings32 2 4 = Except.ok s1 ∧ s1.live = rings32.live ∧
      s1.log = rings32.log ∧
      ∀ q, s1.it q = rings32.it q ∧ s1.de q = rings32.de q ∧ s1.du q = rings32.du q) ∧
    (∃ s1, zdlist_move_before rings32 2 4 = Except.ok s1 ∧ s1.live = rings32.live ∧
      s1.log = rings32.log ∧
      ∀ q, s1.it q = rings32.it q ∧ s1.de q = rings32.de q ∧ s1.du q = rings32.du q)) :=
  ⟨cyclic_rings32, by decide, by decide,
    move_is_pure_relocation rings32 2 4 cyclic_rings32 (by decide) (by decide)⟩

/-- C19: allocation failure after a successful duplication in `zdlist_insert_after` on a
present anchor `a`.  `NULL` is returned and no node is allocated, released or changed.
With a destructor set on `a` (the duplicator is set, since the duplication took place)
the destructor is called exactly once, on the duplicate; without one no destructor is
called. -/
theorem alloc_failure_after_duplication (dup : Ptr → Ptr → Ptr) (s : State) (a item : Ptr)
    (ha : s.valid a) (hd : s.du a ≠ NULL) (hi : item ≠ NULL)
    (hok : dup (s.du a) item ≠ NULL) :
    ∃ s1, zdlist_insert_after dup NULL s a item = Except.ok (NULL, s1) ∧
      s1.live = s.live ∧ s1.cell = s.cell ∧
      (s.de a ≠ NULL →
        s1.log = s.log ++ [Event.duplicate (s.du a) item,
          Event.destruct (s.de a) (dup (s.du a) item)]) ∧
      (s.de a = NULL → s1.log = s.log ++ [Event.duplicate (s.du a) item]) := by
  have h1 : (s.emit (Event.duplicate (s.du a) item)).valid a := ha
  unfold zdlist_insert_after
  by_cases hde : s.de a = NULL
  · simp [ha.1, get_duplicator_ok ha, hd, hi, hok, zdlist_new_null, get_duplicator_ok h1,
      get_destructor_ok h1, hde]
  · simp [ha.1, get_duplicator_ok ha, hd, hi, hok, zdlist_new_null, get_duplicator_ok h1,
      get_destructor_ok h1, hde]

theorem alloc_failure_after_duplication_witness :
    ring3d.valid 1 ∧ ring3d.du 1 ≠ NULL ∧ (7 : Ptr) ≠ NULL ∧ dup_ok (ring3d.du 1) 7 ≠ NULL ∧
    ∃ s1, zdlist_insert_after dup_ok NULL ring3d 1 7 = Except.ok (NULL, s1) ∧
      s1.live = ring3d.live ∧ s1.cell = ring3d.cell ∧
      (ring3d.de 1 ≠ NULL →
        s1.log = ring3d.log ++ [Event.duplicate (ring3d.du 1) 7,
          Event.destruct (ring3d.de 1) (dup_ok (ring3d.du 1) 7)]) ∧
      (ring3d.de 1 = NULL → s1.log = ring3d.log ++ [Event.duplicate (ring3d.du 1) 7]) :=
  ⟨by decide, by decide, by decide, by decide,
    alloc_failure_after_duplication dup_ok ring3d 1 7 (by decide) (by decide) (by decide)
      (by decide)⟩

/-- With an absent anchor and a block handed out, `zdlist_insert_after` does what
`zdlist_new` does: a fresh self-loop holding the item, without capabilities. -/
theorem insert_after_null_eq_new (dup : Ptr → Ptr → Ptr) (s : State) {b : Ptr} (item : Ptr)
    (hb : b ≠ NULL) :
    zdlist_insert_after dup b s NULL item = zdlist_new b s item ∧
    zdlist_new b s item = Except.ok (b, s.create b item) := by
  refine ⟨?_, zdlist_new_run s item hb⟩
  unfold zdlist_insert_after
  simp [zdlist_new_run s item hb, hb]

/-- C20 (failing input): with an absent anchor and a failed allocation `zdlist_new`
returns `NULL`, but `zdlist_insert_after (NULL, item)` goes on to read
`self->duplicator` through the `NULL` anchor and faults. -/
theorem insert_after_null_nomem_faults (dup : Ptr → Ptr → Ptr) (s : State) (item : Ptr) :
    zdlist_new NULL s item = Except.ok (NULL, s) ∧
    zdlist_insert_after dup NULL s NULL item = Except.error Err.fault := by
  refine ⟨zdlist_new_null s item, ?_⟩
  unfold zdlist_insert_after
  simp [zdlist_new_null, get_duplicator, State.valid]


/-! ## The scenarios of the selftest -/

theorem zdlist_item_ok {s : State} {p : Ptr} (h : s.valid p) :
    zdlist_item s p = Except.ok (s.it p) := by
  simp [zdlist_item, h.1, get_item_ok h]

theorem zdlist_first_guard (fuel : Nat) {s : State} {g : Ptr} (t : Ptr) (hg : s.valid g)
    (hi : s.it g = NULL) : zdlist_first fuel s g t = zdlist_next fuel s g t := by
  unfold zdlist_first
  simp [hg.1, get_item_ok hg, hi]

theorem scenario_facts :
    ∃ s, scenario_run = Except.ok s ∧ IsRing s [1, 3, 2, 4, 5] ∧
      linked s 1 3 ∧ linked s 3 2 ∧ linked s 2 4 ∧ linked s 4 5 ∧ linked s 5 1 ∧
      s.it 1 = NULL ∧ s.it 3 = boursin ∧ s.it 2 = baguette ∧ s.it 4 = NULL ∧
      s.it 5 = bordeaux ∧ s.log = [] :=
  ⟨_, rfl, by decide, by decide, by decide, by decide, by decide, by decide, by decide,
    by decide, by decide, by decide, by decide, by decide⟩

/-- C11 (as stated, refuted): after the spec's insertions, in the spec's order, the first
node after the guard `G` holds "boursin", the item inserted last after `G`, so
`zdlist_first (G, NULL)` yields the node holding "boursin", not "baguette". -/
theorem scenario_first_counterexample :
    ∃ s, scenario_run = Except.ok s ∧
      ∀ fuel, ∃ n, zdlist_first (fuel + 1) s 1 NULL = Except.ok n ∧
        zdlist_item s n = Except.ok boursin ∧ zdlist_item s n ≠ Except.ok baguette := by
  obtain ⟨s, h0, _, l13, l32, _, _, _, i1, i3, _, _, _, _⟩ := scenario_facts
  refine ⟨s, h0, fun fuel => ⟨3, ?_, ?_, ?_⟩⟩
  · rw [zdlist_first_guard _ NULL l13.1 i1, next_unbounded fuel l13]
    simp [State.holds_item, i3, boursin]
  · rw [zdlist_item_ok l32.1, i3]
  · rw [zdlist_item_ok l32.1, i3]
    simp [boursin, baguette]

/-- C11 (amended): starting from a guard-only ring `G` with no duplicator, after
`insert_after (G, "baguette")`, `insert_after (G, "boursin")`, `insert_before (G, NULL)`
and `insert_before (G, "bordeaux")` in that order, `zdlist_first (G, NULL)` yields the
node holding "boursin", `zdlist_next (., NULL)` yields "baguette", and the next call
yields `NULL`; `zdlist_first (G, G)` followed by `zdlist_next (., G)` yields "boursin",
"baguette", "bordeaux", then `NULL`.  This holds for every fuel of at least 2. -/
theorem scenario_traversal :
    ∃ s, scenario_run = Except.ok s ∧ IsRing s [1, 3, 2, 4, 5] ∧
      ∃ n1 n2 n3, zdlist_item s n1 = Except.ok boursin ∧
        zdlist_item s n2 = Except.ok baguette ∧ zdlist_item s n3 = Except.ok bordeaux ∧
        ∀ fuel,
          zdlist_first (fuel + 2) s 1 NULL = Except.ok n1 ∧
          zdlist_next (fuel + 2) s n1 NULL = Except.ok n2 ∧
          zdlist_next (fuel + 2) s n2 NULL = Except.ok NULL ∧
          zdlist_first (fuel + 2) s 1 1 = Except.ok n1 ∧
          zdlist_next (fuel + 2) s n1 1 = Except.ok n2 ∧
          zdlist_next (fuel + 2) s n2 1 = Except.ok n3 ∧
          zdlist_next (fuel + 2) s n3 1 = Except.ok NULL := by
  obtain ⟨s, h0, hr, l13, l32, l24, l45, l51, i1, i3, i2, i4, i5, _⟩ := scenario_facts
  have b3 : s.holds_item 3 = true := by simp [State.holds_item, i3, boursin]
  have b2 : s.holds_item 2 = true := by simp [State.holds_item, i2, baguette]
  have b4 : s.holds_item 4 = false := by simp [State.holds_item, i4]
  have e3 : s.it 3 ≠ NULL := by simp [i3, boursin]
  have e2 : s.it 2 ≠ NULL := by simp [i2, baguette]
  have e5 : s.it 5 ≠ NULL := by simp [i5, bordeaux]
  refine ⟨s, h0, hr, 3, 2, 5, by rw [zdlist_item_ok l32.1, i3], by rw [zdlist_item_ok l24.1, i2],
    by rw [zdlist_item_ok l51.1, i5], fun fuel => ⟨?_, ?_, ?_, ?_, ?_, ?_, ?_⟩⟩
  · rw [zdlist_first_guard _ NULL l13.1 i1, next_unbounded (fuel + 1) l13, b3]; rfl
  · rw [next_unbounded (fuel + 1) l32, b2]; rfl
  · rw [next_unbounded (fuel + 1) l24, b4]; rfl
  · rw [zdlist_first_guard _ 1 l13.1 i1, zdlist_next_step (fuel + 1) 1 l13]
    simp [e3]
  · rw [zdlist_next_step (fuel + 1) 1 l32]
    simp [e2]
  · rw [zdlist_next_step (fuel + 1) 1 l24]
    simp only [i4, ne_eq, not_true_eq_false, if_false]
    rw [if_neg (by decide), if_pos (by decide), zdlist_next_step fuel 1 l45]
    simp [e5]
  · rw [zdlist_next_step (fuel + 1) 1 l51]
    simp

/-- C12 (as stated, refuted): on the ring of the spec's insertion scenario, the second
`zdlist_detach` returns the node holding "boursin" and the fourth returns the second
guard; the claimed sequence guard, "baguette", "boursin", "bordeaux" does not occur. -/
theorem scenario_detach_counterexample :
    (do let s ← scenario_run; detach_repeat 4 s 1) =
      Except.ok [(NULL, 3), (boursin, 2), (baguette, 4), (NULL, 5)] ∧
    [(NULL, 3), (boursin, 2), (baguette, 4), (NULL, 5)].map Prod.fst ≠
      [NULL, baguette, boursin, bordeaux] :=
  ⟨rfl, by decide⟩

/-- C12 (amended): on the five-node ring built by the spec's insertion scenario,
repeatedly calling `zdlist_detach` with the cursor starting at `G` yields, in order, the
guard `G`, the node holding "boursin", the node holding "baguette", the second guard, and
the node holding "bordeaux"; after each call the cursor is the detached node's former
next neighbour (nodes 3, 2, 4, 5 in turn), and it becomes `NULL` only after the fifth
call, when the last member has been detached. -/
theorem scenario_detach :
    (do let s ← scenario_run; detach_repeat 5 s 1) =
      Except.ok [(NULL, 3), (boursin, 2), (baguette, 4), (NULL, 5), (bordeaux, NULL)] ∧
    (∃ s, scenario_run = Except.ok s ∧ IsRing s [1, 3, 2, 4, 5] ∧
      s.nx 1 = 3 ∧ s.nx 3 = 2 ∧ s.nx 2 = 4 ∧ s.nx 4 = 5 ∧
      s.it 3 = boursin ∧ s.it 2 = baguette ∧ s.it 5 = bordeaux ∧ s.it 1 = NULL ∧
      s.it 4 = NULL) :=
  ⟨rfl, _, rfl, by decide, by decide, by decide, by decide, by decide, by decide, by decide,
    by decide, by decide, by decide⟩


/-! ## Destroying a ring -/

theorem ring_create (s : State) {b : Ptr} (item : Ptr) (hb : b ≠ NULL) :
    IsRing (s.create b item) [b] := by
  rw [ring_singleton_iff]
  exact ⟨valid_create_self s item hb, by simp, by simp⟩

theorem inserted_de_uniform {s t : State} (ht : t = s ∨ ∃ e, t = s.emit e)
    {p b i f : Ptr} {l l2 : List Ptr} (hp : p ∈ l) (hu : ∀ m ∈ l, s.de m = f)
    (hl : ∀ m ∈ l2, m = b ∨ m ∈ l) : ∀ m ∈ l2, (t.inserted b p i).de m = f := by
  have e1 : ∀ q, t.de q = s.de q := by
    intro q
    rcases ht with h | ⟨e, h⟩ <;> subst h <;> rfl
  intro m hm
  rw [de_inserted]
  by_cases hmb : m = b
  · rw [if_pos hmb, e1 p]; exact hu p hp
  · rw [if_neg hmb, e1 m]
    rcases hl m hm with h | h
    · exact absurd h hmb
    · exact hu m h

/-- What `Built` guarantees: the list is a ring of the store (unless it is empty), every
member carries the destructor `f`, and the ring has `k + 1 - r` members. -/
theorem built_invariant {dup : Ptr → Ptr → Ptr} {f : Ptr} {k r : Nat} {s : State}
    {l : List Ptr} (h : Built dup f k r s l) :
    (l ≠ [] → IsRing s l) ∧ (∀ m ∈ l, s.de m = f) ∧ l.length + r = k + 1 := by
  induction h with
  | @head s0 s1 s b item old fuel hfresh hb hnew hset =>
    rw [zdlist_new_run s0 item hb] at hnew
    simp only [Except.ok.injEq, Prod.mk.injEq, true_and] at hnew
    subst hnew
    have hr := ring_create s0 item hb
    obtain ⟨s2, h1, h2, _, h4⟩ := set_destructor_run f hr (Nat.succ_pos fuel)
    rw [h1] at hset
    simp only [Except.ok.injEq, Prod.mk.injEq] at hset
    obtain ⟨_, e⟩ := hset
    subst e
    refine ⟨fun _ => ?_, fun m hm => ?_, rfl⟩
    · exact isRing_congr (fun q => by simp [State.valid, h2]) (fun q => (h4 q).1)
        (fun q => (h4 q).2.1) hr
    · rw [(h4 m).2.2.2.2, if_pos hm]
  | @rotate k r s x rest _ ih =>
    obtain ⟨i1, i2, i3⟩ := ih
    refine ⟨fun _ => (ring_rotate_iff s x rest).2 (i1 (List.cons_ne_nil _ _)),
      fun m hm => i2 m ?_, by simpa [Nat.add_comm] using i3⟩
    rcases List.mem_append.1 hm with h | h
    · exact List.mem_cons_of_mem _ h
    · simp at h; rw [h]; exact List.mem_cons_self _ _
  | @set_duplicator k r s s1 x d old rest fuel _ hf hset ih =>
    obtain ⟨i1, i2, i3⟩ := ih
    have hr := i1 (List.cons_ne_nil _ _)
    obtain ⟨s2, h1, h2, _, h4⟩ := set_duplicator_run d hr hf
    rw [h1] at hset
    simp only [Except.ok.injEq, Prod.mk.injEq] at hset
    obtain ⟨_, e⟩ := hset
    subst e
    refine ⟨fun _ => ?_, fun m hm => ?_, i3⟩
    · exact isRing_congr (fun q => by simp [State.valid, h2]) (fun q => (h4 q).1)
        (fun q => (h4 q).2.1) hr
    · rw [(h4 m).2.2.2.1]; exact i2 m hm
  | @insert_after k r s s1 a blk item n rest _ hfresh hrun hn0 ih =>
    obtain ⟨i1, i2, i3⟩ := ih
    have hr := i1 (List.cons_ne_nil _ _)
    have hva : s.valid a := ring_valid hr a (List.mem_cons_self _ _)
    obtain ⟨_, _, hvn⟩ := ring_nx_head hr
    obtain ⟨e1, hb0, hf, t, i, e2, ht⟩ :=
      insert_after_success_form dup s item hva hvn hfresh hrun hn0
    subst e1 e2
    have hrt : IsRing t (a :: rest) := by
      rcases ht with h | ⟨e, h⟩ <;> subst h
      · exact hr
      · exact isRing_emit e hr
    have hft : t.live n = false := by
      rcases ht with h | ⟨e, h⟩ <;> subst h <;> exact hf
    refine ⟨fun _ => ring_inserted i hrt hb0 hft, ?_, by simp at i3 ⊢; omega⟩
    refine inserted_de_uniform ht (List.mem_cons_self a rest) i2 ?_
    intro m hm
    rcases List.mem_cons.1 hm with h | h
    · exact Or.inr (h ▸ List.mem_cons_self _ _)
    · rcases List.mem_cons.1 h with h2 | h2
      · exact Or.inl h2
      · exact Or.inr (List.mem_cons_of_mem _ h2)
  | @insert_before k r s s1 a blk item n rest _ hfresh hrun hn0 ih =>
    obtain ⟨i1, i2, i3⟩ := ih
    have hr := i1 (List.cons_ne_nil _ _)
    have hva : s.valid a := ring_valid hr a (List.mem_cons_self _ _)
    obtain ⟨_, hnp, hvp⟩ := ring_pv_head hr
    have hvpn : s.valid (s.nx (s.pv a)) := by rw [hnp]; exact hva
    have hpm : s.pv a ∈ a :: rest := ring_pv_mem hr a (List.mem_cons_self _ _)
    rw [insert_before_eq_after dup blk item hva] at hrun
    obtain ⟨e1, hb0, hf, t, i, e2, ht⟩ :=
      insert_after_success_form dup s item hvp hvpn hfresh hrun hn0
    subst e1 e2
    have hrt : IsRing t (a :: rest) := by
      rcases ht with h | ⟨e, h⟩ <;> subst h
      · exact hr
      · exact isRing_emit e hr
    have hft : t.live n = false := by
      rcases ht with h | ⟨e, h⟩ <;> subst h <;> exact hf
    have hpt : t.pv a = s.pv a := by
      rcases ht with h | ⟨e, h⟩ <;> subst h <;> rfl
    have hring := ring_inserted_before i hrt hb0 hft
    rw [hpt] at hring
    refine ⟨fun _ => hring, ?_, by simp at i3 ⊢; omega⟩
    refine inserted_de_uniform ht hpm i2 ?_
    intro m hm
    rcases List.mem_append.1 hm with h | h
    · exact Or.inr h
    · exact Or.inl (by simpa using h)
  | @remove k r s s1 x item c rest _ hrun ih =>
    obtain ⟨i1, i2, i3⟩ := ih
    have hr := i1 (List.cons_ne_nil _ _)
    have hvx : s.valid x := ring_valid hr x (List.mem_cons_self _ _)
    obtain ⟨_, _, hvp⟩ := ring_pv_head hr
    obtain ⟨_, _, hvn⟩ := ring_nx_head hr
    rw [remove_run hvx hvp hvn] at hrun
    simp only [Except.ok.injEq, Prod.mk.injEq] at hrun
    obtain ⟨_, _, e⟩ := hrun
    subst e
    refine ⟨fun hne => ?_, fun m hm => ?_, by simp at i3 ⊢; omega⟩
    · cases rest with
      | nil => exact absurd rfl hne
      | cons r0 t => exact ring_removed hr
    · simpa using i2 m (List.mem_cons_of_mem _ hm)


/-- C14: `zdlist_destroy` consumes the whole ring.  On a well-formed ring of `n` nodes
read from the cursor, with fuel for `n + 1` loop tests, it returns with the cursor
`NULL`; exactly the `n` members are released; when the ring's destructor `f` is set it is
called exactly `n` times, once per member in ring order (on the node pointer), and not at
all when no destructor is set.  For a ring built from a constructed head by `k`
successful insertions and `r` removals that is `k + 1 - r` calls (none when everything
was removed and the cursor is `NULL`).  On a `NULL` cursor nothing happens. -/
theorem destroy_consumes_ring (s : State) (x : Ptr) (rest : List Ptr) (fuel : Nat)
    (hr : IsRing s (x :: rest)) (hf : rest.length + 2 ≤ fuel) :
    (∃ s1, zdlist_destroy fuel s x = Except.ok (NULL, s1) ∧
      (∀ m ∈ x :: rest, s1.live m = false) ∧ (∀ q, q ∉ x :: rest → s1.live q = s.live q) ∧
      (∀ f, f ≠ NULL → (∀ m ∈ x :: rest, s.de m = f) →
        s1.log = s.log ++ (x :: rest).map (fun m => Event.destruct f m)) ∧
      ((∀ m ∈ x :: rest, s.de m = NULL) → s1.log = s.log) ∧
      (∀ dup f k r, f ≠ NULL → Built dup f k r s (x :: rest) →
        ∃ evs, s1.log = s.log ++ evs ∧ evs.length = k + 1 - r ∧
          ∀ e ∈ evs, ∃ m, e = Event.destruct f m)) ∧
    zdlist_destroy fuel s NULL = Except.ok (NULL, s) ∧
    (∀ dup f k r s0, Built dup f k r s0 [] →
      k + 1 - r = 0 ∧ zdlist_destroy fuel s0 NULL = Except.ok (NULL, s0)) := by
  obtain ⟨j, rfl⟩ : ∃ j, fuel = j + 1 := ⟨fuel - 1, by omega⟩
  obtain ⟨s1, h1, h2, h3, _⟩ := destroy_ring rest s x (j + 1) hr (by omega)
  have hset : ∀ f, f ≠ NULL → (∀ m ∈ x :: rest, s.de m = f) →
      s1.log = s.log ++ (x :: rest).map (fun m => Event.destruct f m) := by
    intro f hf0 hu
    rw [h3]
    congr 1
    have e1 : (x :: rest).filter (fun p => decide (s.de p ≠ NULL)) = x :: rest := by
      rw [List.filter_eq_self]
      intro m hm
      rw [hu m hm]
      simpa using hf0
    rw [e1]
    exact List.map_congr_left (fun m hm => by rw [hu m hm])
  refine ⟨⟨s1, h1, fun m hm => ?_, fun q hq => ?_, hset, fun hu => ?_, ?_⟩,
    destroy_null j s, fun dup f k r s0 hb => ?_⟩
  · rw [h2, if_pos hm]
  · rw [h2, if_neg hq]
  · rw [h3]
    have e1 : (x :: rest).filter (fun p => decide (s.de p ≠ NULL)) = [] := by
      rw [List.filter_eq_nil_iff]
      intro m hm
      rw [hu m hm]
      simp
    rw [e1]
    simp
  · intro dup f k r hf0 hb
    obtain ⟨_, i2, i3⟩ := built_invariant hb
    refine ⟨_, hset f hf0 i2, ?_, ?_⟩
    · rw [List.length_map]; omega
    · intro e he
      obtain ⟨m, _, hm⟩ := List.mem_map.1 he
      exact ⟨m, hm.symm⟩
  · obtain ⟨_, _, i3⟩ := built_invariant hb
    exact ⟨by simp at i3; omega, destroy_null j s0⟩

theorem destroy_consumes_ring_witness :
    IsRing ring3d (1 :: [2, 3]) ∧ ([2, 3] : List Ptr).length + 2 ≤ 4 ∧
    ((∃ s1, zdlist_destroy 4 ring3d 1 = Except.ok (NULL, s1) ∧
      (∀ m ∈ 1 :: [2, 3], s1.live m = false) ∧
      (∀ q, q ∉ 1 :: [2, 3] → s1.live q = ring3d.live q) ∧
      (∀ f, f ≠ NULL → (∀ m ∈ 1 :: [2, 3], ring3d.de m = f) →
        s1.log = ring3d.log ++ (1 :: [2, 3]).map (fun m => Event.destruct f m)) ∧
      ((∀ m ∈ 1 :: [2, 3], ring3d.de m = NULL) → s1.log = ring3d.log) ∧
      (∀ dup f k r, f ≠ NULL → Built dup f k r ring3d (1 :: [2, 3]) →
        ∃ evs, s1.log = ring3d.log ++ evs ∧ evs.length = k + 1 - r ∧
          ∀ e ∈ evs, ∃ m, e = Event.destruct f m)) ∧
    zdlist_destroy 4 ring3d NULL = Except.ok (NULL, ring3d) ∧
    (∀ dup f k r s0, Built dup f k r s0 [] →
      k + 1 - r = 0 ∧ zdlist_destroy 4 s0 NULL = Except.ok (NULL, s0))) :=
  ⟨by decide, by decide, destroy_consumes_ring ring3d 1 [2, 3] 4 (by decide) (by decide)⟩


/-- The relation `Built` is inhabited beyond the head: the store left by `built_run` is
built with two insertions and one removal, and destroying its ring makes
`2 + 1 - 1 = 2` destructor calls. -/
theorem built_example :
    ∃ s, built_run = Except.ok s ∧ Built dup_ok 8 2 1 s [3, 2] ∧
      ∃ s1, zdlist_destroy 3 s 3 = Except.ok (NULL, s1) ∧
        s1.log = [Event.destruct 8 3, Event.destruct 8 2] := by
  have h0 := @Built.head dup_ok 8 State.empty _ _ 1 NULL _ 0 (by decide) (by decide) rfl rfl
  have h1 := @Built.insert_after dup_ok 8 _ _ _ _ 1 2 baguette _ _ h0 (by decide) rfl
    (by decide)
  have h2 := @Built.insert_after dup_ok 8 _ _ _ _ 1 3 boursin _ _ h1 (by decide) rfl
    (by decide)
  have h3 := @Built.remove dup_ok 8 _ _ _ _ 1 _ _ _ h2 rfl
  exact ⟨_, rfl, h3, _, rfl, rfl⟩


/-! ## Moving a node after itself -/

/-- A ring can be read from any of its members: cutting the list that describes it in two
and swapping the parts describes the same ring. -/
theorem ring_rotate_append (s : State) :
    ∀ (l1 l2 : List Ptr), IsRing s (l1 ++ l2) ↔ IsRing s (l2 ++ l1) := by
  intro l1
  induction l1 with
  | nil => intro l2; simp
  | cons a l1 ih =>
    intro l2
    rw [List.cons_append, ← ring_rotate_iff s a (l1 ++ l2), List.append_assoc, ih (l2 ++ [a]),
      List.append_assoc, List.singleton_append]

/-- Each member of a ring is linked to its successor, which is a member too. -/
theorem ring_member_linked {s : State} {l : List Ptr} (h : IsRing s l) {m : Ptr}
    (hm : m ∈ l) : linked s m (s.nx m) ∧ s.nx m ∈ l := by
  obtain ⟨pre, post, rfl⟩ := List.append_of_mem hm
  have h1 : IsRing s (m :: post ++ pre) := by
    have := (ring_rotate_append s pre (m :: post)).1 h
    simpa using this
  obtain ⟨_, hpn, hvn⟩ := ring_nx_head h1
  exact ⟨⟨ring_valid h m hm, hvn, rfl, hpn⟩, ring_nx_mem h m hm⟩

/-- C23: degenerate self-move.  On a well-formed ring described by the list
`pre ++ x :: post` (so `x` is any member), `zdlist_move_after (x, x)` succeeds and leaves
`x` as a singleton ring: `x->next == x->prev == x`.  Nothing is allocated or freed, no
callback runs and no item, destructor or duplicator changes, and the resulting store is
the one `zdlist_detach` leaves for the cursor `x`.  When the ring has other members they
form the ring `pre ++ post`, and the old `prev(x)` and old `next(x)` are adjacent; when
`x` is the only member the store is unchanged. -/
theorem move_after_self_detaches (s : State) (x : Ptr) (pre post : List Ptr)
    (hr : IsRing s (pre ++ x :: post)) :
    ∃ s1, zdlist_move_after s x x = Except.ok s1 ∧
      s1.nx x = x ∧ s1.pv x = x ∧ IsRing s1 [x] ∧
      s1.live = s.live ∧ s1.log = s.log ∧
      (∀ q, s1.it q = s.it q ∧ s1.de q = s.de q ∧ s1.du q = s.du q) ∧
      (∃ c, zdlist_detach s x = Except.ok (x, c, s1)) ∧
      (pre ++ post ≠ [] → IsRing s1 (pre ++ post) ∧ linked s1 (s.pv x) (s.nx x)) ∧
      (pre ++ post = [] → s1 = s) := by
  have hr1 : IsRing s (x :: (post ++ pre)) := by
    have := (ring_rotate_append s pre (x :: post)).1 hr
    simpa using this
  have hvx : s.valid x := ring_valid hr1 x (List.mem_cons_self _ _)
  obtain ⟨hpl, hnp, hvp⟩ := ring_pv_head hr1
  obtain ⟨hnh, hpn, hvn⟩ := ring_nx_head hr1
  refine ⟨_, move_after_self_run hvx hvp hvn, by simp [nx_selfloop], by simp [pv_selfloop],
    ?_, rfl, rfl, fun q => by simp, ⟨_, detach_run hvx hvp hvn⟩, ?_, ?_⟩
  · rw [ring_singleton_iff]
    exact ⟨hvx, by simp [nx_selfloop], by simp [pv_selfloop]⟩
  · intro hne
    have hne1 : post ++ pre ≠ [] := by
      intro e
      apply hne
      simp only [List.append_eq_nil] at e ⊢
      exact ⟨e.2, e.1⟩
    obtain ⟨r, t, hrt⟩ : ∃ r t, post ++ pre = r :: t := by
      cases h : post ++ pre with
      | nil => exact absurd h hne1
      | cons r t => exact ⟨r, t, rfl⟩
    rw [hrt] at hr1 hpl hnh
    simp only [List.cons_append, List.head_cons] at hnh
    have hnd := List.nodup_cons.1 hr1.1
    have hring : IsRing ((s.unlink x).selfloop x) (r :: t) := by
      refine isRing_congr_on ?_ (ring_unlink hr1)
      intro q hq
      have hqx : q ≠ x := fun e => hnd.1 (e ▸ hq)
      exact ⟨fun h => h, by simp [nx_selfloop, hqx], by simp [pv_selfloop, hqx]⟩
    refine ⟨?_, ?_⟩
    · rw [← hrt] at hring
      exact (ring_rotate_append _ post pre).1 hring
    · have hl := hring.2.2
      simp only [List.getLast_cons_cons] at hpl
      rw [← hpl, ← hnh] at hl
      exact hl
  · intro hnil
    simp only [List.append_eq_nil] at hnil
    obtain ⟨e1, e2⟩ := hnil
    subst e1 e2
    simp only [List.nil_append, List.head_cons, List.append_nil] at hnh
    simp only [List.append_nil, List.getLast_singleton] at hpl
    refine State.ext_fields rfl rfl (fun q => ?_)
    by_cases hq : q = x
    · simp [nx_selfloop, pv_selfloop, hq, hnh, hpl]
    · simp [nx_selfloop, pv_selfloop, nx_unlink, pv_unlink, hq, hnh, hpl]

theorem move_after_self_detaches_witness :
    IsRing ring3 ([1] ++ 2 :: [3]) ∧
    ∃ s1, zdlist_move_after ring3 2 2 = Except.ok s1 ∧
      s1.nx 2 = 2 ∧ s1.pv 2 = 2 ∧ IsRing s1 [2] ∧
      s1.live = ring3.live ∧ s1.log = ring3.log ∧
      (∀ q, s1.it q = ring3.it q ∧ s1.de q = ring3.de q ∧ s1.du q = ring3.du q) ∧
      (∃ c, zdlist_detach ring3 2 = Except.ok (2, c, s1)) ∧
      (([1] : List Ptr) ++ [3] ≠ [] →
        IsRing s1 ([1] ++ [3]) ∧ linked s1 (ring3.pv 2) (ring3.nx 2)) ∧
      (([1] : List Ptr) ++ [3] = [] → s1 = ring3) :=
  ⟨by decide, move_after_self_detaches ring3 2 [1] [3] (by decide)⟩


/-! ## Termination of the guard-skipping walk -/

/-- A bounded `zdlist_next` from `x` with the nodes `path` ahead, one of which is the
terminator or holds an item: the call returns, and one unit of fuel per node of `path` is
enough. -/
theorem next_reaches {s : State} {t : Ptr} (ht : t ≠ NULL) :
    ∀ (path : List Ptr) (x : Ptr), List.Chain (linked s) x path →
      (∃ z ∈ path, z = t ∨ s.it z ≠ NULL) →
      ∃ r, (r = NULL ∨ (r ∈ path ∧ s.it r ≠ NULL)) ∧
        ∀ fuel, path.length ≤ fuel → zdlist_next fuel s x t = Except.ok r := by
  intro path
  induction path with
  | nil => intro x _ h; simp at h
  | cons v p ih =>
    intro x hc hz
    rw [List.chain_cons] at hc
    by_cases hvt : v = t
    · refine ⟨NULL, Or.inl rfl, ?_⟩
      intro fuel hf
      obtain ⟨k, rfl⟩ : ∃ k, fuel = k + 1 := ⟨fuel - 1, by simp at hf; omega⟩
      rw [zdlist_next_step k t hc.1, if_pos hvt]
    · by_cases hi : s.it v ≠ NULL
      · refine ⟨v, Or.inr ⟨List.mem_cons_self _ _, hi⟩, ?_⟩
        intro fuel hf
        obtain ⟨k, rfl⟩ : ∃ k, fuel = k + 1 := ⟨fuel - 1, by simp at hf; omega⟩
        rw [zdlist_next_step k t hc.1, if_neg hvt, if_pos hi]
      · have hz2 : ∃ z ∈ p, z = t ∨ s.it z ≠ NULL := by
          obtain ⟨z, hzm, hzp⟩ := hz
          rcases List.mem_cons.1 hzm with e | e
          · subst e
            rcases hzp with h | h
            · exact absurd h hvt
            · exact absurd h hi
          · exact ⟨z, e, hzp⟩
        obtain ⟨r, hr1, hr2⟩ := ih v hc.2 hz2
        refine ⟨r, ?_, ?_⟩
        · rcases hr1 with h | h
          · exact Or.inl h
          · exact Or.inr ⟨List.mem_cons_of_mem _ h.1, h.2⟩
        · intro fuel hf
          obtain ⟨k, rfl⟩ : ∃ k, fuel = k + 1 := ⟨fuel - 1, by simp at hf; omega⟩
          rw [zdlist_next_step k t hc.1, if_neg hvt, if_neg hi, if_pos ht]
          exact hr2 k (by simp at hf; omega)

/-- On a ring of guards only, a `zdlist_next` with a present terminator outside the ring
uses up any budget. -/
theorem next_spins {s : State} {l : List Ptr} {t : Ptr} (hr : IsRing s l) (ht : t ≠ NULL)
    (hout : t ∉ l) (hg : ∀ z ∈ l, s.it z = NULL) :
    ∀ (fuel : Nat) (x : Ptr), x ∈ l → zdlist_next fuel s x t = Except.error Err.fuel := by
  intro fuel
  induction fuel with
  | zero => intro x _; rfl
  | succ k ih =>
    intro x hx
    obtain ⟨hl, hm⟩ := ring_member_linked hr hx
    have hnt : s.nx x ≠ t := fun e => hout (e ▸ hm)
    have hi : ¬ s.it (s.nx x) ≠ NULL := by simp [hg _ hm]
    rw [zdlist_next_step k t hl, if_neg hnt, if_neg hi, if_pos ht]
    exact ih _ hm

/-- C22: termination of `zdlist_next`.  On a well-formed ring `l` with member `last`: if
the terminator is `NULL`, or a member of the ring, or the ring has an item-holding node,
then `zdlist_next (last, terminator)` returns, with a result that is `NULL` or an
item-holding member, and a budget of one recursive call (one inspected node) per member
of the ring is enough; in every other case, that is a ring of guards only with a present
terminator outside it, the call uses up every budget: the recursion never returns. -/
theorem next_terminates_iff (s : State) (l : List Ptr) (last t : Ptr)
    (hr : IsRing s l) (hm : last ∈ l) :
    ((t = NULL ∨ t ∈ l ∨ ∃ z ∈ l, s.it z ≠ NULL) →
      ∃ r, (r = NULL ∨ (r ∈ l ∧ s.it r ≠ NULL)) ∧
        ∀ fuel, l.length ≤ fuel → zdlist_next fuel s last t = Except.ok r) ∧
    (¬ (t = NULL ∨ t ∈ l ∨ ∃ z ∈ l, s.it z ≠ NULL) →
      ∀ fuel, zdlist_next fuel s last t = Except.error Err.fuel) := by
  constructor
  · intro hpre
    by_cases ht : t = NULL
    · subst ht
      obtain ⟨hl, hmem⟩ := ring_member_linked hr hm
      refine ⟨if s.holds_item (s.nx last) then s.nx last else NULL, ?_, ?_⟩
      · by_cases hb : s.holds_item (s.nx last) = true
        · rw [if_pos hb]
          exact Or.inr ⟨hmem, by simpa [State.holds_item] using hb⟩
        · rw [if_neg hb]
          exact Or.inl rfl
      · intro fuel hf
        have hpos : 0 < l.length := List.length_pos_of_mem hm
        obtain ⟨k, rfl⟩ : ∃ k, fuel = k + 1 := ⟨fuel - 1, by omega⟩
        exact next_unbounded k hl
    · obtain ⟨pre, post, rfl⟩ := List.append_of_mem hm
      have h1 : IsRing s (last :: (post ++ pre)) := by
        have := (ring_rotate_append s pre (last :: post)).1 hr
        simpa using this
      have hc : List.Chain (linked s) last ((post ++ pre) ++ [last]) :=
        (chain_snoc (post ++ pre) last).2 ⟨h1.2.1, h1.2.2⟩
      have hmem : ∀ z, z ∈ (post ++ pre) ++ [last] ↔ z ∈ pre ++ last :: post := by
        intro z
        simp only [List.mem_append, List.mem_cons, List.mem_singleton, List.not_mem_nil,
          or_false]
        tauto
      have hz : ∃ z ∈ (post ++ pre) ++ [last], z = t ∨ s.it z ≠ NULL := by
        rcases hpre with h | h | ⟨z, hz1, hz2⟩
        · exact absurd h ht
        · exact ⟨t, (hmem t).2 h, Or.inl rfl⟩
        · exact ⟨z, (hmem z).2 hz1, Or.inr hz2⟩
      obtain ⟨r, hr1, hr2⟩ := next_reaches ht _ last hc hz
      refine ⟨r, ?_, ?_⟩
      · rcases hr1 with h | h
        · exact Or.inl h
        · exact Or.inr ⟨(hmem r).1 h.1, h.2⟩
      · intro fuel hf
        refine hr2 fuel ?_
        simp only [List.length_append, List.length_cons, List.length_nil] at hf ⊢
        omega
  · intro hn
    simp only [not_or, not_exists, not_and, not_not] at hn
    obtain ⟨ht, hout, hg⟩ := hn
    intro fuel
    exact next_spins hr ht hout (fun z hz => by simpa using hg z hz) fuel last hm

theorem next_terminates_iff_witness :
    (IsRing guard_rings [1, 2] ∧ (1 : Ptr) ∈ ([1, 2] : List Ptr) ∧
      ¬ ((3 : Ptr) = NULL ∨ (3 : Ptr) ∈ ([1, 2] : List Ptr) ∨
          ∃ z ∈ ([1, 2] : List Ptr), guard_rings.it z ≠ NULL) ∧
      ∀ fuel, zdlist_next fuel guard_rings 1 3 = Except.error Err.fuel) ∧
    (IsRing ring5 [1, 2, 3, 4, 5] ∧ (4 : Ptr) ∈ ([1, 2, 3, 4, 5] : List Ptr) ∧
      ((7 : Ptr) = NULL ∨ (7 : Ptr) ∈ ([1, 2, 3, 4, 5] : List Ptr) ∨
          ∃ z ∈ ([1, 2, 3, 4, 5] : List Ptr), ring5.it z ≠ NULL) ∧
      ∃ r, (r = NULL ∨ (r ∈ ([1, 2, 3, 4, 5] : List Ptr) ∧ ring5.it r ≠ NULL)) ∧
        ∀ fuel, ([1, 2, 3, 4, 5] : List Ptr).length ≤ fuel →
          zdlist_next fuel ring5 4 7 = Except.ok r) :=
  ⟨⟨by decide, by decide, by decide,
      (next_terminates_iff guard_rings [1, 2] 1 3 (by decide) (by decide)).2 (by decide)⟩,
    ⟨by decide, by decide, by decide,
      (next_terminates_iff ring5 [1, 2, 3, 4, 5] 4 7 (by decide) (by decide)).1 (by decide)⟩⟩


/-! ## A queue behind a guard head -/

/-- The bounded traversal of a ring from its head, in closed form. -/
theorem traversal_bounded_eq {s : State} {h : Ptr} {rest : List Ptr} {fuel : Nat}
    (hr : IsRing s (h :: rest)) (hf : rest.length + 2 ≤ fuel) :
    traversal fuel s h h = Except.ok ((h :: rest).filter s.holds_item) := by
  have hh : s.valid h := ring_valid hr h (List.mem_cons_self _ _)
  obtain ⟨hnd, hc, hl⟩ := hr
  have hne : ∀ v ∈ rest, v ≠ h := fun v hv e => (List.nodup_cons.1 hnd).1 (e ▸ hv)
  have hnext := next_bounded hh rest h fuel hc hl hne (by omega)
  unfold traversal zdlist_first
  simp only [hh.1, if_false, pure_eq_ok, ok_bind, get_item_ok hh]
  by_cases hb : s.holds_item h = true
  · have hi : s.it h ≠ NULL := by simpa [State.holds_item] using hb
    rw [if_pos hi]
    simp only [ok_bind]
    obtain ⟨j, rfl⟩ : ∃ j, fuel = j + 1 := ⟨fuel - 1, by omega⟩
    rw [walk_next, if_neg hh.1, hnext]
    simp only [ok_bind]
    rw [walk_bounded hh (j + 1) rest h j hc hl hne (by omega) (by omega),
      List.filter_cons_of_pos hb]
    rfl
  · have hi : ¬ s.it h ≠ NULL := by simpa [State.holds_item] using hb
    rw [if_neg hi, hnext]
    simp only [ok_bind]
    rw [walk_bounded hh fuel rest h fuel hc hl hne (by omega) (by omega),
      List.filter_cons_of_neg hb]

/-- The unbounded traversal of a ring from a guard, in closed form. -/
theorem traversal_unbounded_eq {s : State} {g : Ptr} {rest : List Ptr} {fuel : Nat}
    (hr : IsRing s (g :: rest)) (hg : s.it g = NULL) (hf : rest.length + 2 ≤ fuel) :
    traversal fuel s g NULL = Except.ok (rest.takeWhile s.holds_item) := by
  have hh : s.valid g := ring_valid hr g (List.mem_cons_self _ _)
  obtain ⟨hnd, hc, hl⟩ := hr
  obtain ⟨j, rfl⟩ : ∃ j, fuel = j + 1 := ⟨fuel - 1, by omega⟩
  unfold traversal zdlist_first
  simp only [hh.1, if_false, pure_eq_ok, ok_bind, get_item_ok hh, hg, ne_eq,
    not_true_eq_false]
  rw [next_stop_at_guard j hg hc hl]
  simp only [ok_bind]
  exact walk_unbounded hg j rest g (j + 1) hc hl (by omega)

/-- Inserting before the head `G` of a ring whose members have no duplicator, once per
item: every call succeeds with the block the allocator gave it, the new nodes line up
behind the old members in call order, each holds its item, and no callback runs. -/
theorem insert_before_each_run (dup : Ptr → Ptr → Ptr) (G : Ptr) :
    ∀ (bxs : List (Ptr × Ptr)) (s : State) (nodes : List Ptr),
      IsRing s (G :: nodes) → (∀ z ∈ G :: nodes, s.du z = NULL) →
      (∀ p ∈ bxs, p.1 ≠ NULL ∧ s.live p.1 = false) → (bxs.map Prod.fst).Nodup →
      ∃ s1, insert_before_each dup G s bxs = Except.ok (bxs.map Prod.fst, s1) ∧
        IsRing s1 (G :: nodes ++ bxs.map Prod.fst) ∧ s1.log = s.log ∧
        (∀ z ∈ G :: nodes, s1.it z = s.it z) ∧ ∀ p ∈ bxs, s1.it p.1 = p.2 := by
  intro bxs
  induction bxs with
  | nil =>
    intro s nodes hr _ _ _
    exact ⟨s, rfl, by simpa using hr, rfl, fun _ _ => rfl, by simp⟩
  | cons p rest ih =>
    intro s nodes hr hdu hfr hnd
    obtain ⟨b, x⟩ := p
    have hb : b ≠ NULL := (hfr (b, x) (List.mem_cons_self _ _)).1
    have hf : s.live b = false := (hfr (b, x) (List.mem_cons_self _ _)).2
    have hvG : s.valid G := ring_valid hr G (List.mem_cons_self _ _)
    obtain ⟨_, hnp, hvp⟩ := ring_pv_head hr
    have hpm : s.pv G ∈ G :: nodes := ring_pv_mem hr G (List.mem_cons_self _ _)
    have hrun : zdlist_insert_before dup b s G x =
        Except.ok (b, s.inserted b (s.pv G) x) := by
      rw [insert_before_eq_after dup b x hvG]
      exact insert_after_run_plain dup s hvp hb hf (by rw [hnp]; exact hvG)
        (Or.inl (hdu _ hpm))
    have hring : IsRing (s.inserted b (s.pv G) x) (G :: (nodes ++ [b])) := by
      have := ring_inserted_before x hr hb hf
      simpa using this
    have hold : ∀ z ∈ G :: nodes, z ≠ b := fun z hz =>
      ne_of_valid_of_fresh (ring_valid hr z hz) hf
    have hdu2 : ∀ z ∈ G :: (nodes ++ [b]), (s.inserted b (s.pv G) x).du z = NULL := by
      intro z hz
      rw [du_inserted]
      by_cases hzb : z = b
      · rw [if_pos hzb]; exact hdu _ hpm
      · rw [if_neg hzb]
        refine hdu z ?_
        simp only [List.mem_cons, List.mem_append, List.mem_singleton, List.not_mem_nil,
          or_false] at hz ⊢
        tauto
    simp only [List.map_cons, List.nodup_cons] at hnd
    have hfr2 : ∀ p ∈ rest, p.1 ≠ NULL ∧ (s.inserted b (s.pv G) x).live p.1 = false := by
      intro p hp
      obtain ⟨h1, h2⟩ := hfr p (List.mem_cons_of_mem _ hp)
      refine ⟨h1, ?_⟩
      by_contra hlive
      have hv : (s.inserted b (s.pv G) x).valid p.1 := ⟨h1, by simpa using hlive⟩
      rcases (valid_inserted s (s.pv G) x p.1 hb).1 hv with e | e
      · exact hnd.1 (e ▸ List.mem_map_of_mem Prod.fst hp)
      · have := e.2
        rw [h2] at this
        exact absurd this (by simp)
    obtain ⟨s1, r1, r2, r3, r4, r5⟩ := ih _ (nodes ++ [b]) hring hdu2 hfr2 hnd.2
    refine ⟨s1, ?_, ?_, ?_, ?_, ?_⟩
    · rw [insert_before_each, hrun]
      simp only [ok_bind, r1, pure_eq_ok, List.map_cons]
    · simpa using r2
    · rw [r3]; rfl
    · intro z hz
      have hz2 : z ∈ G :: (nodes ++ [b]) := by
        simp only [List.mem_cons, List.mem_append, List.mem_singleton, List.not_mem_nil,
          or_false] at hz ⊢
        tauto
      rw [r4 z hz2, it_inserted, if_neg (hold z hz)]
    · intro p hp
      rcases List.mem_cons.1 hp with e | e
      · subst e
        have hz2 : b ∈ G :: (nodes ++ [b]) := by simp
        rw [r4 b hz2, it_inserted, if_pos rfl]
      · exact r5 p e


/-- C21: queue order through a guard head.  Let `G` be a ring of its own, a guard with no
duplicator, and let `bxs` pair each present item with the block the allocator hands out
during its insertion (blocks present, unused and distinct, so that every allocation
succeeds).  After `zdlist_insert_before (G, x)` for each item in order, the ring read
from `G` is `G` followed by the new nodes in insertion order, each node holds its item and
no callback has run.  With the terminator `G` as well as with the terminator `NULL`, the
calls `zdlist_first (G, t)`, `zdlist_next (., t)`, ... return exactly the new nodes in
insertion order, so the items come out as inserted, and the call on the last of them
(or `zdlist_first` itself when there is no item) returns `NULL`. -/
theorem queue_order (dup : Ptr → Ptr → Ptr) (s : State) (G : Ptr) (bxs : List (Ptr × Ptr))
    (fuel : Nat) (hr : IsRing s [G]) (hg : s.it G = NULL) (hd : s.du G = NULL)
    (hb : ∀ p ∈ bxs, p.1 ≠ NULL ∧ s.live p.1 = false) (hnd : (bxs.map Prod.fst).Nodup)
    (hx : ∀ p ∈ bxs, p.2 ≠ NULL) (hf : bxs.length + 2 ≤ fuel) :
    ∃ s1, insert_before_each dup G s bxs = Except.ok (bxs.map Prod.fst, s1) ∧
      IsRing s1 (G :: bxs.map Prod.fst) ∧ s1.log = s.log ∧
      (∀ p ∈ bxs, zdlist_item s1 p.1 = Except.ok p.2) ∧
      (bxs.map Prod.fst).map s1.it = bxs.map Prod.snd ∧
      ∀ t, t = G ∨ t = NULL →
        traversal fuel s1 G t = Except.ok (bxs.map Prod.fst) ∧
        zdlist_first fuel s1 G t = Except.ok ((bxs.map Prod.fst).head?.getD NULL) ∧
        (∀ z zs, bxs.map Prod.fst = z :: zs →
          List.Chain (fun u v => zdlist_next fuel s1 u t = Except.ok v) z zs) ∧
        ∀ z ∈ (bxs.map Prod.fst).getLast?, zdlist_next fuel s1 z t = Except.ok NULL := by
  have hdu : ∀ z ∈ G :: ([] : List Ptr), s.du z = NULL := by
    intro z hz
    simp only [List.mem_singleton] at hz
    rw [hz]; exact hd
  obtain ⟨s1, r1, r2, r3, r4, r5⟩ := insert_before_each_run dup G bxs s [] hr hdu hb hnd
  have r2 : IsRing s1 (G :: bxs.map Prod.fst) := r2
  have hG : s1.it G = NULL := by rw [r4 G (List.mem_cons_self _ _)]; exact hg
  have hall : ∀ z ∈ bxs.map Prod.fst, s1.holds_item z = true := by
    intro z hz
    obtain ⟨p, hp, rfl⟩ := List.mem_map.1 hz
    simp [State.holds_item, r5 p hp, hx p hp]
  have hGb : s1.holds_item G = false := by simp [State.holds_item, hG]
  have hlen : (bxs.map Prod.fst).length + 2 ≤ fuel := by simpa using hf
  have mainB : traversal fuel s1 G G = Except.ok (bxs.map Prod.fst) := by
    rw [traversal_bounded_eq r2 hlen, List.filter_cons_of_neg (by simp [hGb]),
      List.filter_eq_self.2 hall]
  have mainU : traversal fuel s1 G NULL = Except.ok (bxs.map Prod.fst) := by
    rw [traversal_unbounded_eq r2 hG hlen, List.takeWhile_eq_self_iff.2 hall]
  refine ⟨s1, r1, r2, r3, ?_, ?_, ?_⟩
  · intro p hp
    have hv : s1.valid p.1 :=
      ring_valid r2 p.1 (List.mem_cons_of_mem _ (List.mem_map_of_mem Prod.fst hp))
    rw [zdlist_item_ok hv, r5 p hp]
  · rw [List.map_map]
    exact List.map_congr_left (fun p hp => r5 p hp)
  · intro t ht
    rcases ht with e | e
    · subst e
      exact ⟨mainB, traverse_calls mainB⟩
    · subst e
      exact ⟨mainU, traverse_calls mainU⟩

theorem queue_order_witness :
    IsRing (State.empty.create 1 NULL) [1] ∧ (State.empty.create 1 NULL).it 1 = NULL ∧
    (State.empty.create 1 NULL).du 1 = NULL ∧
    (∀ p ∈ ([(2, 21), (3, 31)] : List (Ptr × Ptr)),
      p.1 ≠ NULL ∧ (State.empty.create 1 NULL).live p.1 = false) ∧
    (([(2, 21), (3, 31)] : List (Ptr × Ptr)).map Prod.fst).Nodup ∧
    (∀ p ∈ ([(2, 21), (3, 31)] : List (Ptr × Ptr)), p.2 ≠ NULL) ∧
    ([(2, 21), (3, 31)] : List (Ptr × Ptr)).length + 2 ≤ 4 ∧
    ∃ s1, insert_before_each dup_ok 1 (State.empty.create 1 NULL) [(2, 21), (3, 31)] =
        Except.ok (([(2, 21), (3, 31)] : List (Ptr × Ptr)).map Prod.fst, s1) ∧
      IsRing s1 (1 :: ([(2, 21), (3, 31)] : List (Ptr × Ptr)).map Prod.fst) ∧
      s1.log = (State.empty.create 1 NULL).log ∧
      (∀ p ∈ ([(2, 21), (3, 31)] : List (Ptr × Ptr)), zdlist_item s1 p.1 = Except.ok p.2) ∧
      (([(2, 21), (3, 31)] : List (Ptr × Ptr)).map Prod.fst).map s1.it =
        ([(2, 21), (3, 31)] : List (Ptr × Ptr)).map Prod.snd ∧
      ∀ t, t = 1 ∨ t = NULL →
        traversal 4 s1 1 t =
          Except.ok (([(2, 21), (3, 31)] : List (Ptr × Ptr)).map Prod.fst) ∧
        zdlist_first 4 s1 1 t =
          Except.ok ((([(2, 21), (3, 31)] : List (Ptr × Ptr)).map Prod.fst).head?.getD NULL) ∧
        (∀ z zs, ([(2, 21), (3, 31)] : List (Ptr × Ptr)).map Prod.fst = z :: zs →
          List.Chain (fun u v => zdlist_next 4 s1 u t = Except.ok v) z zs) ∧
        ∀ z ∈ (([(2, 21), (3, 31)] : List (Ptr × Ptr)).map Prod.fst).getLast?,
          zdlist_next 4 s1 z t = Except.ok NULL :=
  ⟨by decide, by decide, by decide, by decide, by decide, by decide, by decide,
    queue_order dup_ok (State.empty.create 1 NULL) 1 [(2, 21), (3, 31)] 4 (by decide)
      (by decide) (by decide) (by decide) (by decide) (by decide) (by decide)⟩

end Zdlist
